import Mathlib

/-!
Input resolution of `buf`: a shallow embedding.

The development embeds, function by function, the Go sources

* `internal/buf/bufbuild/proto_file_set.go`  (`newProtoFileSet`, `GetRootFilePath`, ...)
* `internal/buf/bufbuild/config.go`          (`newConfig`, `transformFileListForConfig`)
* `internal/buf/bufos/internal/input_ref_parser.go` (`ParseInputRef`, ...)
* `internal/pkg/stringutil/stringutil.go`

Conventions of the embedding.

* A Go `string` is a Lean `String`; Go compares strings byte by byte, which on
  UTF-8 text is the comparison of the code points, see `lessChars`.
* A Go `(T, error)` result is `Except Error T`.
* A Go `map[string]string` is a list of key/value pairs with pairwise distinct
  keys; the order of the list is the order in which `range` visits the map.
  A `map[string]struct{}` is the list of its keys.
* An error keeps its category and the format string of the call that creates
  it; the arguments of the format string are not interpolated.
-/

set_option linter.unusedVariables false

namespace Buf

/-! ## Errors (`internal/pkg/errs`) -/

/-- Errors returned by the embedded functions. `Internal` stands for
`errs.NewInternal` and `errs.NewInternalf`, `InvalidArgument` for
`errs.NewInvalidArgumentf`, and `ErrFilePathUnknown` is the sentinel of
package `bufbuild`. -/
inductive Error where
  | Internal (msg : String)
  | InvalidArgument (msg : String)
  | ErrFilePathUnknown
  deriving DecidableEq, Repr

/-- A user-input error: one created by `errs.NewInvalidArgumentf`. -/
def Error.isInvalidArgument : Error → Bool
  | .InvalidArgument _ => true
  | _ => false

/-- An internal (system) error: one created by `errs.NewInternal(f)`. -/
def Error.isInternal : Error → Bool
  | .Internal _ => true
  | _ => false

/-! ## Go strings and `sort` -/

/-- Go's `<` on strings, on the characters of the two strings. -/
def lessChars : List Char → List Char → Bool
  | [], [] => false
  | [], _ :: _ => true
  | _ :: _, [] => false
  | a :: as, b :: bs =>
    if a.toNat < b.toNat then true
    else if b.toNat < a.toNat then false
    else lessChars as bs

/-- Go's `a < b` for strings. -/
def stringLess (a b : String) : Bool := lessChars a.data b.data

/-- Go's `a <= b` for strings. -/
def stringLE (a b : String) : Prop := stringLess b a = false

instance stringLE.decidable : DecidableRel stringLE :=
  fun a b => inferInstanceAs (Decidable (stringLess b a = false))

/-- Go's `sort.Strings`. -/
def sortStrings (l : List String) : List String :=
  List.insertionSort stringLE l

/-- Go's `strings.HasPrefix`. -/
def HasPrefix (s pre : String) : Bool := pre.data.isPrefixOf s.data

/-! ## Go maps -/

/-- A Go `map[string]string`: its entries in the order `range` visits them. -/
abbrev GoMap := List (String × String)

/-- The keys of a map are pairwise distinct. -/
def GoMap.WF (m : GoMap) : Prop := (m.map Prod.fst).Nodup

/-- Go's `v, ok := m[k]`. -/
def GoMap.get (m : GoMap) (k : String) : Option String := m.lookup k

/-- Go's `m[k] = v`. -/
def GoMap.set (m : GoMap) (k v : String) : GoMap :=
  (k, v) :: m.filter (fun e => e.1 != k)

/-! ## Collaborators outside the embedded files -/

/-- Input formats (type `Format` of package `bufos/internal`); `unset` is the
zero value of the Go type, which `ParseInputRef` tests with `Format == 0`. -/
inductive Format where
  | unset
  | FormatBin
  | FormatBinGz
  | FormatDir
  | FormatGit
  | FormatJSON
  | FormatJSONGz
  | FormatTar
  | FormatTarGz
  deriving DecidableEq, Repr

/-- The functions of other packages that the embedded files call and whose
source is not among them: `storagepath.NormalizeAndValidate`,
`storagepath.MapContainsMatch` (on the key list of the map),
`osutil.DevNull` and `parseFormatOverride`. -/
structure Externals where
  NormalizeAndValidate : String → Except Error String
  MapContainsMatch : List String → String → Bool
  DevNull : Except Error String
  parseFormatOverride : String → String → Except Error Format

/-! ## Go standard library: `strings`, `path/filepath`, `strconv` -/

/-- Go's `unicode.IsSpace`. -/
def isSpace (c : Char) : Bool :=
  let n := c.toNat
  (9 ≤ n && n ≤ 13) || n == 32 || n == 0x85 || n == 0xA0 || n == 0x1680 ||
    (0x2000 ≤ n && n ≤ 0x200a) || n == 0x2028 || n == 0x2029 || n == 0x202f ||
    n == 0x205f || n == 0x3000

/-- Go's `strings.TrimSpace`. -/
def TrimSpace (s : String) : String :=
  ⟨((s.data.dropWhile isSpace).reverse.dropWhile isSpace).reverse⟩

/-- Go's `strings.Split(s, sep)` for a separator of one character. -/
def Split (s : String) (sep : Char) : List String :=
  (s.data.splitOn sep).map String.mk

/-- The backwards scan of Go's `filepath.Ext` on the reversed path: it stops at
a path separator and returns the suffix that starts at the first dot met. -/
def extRev : List Char → List Char → List Char
  | [], _ => []
  | c :: rest, acc =>
    if c = '/' then []
    else if c = '.' then '.' :: acc
    else extRev rest (c :: acc)

/-- Go's `filepath.Ext` (separator `/`). -/
def Ext (path : String) : String := ⟨extRev path.data.reverse []⟩

/-- Go's `strings.TrimSuffix`. -/
def TrimSuffix (s suffix : String) : String :=
  if suffix.data.isSuffixOf s.data then
    ⟨s.data.take (s.data.length - suffix.data.length)⟩
  else s

/-- The digit loop of Go's `strconv.ParseUint` in base 10. -/
def parseDigits : List Char → Nat → Option Nat
  | [], n => some n
  | c :: rest, n =>
    if 48 ≤ c.toNat ∧ c.toNat ≤ 57 then parseDigits rest (n * 10 + (c.toNat - 48))
    else none

/-- Go's `strconv.ParseUint(s, 10, 32)`: `none` when it returns an error
(empty input, a character that is not a decimal digit, or a value that does
not fit in 32 bits). -/
def ParseUint32 (s : String) : Option Nat :=
  if s = "" then none
  else
    match parseDigits s.data 0 with
    | none => none
    | some n => if n < 2 ^ 32 then some n else none

/-! ## `proto_file_set.go` -/

/-- The Go struct `rootRealFilePath`. -/
structure rootRealFilePath where
  rootFilePath : String
  realFilePath : String
  deriving DecidableEq, Repr

/-- The Go struct `protoFileSet`. -/
structure protoFileSet where
  roots : List String
  rootFilePathToRealFilePath : GoMap
  realFilePathToRootFilePath : GoMap
  sortedRootRealFilePaths : List rootRealFilePath
  deriving DecidableEq, Repr

/-- The comparison handed to `sort.Slice` in `newProtoFileSet`, as `<=`. -/
def rootRealFilePath.le (a b : rootRealFilePath) : Prop :=
  stringLess b.rootFilePath a.rootFilePath = false

instance rootRealFilePath.le.decidable : DecidableRel rootRealFilePath.le :=
  fun a b => inferInstanceAs (Decidable (stringLess b.rootFilePath a.rootFilePath = false))

/-- The `for ... range rootFilePathToRealFilePath` loop of `newProtoFileSet`:
the entries still to visit, the reverse map and the slice built so far. -/
def newProtoFileSetLoop :
    List (String × String) → GoMap → List rootRealFilePath →
      Except Error (GoMap × List rootRealFilePath)
  | [], realFilePathToRootFilePath, rootRealFilePaths =>
    .ok (realFilePathToRootFilePath, rootRealFilePaths)
  | (rootFilePath, realFilePath) :: rest, realFilePathToRootFilePath, rootRealFilePaths =>
    if (realFilePathToRootFilePath.get realFilePath).isSome then
      .error (.Internal "real file path %q passed with duplicate root file path %q")
    else
      newProtoFileSetLoop rest
        (realFilePathToRootFilePath.set realFilePath rootFilePath)
        (rootRealFilePaths ++ [⟨rootFilePath, realFilePath⟩])

/-- Go's `newProtoFileSet`. -/
def newProtoFileSet (roots : List String) (rootFilePathToRealFilePath : GoMap) :
    Except Error protoFileSet :=
  match newProtoFileSetLoop rootFilePathToRealFilePath [] [] with
  | .error e => .error e
  | .ok (realFilePathToRootFilePath, rootRealFilePaths) =>
    .ok {
      roots := roots
      rootFilePathToRealFilePath := rootFilePathToRealFilePath
      realFilePathToRootFilePath := realFilePathToRootFilePath
      sortedRootRealFilePaths := List.insertionSort rootRealFilePath.le rootRealFilePaths }

/-- Go's `(*protoFileSet).Roots`. -/
def protoFileSet.Roots (s : protoFileSet) : List String := s.roots

/-- Go's `(*protoFileSet).RootFilePaths`. -/
def protoFileSet.RootFilePaths (s : protoFileSet) : List String :=
  s.sortedRootRealFilePaths.map (·.rootFilePath)

/-- Go's `(*protoFileSet).RealFilePaths`. -/
def protoFileSet.RealFilePaths (s : protoFileSet) : List String :=
  s.sortedRootRealFilePaths.map (·.realFilePath)

/-- Go's `(*protoFileSet).GetRootFilePath`. -/
def protoFileSet.GetRootFilePath (x : Externals) (s : protoFileSet) (realFilePath : String) :
    Except Error String :=
  if realFilePath = "" then .error (.Internal "file path empty")
  else
    match x.NormalizeAndValidate realFilePath with
    | .error err => .error err
    | .ok realFilePath =>
      match s.realFilePathToRootFilePath.get realFilePath with
      | none => .error .ErrFilePathUnknown
      | some rootFilePath => .ok rootFilePath

/-- Go's `(*protoFileSet).GetRealFilePath`. -/
def protoFileSet.GetRealFilePath (x : Externals) (s : protoFileSet) (rootFilePath : String) :
    Except Error String :=
  if rootFilePath = "" then .error (.Internal "file path empty")
  else
    match x.NormalizeAndValidate rootFilePath with
    | .error err => .error err
    | .ok rootFilePath =>
      match s.rootFilePathToRealFilePath.get rootFilePath with
      | none => .error .ErrFilePathUnknown
      | some realFilePath => .ok realFilePath

/-- Go's `(*protoFileSet).GetFilePath`. -/
def protoFileSet.GetFilePath (x : Externals) (s : protoFileSet) (inputFilePath : String) :
    Except Error String :=
  s.GetRealFilePath x inputFilePath

/-! ## `stringutil.go` -/

/-- Go's `stringutil.SliceToMap`: the keys of the resulting set, each once. -/
def SliceToMap (s : List String) : List String :=
  s.foldl (fun m e => if e ∈ m then m else m ++ [e]) []

/-- Go's `stringutil.MapToSortedSlice`, on the keys of the set in the order in
which `range` visits them. -/
def MapToSortedSlice (m : List String) : List String := sortStrings m

/-- Go's `stringutil.SliceToUniqueSortedSlice`. -/
def SliceToUniqueSortedSlice (s : List String) : List String :=
  MapToSortedSlice (SliceToMap s)

/-- Go's `strings.Join(elems, sep)` for a separator of one character. -/
def Join (elems : List String) (sep : Char) : String :=
  ⟨[sep].intercalate (elems.map String.data)⟩

/-- Go's `stringutil.TrimLines`. -/
def TrimLines (output : String) : String :=
  let split := Split (TrimSpace output) '\n'
  let lines := split.map TrimSpace
  TrimSpace (Join lines '\n')

/-- The loop `for chunkSize < len(c)` of `SliceToChunks`, run for at most
`fuel` rounds; `none` when the rounds are used up before the loop ends. -/
def SliceToChunksLoop (chunkSize : Nat) :
    Nat → List String → List (List String) → Option (List (List String))
  | 0, _, _ => none
  | fuel + 1, c, chunks =>
    if chunkSize < c.length then
      SliceToChunksLoop chunkSize fuel (c.drop chunkSize) (chunks ++ [c.take chunkSize])
    else some (chunks ++ [c])

/-- Go's `stringutil.SliceToChunks`; the loop is given `len(s)` rounds and
the result is `none` if they do not suffice. -/
def SliceToChunks (s : List String) (chunkSize : Int) : Option (List (List String)) :=
  if s.length = 0 then some []
  else if chunkSize ≤ 0 then some [s]
  else SliceToChunksLoop chunkSize.toNat s.length s []

/-- Go's `isDelimiter`. -/
def isDelimiter (r : Char) : Bool :=
  r == '-' || r == '_' || r == ' ' || r == '\t' || r == '\n' || r == '\r'

/-- Go's `isSnakeCaseNewWord`, with `unicode.IsUpper` and `unicode.IsDigit`
on ASCII characters. -/
def isSnakeCaseNewWord (r : Char) (newWordOnDigits : Bool) : Bool :=
  if newWordOnDigits then r.isUpper || r.isDigit
  else r.isUpper

/-- Go's `strings.TrimFunc`. -/
def TrimFunc (s : List Char) (f : Char → Bool) : List Char :=
  ((s.dropWhile f).reverse.dropWhile f).reverse

/-- The test `i < len(s)-1 && !isSnakeCaseNewWord(rune(s[i+1]), true) &&
!isDelimiter(rune(s[i+1]))` of `toSnakeCase`, on the characters after
`s[i]`. -/
def nextContinuesWord : List Char → Bool
  | next :: _ => !isSnakeCaseNewWord next true && !isDelimiter next
  | [] => false

/-- The loop of `toSnakeCase` on an ASCII string: `prev` is `s[i-1]`, or
`none` when `i == 0`, the list holds `s[i]`, `s[i+1]`, ... and `output` is
the output so far. -/
def toSnakeCaseLoop (newWordOnDigits : Bool) :
    Option Char → List Char → List Char → List Char
  | _, [], output => output
  | prev, c0 :: rest, output =>
    let c := if isDelimiter c0 then '_' else c0
    match prev with
    | none => toSnakeCaseLoop newWordOnDigits (some c0) rest (output ++ [c])
    | some p =>
      if isSnakeCaseNewWord c newWordOnDigits && output.getLast? != some '_' &&
          (nextContinuesWord rest || (newWordOnDigits && c.isDigit) || p.isLower) then
        toSnakeCaseLoop newWordOnDigits (some c0) rest (output ++ ['_', c])
      else if !(isDelimiter c && output.getLast? == some '_') then
        toSnakeCaseLoop newWordOnDigits (some c0) rest (output ++ [c])
      else
        toSnakeCaseLoop newWordOnDigits (some c0) rest output

/-- Go's `toSnakeCase` on an ASCII string; the option
`SnakeCaseWithNewWordOnDigits` is the flag `newWordOnDigits`. -/
def toSnakeCase (s : String) (newWordOnDigits : Bool) : String :=
  ⟨toSnakeCaseLoop newWordOnDigits none (TrimFunc s.data isDelimiter) []⟩

/-- Go's `ToLowerSnakeCase`, with `strings.ToLower` on ASCII characters. -/
def ToLowerSnakeCase (s : String) (newWordOnDigits : Bool) : String :=
  ⟨(toSnakeCase s newWordOnDigits).data.map Char.toLower⟩

/-- Go's `ToUpperSnakeCase`, with `strings.ToUpper` on ASCII characters. -/
def ToUpperSnakeCase (s : String) (newWordOnDigits : Bool) : String :=
  ⟨(toSnakeCase s newWordOnDigits).data.map Char.toUpper⟩

/-! ## `config.go` -/

/-- The Go struct `ConfigBuilder`. -/
structure ConfigBuilder where
  Roots : List String
  Excludes : List String
  deriving DecidableEq, Repr

/-- The Go struct `Config`. -/
structure Config where
  Roots : List String
  Excludes : List String
  deriving DecidableEq, Repr

/-- The first loop of `transformFileListForConfig`: every input is checked to
be non-empty and is normalized, in order. -/
def normalizeInputs (x : Externals) (name : String) : List String → Except Error (List String)
  | [] => .ok []
  | input :: rest =>
    if input = "" then .error (.InvalidArgument "%s value is empty")
    else
      match x.NormalizeAndValidate input with
      | .error err => .error err
      | .ok output =>
        match normalizeInputs x name rest with
        | .error err => .error err
        | .ok outputs => .ok (output :: outputs)

/-- The body of the pairwise loop of `transformFileListForConfig` for
`output1 = outputs[i]` and `output2 = outputs[j]`. -/
def checkPair (name output1 output2 : String) : Except Error Unit :=
  if output1 = output2 then .error (.InvalidArgument "duplicate %s %s")
  else if HasPrefix output1 output2 then
    .error (.InvalidArgument "%s %s is within %s %s which is not allowed")
  else if HasPrefix output2 output1 then
    .error (.InvalidArgument "%s %s is within %s %s which is not allowed")
  else .ok ()

/-- The inner loop `for j := i + 1; j < len(outputs); j++`. -/
def checkInner (name output1 : String) : List String → Except Error Unit
  | [] => .ok ()
  | output2 :: rest =>
    match checkPair name output1 output2 with
    | .error err => .error err
    | .ok _ => checkInner name output1 rest

/-- The outer loop `for i := 0; i < len(outputs); i++`. -/
def checkOuter (name : String) : List String → Except Error Unit
  | [] => .ok ()
  | output1 :: rest =>
    match checkInner name output1 rest with
    | .error err => .error err
    | .ok _ => checkOuter name rest

/-- The last block of `transformFileListForConfig`: `"."` next to other
entries. -/
def checkDotDir (name : String) (outputs : List String) : Except Error Unit :=
  let notDotDir := outputs.filter (fun output => output ≠ ".")
  let hasDotDir := outputs.any (fun output => output = ".")
  if hasDotDir then
    if notDotDir.length = 1 then
      .error (.InvalidArgument "%s %s is within %s . which is not allowed")
    else if notDotDir.length > 1 then
      .error (.InvalidArgument "%ss %v are within %s . which is not allowed")
    else .ok ()
  else .ok ()

/-- Go's `transformFileListForConfig`. -/
def transformFileListForConfig (x : Externals) (inputs : List String) (name : String) :
    Except Error (List String) :=
  if inputs.length = 0 then .ok inputs
  else
    match normalizeInputs x name inputs with
    | .error err => .error err
    | .ok outputs =>
      let outputs := sortStrings outputs
      match checkOuter name outputs with
      | .error err => .error err
      | .ok _ =>
        match checkDotDir name outputs with
        | .error err => .error err
        | .ok _ => .ok outputs

/-- Go's `newConfig`. -/
def newConfig (x : Externals) (configBuilder : ConfigBuilder) : Except Error Config :=
  let configBuilder : ConfigBuilder :=
    if configBuilder.Roots.length = 0 then { configBuilder with Roots := ["."] }
    else configBuilder
  match transformFileListForConfig x configBuilder.Roots "root" with
  | .error err => .error err
  | .ok roots =>
    if configBuilder.Excludes.length > 0 then
      match transformFileListForConfig x configBuilder.Excludes "exclude" with
      | .error err => .error err
      | .ok excludes =>
        let rootMap := SliceToMap roots
        let excludeMap := SliceToMap excludes
        if excludeMap.any (fun exclude => exclude ∈ rootMap) then
          .error (.InvalidArgument
            "%s is both a root and exclude, which means the entire root is excluded, which is not valid")
        else if excludeMap.any (fun exclude => !x.MapContainsMatch rootMap exclude) then
          .error (.InvalidArgument "exclude %s is not contained in any root, which is not valid")
        else .ok { Roots := roots, Excludes := excludes }
    else .ok { Roots := roots, Excludes := [] }

/-- The relation that the pairwise loop of `transformFileListForConfig`
requires of every two outputs. -/
def pairOK (a b : String) : Prop :=
  a ≠ b ∧ HasPrefix a b = false ∧ HasPrefix b a = false

/-! ## Paths as sequences of components -/

/-- The components of a path: the pieces between the separators `/`. -/
def pathComponents (p : String) : List (List Char) := p.data.splitOn '/'

/-- Path `p` is a path-prefix of path `q`: `p` is `"."`, which stands for
everything, or the components of `p` are the first components of `q`. -/
def isPathPrefix (p q : String) : Bool :=
  p == "." || (pathComponents p).isPrefixOf (pathComponents q)

/-! ## `input_ref_parser.go` -/

/-- Modelled from the spec: `Format.IsSource`, declared outside the embedded
files; the source formats are directory, tar, gzip-tar and git. -/
def Format.IsSource : Format → Bool
  | .FormatDir | .FormatTar | .FormatTarGz | .FormatGit => true
  | _ => false

/-- Modelled from the spec: `Format.IsImage`, declared outside the embedded
files; the image formats are binary, JSON and their gzip variants. -/
def Format.IsImage : Format → Bool
  | .FormatBin | .FormatBinGz | .FormatJSON | .FormatJSONGz => true
  | _ => false

/-- Modelled from the spec: `Format.isFile`, declared outside the embedded
files; every format is a file-stream format except directory and git. -/
def Format.isFile : Format → Bool
  | .FormatBin | .FormatBinGz | .FormatJSON | .FormatJSONGz | .FormatTar | .FormatTarGz => true
  | _ => false

/-- The Go struct `InputRef`. -/
structure InputRef where
  Path : String
  Format : Format
  GitBranch : String
  StripComponents : Nat
  deriving DecidableEq, Repr

/-- The Go struct `inputRefParser`. -/
structure inputRefParser where
  valueFlagName : String
  deriving DecidableEq, Repr

def newValueEmptyError (valueFlagName : String) : Error :=
  .InvalidArgument "%s is required"

def newValueMultipleHashtagsError (valueFlagName value : String) : Error :=
  .InvalidArgument "%s: %q has multiple #s which is invalid"

def newValueStartsWithHashtagError (valueFlagName value : String) : Error :=
  .InvalidArgument "%s: %q starts with # which is invalid"

def newValueEndsWithHashtagError (valueFlagName value : String) : Error :=
  .InvalidArgument "%s: %q ends with # which is invalid"

def newFormatNotFileForDashPathError (valueFlagName : String) (format : Format) : Error :=
  .InvalidArgument
    "%s: path was \"-\" but format was %q which is not a file format (allowed formats are %s)"

def newFormatMustBeSourceError (format : Format) : Error :=
  .InvalidArgument "format was %q but must be a source format (allowed formats are %s)"

def newFormatMustBeImageError (format : Format) : Error :=
  .InvalidArgument "format was %q but must be a image format (allowed formats are %s)"

def newMustSpecifyGitBranchError (valueFlagName path : String) : Error :=
  .InvalidArgument "%s: must specify git branch (example: \"%s#branch=master\")"

def newPathUnknownGzError (valueFlagName path : String) : Error :=
  .InvalidArgument "%s: path %q had .gz extension with unknown format"

def newOptionsInvalidError (valueFlagName s : String) : Error :=
  .InvalidArgument "%s: invalid options: %q"

def newOptionsInvalidKeyError (valueFlagName key : String) : Error :=
  .InvalidArgument "%s: invalid options key: %q"

def newOptionsInvalidForFormatError (valueFlagName : String) (format : Format) (s : String) :
    Error :=
  .InvalidArgument "%s: invalid options for format %q: %q"

def newOptionsCouldNotParseStripComponentsError (valueFlagName s : String) : Error :=
  .InvalidArgument "%s: could not parse strip_components value %q"

def newFormatOverrideNotAllowedForDevNullError (valueFlagName devNull : String) : Error :=
  .InvalidArgument "%s: not allowed if path is %s"

/-- Go's `(*inputRefParser).parseFormatFromPath`. -/
def inputRefParser.parseFormatFromPath (x : Externals) (i : inputRefParser) (path : String) :
    Except Error Format :=
  match x.DevNull with
  | .error err => .error err
  | .ok devNull =>
    if path = "-" ∨ path = devNull then .ok .FormatBin
    else
      let ext := Ext path
      if ext = ".bin" then .ok .FormatBin
      else if ext = ".json" then .ok .FormatJSON
      else if ext = ".tar" then .ok .FormatTar
      else if ext = ".gz" then
        let inner := Ext (TrimSuffix path (Ext path))
        if inner = ".bin" then .ok .FormatBinGz
        else if inner = ".json" then .ok .FormatJSONGz
        else if inner = ".tar" then .ok .FormatTarGz
        else .error (newPathUnknownGzError i.valueFlagName path)
      else if ext = ".tgz" then .ok .FormatTarGz
      else if ext = ".git" then .ok .FormatGit
      else .ok .FormatDir

/-- One round of the loop of `applyInputRefOptions`, for one `pair`. -/
def inputRefParser.applyInputRefOption (x : Externals) (i : inputRefParser)
    (inputRef : InputRef) (options pair : String) : Except Error InputRef :=
  match Split pair '=' with
  | [split0, split1] =>
    let key := TrimSpace split0
    let value := TrimSpace split1
    if key = "" ∨ value = "" then .error (newOptionsInvalidError i.valueFlagName options)
    else if key = "format" then
      match x.DevNull with
      | .error err => .error err
      | .ok devNull =>
        if inputRef.Path = devNull then
          .error (newFormatOverrideNotAllowedForDevNullError i.valueFlagName devNull)
        else
          match x.parseFormatOverride i.valueFlagName value with
          | .error err => .error err
          | .ok format => .ok { inputRef with Format := format }
    else if key = "branch" then .ok { inputRef with GitBranch := value }
    else if key = "strip_components" then
      match ParseUint32 value with
      | none => .error (newOptionsCouldNotParseStripComponentsError i.valueFlagName value)
      | some stripComponents => .ok { inputRef with StripComponents := stripComponents }
    else .error (newOptionsInvalidKeyError i.valueFlagName key)
  | _ => .error (newOptionsInvalidError i.valueFlagName options)

/-- The loop of `applyInputRefOptions` over the pairs still to visit. -/
def inputRefParser.applyInputRefOptionsLoop (x : Externals) (i : inputRefParser)
    (options : String) : InputRef → List String → Except Error InputRef
  | inputRef, [] => .ok inputRef
  | inputRef, pair :: rest =>
    match i.applyInputRefOption x inputRef options pair with
    | .error err => .error err
    | .ok inputRef => inputRefParser.applyInputRefOptionsLoop x i options inputRef rest

/-- Go's `(*inputRefParser).applyInputRefOptions`; the updated `inputRef` is
returned. -/
def inputRefParser.applyInputRefOptions (x : Externals) (i : inputRefParser)
    (inputRef : InputRef) (options : String) : Except Error InputRef :=
  if options = "" then .ok inputRef
  else i.applyInputRefOptionsLoop x options inputRef (Split options ',')

/-- The `switch` of `ParseInputRef` on `strings.Split(value, "#")`, which
gives `path` and `options`; `value` is already trimmed. -/
def inputRefParser.splitValue (i : inputRefParser) (value : String) :
    Except Error (String × String) :=
  match Split value '#' with
  | [_] => .ok (value, "")
  | [splitValue0, splitValue1] =>
    let path := TrimSpace splitValue0
    let options := TrimSpace splitValue1
    if path = "" then .error (newValueStartsWithHashtagError i.valueFlagName value)
    else if options = "" then .error (newValueEndsWithHashtagError i.valueFlagName value)
    else .ok (path, options)
  | _ => .error (newValueMultipleHashtagsError i.valueFlagName value)

/-- The checks of `ParseInputRef` that follow the resolution of the format,
on the `inputRef` to return. -/
def inputRefParser.checkInputRef (i : inputRefParser) (value path options : String)
    (onlySources onlyImages : Bool) (inputRef : InputRef) : Except Error InputRef :=
  if inputRef.Format = .FormatGit ∧ inputRef.GitBranch = "" then
    .error (newMustSpecifyGitBranchError i.valueFlagName value)
  else if inputRef.Format ≠ .FormatGit ∧ inputRef.GitBranch ≠ "" then
    .error (newOptionsInvalidForFormatError i.valueFlagName inputRef.Format options)
  else if inputRef.Format ≠ .FormatTar ∧ inputRef.Format ≠ .FormatTarGz ∧
      inputRef.StripComponents > 0 then
    .error (newOptionsInvalidForFormatError i.valueFlagName inputRef.Format options)
  else if onlySources ∧ ¬ inputRef.Format.IsSource then
    .error (newFormatMustBeSourceError inputRef.Format)
  else if onlyImages ∧ ¬ inputRef.Format.IsImage then
    .error (newFormatMustBeImageError inputRef.Format)
  else if path = "-" ∧ ¬ inputRef.Format.isFile then
    .error (newFormatNotFileForDashPathError i.valueFlagName inputRef.Format)
  else .ok inputRef

/-- Go's `(*inputRefParser).ParseInputRef`. -/
def inputRefParser.ParseInputRef (x : Externals) (i : inputRefParser) (value : String)
    (onlySources onlyImages : Bool) : Except Error InputRef :=
  if onlySources ∧ onlyImages then .error (.Internal "onlySources and onlyImages both set")
  else
    let value := TrimSpace value
    if value = "" then .error (newValueEmptyError i.valueFlagName)
    else
      match i.splitValue value with
      | .error err => .error err
      | .ok (path, options) =>
        let inputRef : InputRef :=
          { Path := path, Format := .unset, GitBranch := "", StripComponents := 0 }
        match i.applyInputRefOptions x inputRef options with
        | .error err => .error err
        | .ok inputRef =>
          if inputRef.Format = .unset then
            match i.parseFormatFromPath x path with
            | .error err => .error err
            | .ok format =>
              i.checkInputRef value path options onlySources onlyImages
                { inputRef with Format := format }
          else
            i.checkInputRef value path options onlySources onlyImages inputRef

/-! ## Models of the collaborators -/

/-- The normalization of the components of a path: empty components and `.`
are dropped, `..` removes the component before it, and `none` is returned
when `..` would leave the root. The components kept so far are in `acc`,
last first. -/
def normalizeComponents : List (List Char) → List (List Char) → Option (List (List Char))
  | [], acc => some acc.reverse
  | c :: rest, acc =>
    if c = [] ∨ c = ['.'] then normalizeComponents rest acc
    else if c = ['.', '.'] then
      match acc with
      | [] => none
      | _ :: acc => normalizeComponents rest acc
    else normalizeComponents rest (c :: acc)

/-- Modelled from the spec: `storagepath.NormalizeAndValidate`, the path
normalizer, whose source is not among the embedded files. It rejects the
empty string and absolute paths, resolves `.` and `..`, rejects a path that
leaves the root, and returns the components joined by `/`, or `"."` when
none is left. -/
def NormalizeAndValidate (path : String) : Except Error String :=
  if path = "" then .error (.InvalidArgument "%s: is empty")
  else if path.data.head? = some '/' then .error (.InvalidArgument "%s: is not relative")
  else
    match normalizeComponents (path.data.splitOn '/') [] with
    | none => .error (.InvalidArgument "%s: is outside the context directory")
    | some [] => .ok "."
    | some components => .ok ⟨['/'].intercalate components⟩

/-- Modelled from the spec: `storagepath.MapContainsMatch`, whose source is
not among the embedded files: `path` is a path-descendant of a key of the
map, or equal to one. -/
def MapContainsMatch (m : List String) (path : String) : Bool :=
  m.any (fun key => isPathPrefix key path)

/-- Modelled from the spec: `parseFormatOverride`, whose source is not among
the embedded files: the value of the `format` option is one of the format
tokens. -/
def parseFormatOverride (valueFlagName s : String) : Except Error Format :=
  if s = "bin" then .ok .FormatBin
  else if s = "bingz" then .ok .FormatBinGz
  else if s = "dir" then .ok .FormatDir
  else if s = "git" then .ok .FormatGit
  else if s = "json" then .ok .FormatJSON
  else if s = "jsongz" then .ok .FormatJSONGz
  else if s = "tar" then .ok .FormatTar
  else if s = "targz" then .ok .FormatTarGz
  else .error (.InvalidArgument "%s: unknown format: %q")

/-- The collaborators as the spec describes them, with the null device of a
Unix platform. -/
def specExternals : Externals where
  NormalizeAndValidate := NormalizeAndValidate
  MapContainsMatch := MapContainsMatch
  DevNull := .ok "/dev/null"
  parseFormatOverride := parseFormatOverride

/-! ## White space around the pieces of a value -/

/-- The characters that `strings.TrimSpace` keeps. -/
def trimChars (l : List Char) : List Char :=
  ((l.dropWhile isSpace).reverse.dropWhile isSpace).reverse

/-- Every character of the list is white space. -/
def allSpace (l : List Char) : Prop := ∀ c ∈ l, isSpace c = true

/-- The list `raw` is the list `tr` with white space before and after it. -/
def Pad (raw tr : List Char) : Prop :=
  ∃ u1 u2, allSpace u1 ∧ allSpace u2 ∧ raw = u1 ++ tr ++ u2

/-- The list has no white space at its start and none at its end. -/
def noOuterSpace (l : List Char) : Prop :=
  (∀ c, l.head? = some c → isSpace c = false) ∧ (∀ c, l.getLast? = some c → isSpace c = false)

/-- The output holds none of the delimiters other than the underscore, no
two neighbouring underscores, and no underscore at its start or at its
end. -/
def wellDelimited (out : List Char) : Prop :=
  (∀ c ∈ out, c ≠ '-' ∧ c ≠ ' ' ∧ c ≠ '\t' ∧ c ≠ '\n' ∧ c ≠ '\r') ∧
  (∀ A B, out ≠ A ++ '_' :: '_' :: B) ∧
  out.head? ≠ some '_' ∧ out.getLast? ≠ some '_'

/-- Every digit of the output that has a character before it comes right
after an underscore. -/
def digitsStartWords (out : List Char) : Prop :=
  ∀ A B x d, out = A ++ x :: d :: B → d.isDigit = true → x = '_'

/-- Two neighbours of an output are not both underscores. -/
def noDouble (a b : Char) : Prop := ¬(a = '_' ∧ b = '_')

/-- A digit comes right after an underscore. -/
def digitRel (a b : Char) : Prop := b.isDigit = true → a = '_'

/-- What one turn of the loop of `toSnakeCase` after the first writes after
the output `out`: nothing, one character, or an underscore and a character. -/
def StepShape (nw : Bool) (out X : List Char) : Prop :=
  X = [] ∨
  (∃ c, X = [c] ∧ (c = '_' ∨ isDelimiter c = false) ∧ (c = '_' → out.getLast? ≠ some '_') ∧
    (nw = true → c.isDigit = true → out.getLast? = some '_')) ∨
  (∃ c, X = ['_', c] ∧ isDelimiter c = false ∧ out.getLast? ≠ some '_')

/-- The invariant of the loop of `toSnakeCase`: every delimiter written is an
underscore, no two underscores are neighbours, and with the option
`SnakeCaseWithNewWordOnDigits` a digit comes right after an underscore. -/
def SnakeInv (nw : Bool) (out : List Char) : Prop :=
  (∀ x ∈ out, x = '_' ∨ isDelimiter x = false) ∧ List.Chain' noDouble out ∧
  (nw = true → List.Chain' digitRel out)

/-! # Theorems -/

/-! ## The order of Go strings -/

theorem lessChars_irrefl (a : List Char) : lessChars a a = false := by
  induction a with
  | nil => rfl
  | cons c cs ih => simp [lessChars, ih]

theorem char_eq_of_toNat_eq {a b : Char} (h : a.toNat = b.toNat) : a = b := by
  rw [← Char.ofNat_toNat a, ← Char.ofNat_toNat b, h]

theorem lessChars_trans : ∀ (a b c : List Char),
    lessChars a b = true → lessChars b c = true → lessChars a c = true
  | [], [], _, h, _ => by simp [lessChars] at h
  | [], _ :: _, [], _, h => by simp [lessChars] at h
  | [], _ :: _, _ :: _, _, _ => by simp [lessChars]
  | _ :: _, [], _, h, _ => by simp [lessChars] at h
  | _ :: _, _ :: _, [], _, h => by simp [lessChars] at h
  | a :: as, b :: bs, c :: cs, h1, h2 => by
    simp only [lessChars] at h1 h2 ⊢
    have ih := lessChars_trans as bs cs
    split_ifs at h1 h2 ⊢ <;> first | rfl | omega | (exact ih h1 h2)

theorem lessChars_total : ∀ (a b : List Char),
    lessChars a b = true ∨ a = b ∨ lessChars b a = true
  | [], [] => by simp
  | [], _ :: _ => by simp [lessChars]
  | _ :: _, [] => by simp [lessChars]
  | a :: as, b :: bs => by
    simp only [lessChars]
    by_cases h1 : a.toNat < b.toNat
    · simp [h1]
    · by_cases h2 : b.toNat < a.toNat
      · simp [h2]
      · have hab : a = b := char_eq_of_toNat_eq (by omega)
        subst hab
        simp only [h1, if_false]
        rcases lessChars_total as bs with h | h | h
        · exact Or.inl h
        · exact Or.inr (Or.inl (by rw [h]))
        · exact Or.inr (Or.inr h)

theorem stringLess_irrefl (a : String) : stringLess a a = false :=
  lessChars_irrefl a.data

theorem stringLess_trans {a b c : String} (h1 : stringLess a b = true)
    (h2 : stringLess b c = true) : stringLess a c = true :=
  lessChars_trans _ _ _ h1 h2

theorem stringLess_total (a b : String) :
    stringLess a b = true ∨ a = b ∨ stringLess b a = true := by
  rcases lessChars_total a.data b.data with h | h | h
  · exact Or.inl h
  · exact Or.inr (Or.inl (String.ext h))
  · exact Or.inr (Or.inr h)

theorem stringLess_asymm {a b : String} (h1 : stringLess a b = true) :
    stringLess b a = false := by
  by_contra h
  have h2 : stringLess b a = true := by simpa using h
  have := stringLess_trans h1 h2
  rw [stringLess_irrefl] at this
  exact Bool.false_ne_true this

theorem stringLE_total (a b : String) : stringLE a b ∨ stringLE b a := by
  unfold stringLE
  rcases stringLess_total a b with h | h | h
  · exact Or.inl (stringLess_asymm h)
  · subst h; exact Or.inl (stringLess_irrefl a)
  · exact Or.inr (stringLess_asymm h)

theorem stringLE_trans (a b c : String) (hab : stringLE a b) (hbc : stringLE b c) :
    stringLE a c := by
  unfold stringLE at *
  by_contra h
  have hca : stringLess c a = true := by simpa using h
  rcases stringLess_total a b with h1 | h1 | h1
  · have := stringLess_trans hca h1
    rw [hbc] at this
    exact Bool.false_ne_true this
  · subst h1
    rw [hbc] at hca
    exact Bool.false_ne_true hca
  · rw [hab] at h1
    exact Bool.false_ne_true h1

theorem stringLE_antisymm (a b : String) (hab : stringLE a b) (hba : stringLE b a) : a = b := by
  unfold stringLE at *
  rcases stringLess_total a b with h | h | h
  · rw [hba] at h; exact absurd h Bool.false_ne_true
  · exact h
  · rw [hab] at h; exact absurd h Bool.false_ne_true

theorem sortStrings_perm (l : List String) : (sortStrings l).Perm l :=
  List.perm_insertionSort _ l

theorem sortStrings_sorted (l : List String) : (sortStrings l).Sorted stringLE :=
  @List.sorted_insertionSort _ stringLE _ ⟨stringLE_total⟩ ⟨stringLE_trans⟩ l

/-! ## Go maps -/

theorem GoMap.get_filter_ne (m : GoMap) (k k' : String) (h : k' ≠ k) :
    GoMap.get (m.filter (fun e => e.1 != k)) k' = GoMap.get m k' := by
  unfold GoMap.get
  induction m with
  | nil => rfl
  | cons e rest ih =>
    obtain ⟨a, b⟩ := e
    by_cases hak : a = k
    · subst hak
      have hne : (k' == a) = false := by simpa using h
      simp [List.filter, List.lookup, hne, ih]
    · have hf : (a != k) = true := by simpa using hak
      simp only [List.filter, hf, List.lookup]
      split <;> simp_all

theorem GoMap.get_set (m : GoMap) (k v k' : String) :
    (m.set k v).get k' = if k' = k then some v else m.get k' := by
  by_cases h : k' = k
  · subst h
    simp [GoMap.set, GoMap.get, List.lookup]
  · have hne : (k' == k) = false := by simpa using h
    have := GoMap.get_filter_ne m k k' h
    unfold GoMap.get at this
    simp [GoMap.set, GoMap.get, List.lookup, hne, h, this]

theorem GoMap.get_of_mem (m : GoMap) (hm : m.WF) (k v : String) (h : (k, v) ∈ m) :
    m.get k = some v := by
  unfold GoMap.get
  unfold GoMap.WF at hm
  induction m with
  | nil => simp at h
  | cons e rest ih =>
    obtain ⟨a, b⟩ := e
    simp only [List.map_cons, List.nodup_cons] at hm
    rcases List.mem_cons.mp h with heq | hmem
    · injection heq with h1 h2
      subst h1; subst h2
      simp [List.lookup]
    · have hne : a ≠ k := by
        intro hak
        subst hak
        exact hm.1 (List.mem_map_of_mem Prod.fst hmem)
      have hb : (k == a) = false := by simpa using (Ne.symm hne)
      simp only [List.lookup, hb]
      exact ih hm.2 hmem

theorem GoMap.mem_of_get (m : GoMap) (k v : String) (h : m.get k = some v) : (k, v) ∈ m := by
  unfold GoMap.get at h
  induction m with
  | nil => simp [List.lookup] at h
  | cons e rest ih =>
    obtain ⟨a, b⟩ := e
    by_cases hka : k = a
    · subst hka
      simp [List.lookup] at h
      subst h
      exact List.mem_cons_self _ _
    · have hb : (k == a) = false := by simpa using hka
      simp only [List.lookup, hb] at h
      exact List.mem_cons_of_mem _ (ih h)

/-! ## `newProtoFileSet` -/

/-- The loop keeps the bindings that the reverse map already holds. -/
theorem newProtoFileSetLoop_keeps : ∀ (m : List (String × String)) (rev : GoMap)
    (acc : List rootRealFilePath) (rev' : GoMap) (acc' : List rootRealFilePath),
    newProtoFileSetLoop m rev acc = .ok (rev', acc') →
    ∀ k v, rev.get k = some v → rev'.get k = some v
  | [], rev, acc, rev', acc', h, k, v, hk => by
    simp only [newProtoFileSetLoop, Except.ok.injEq, Prod.mk.injEq] at h
    rw [← h.1]; exact hk
  | (root, real) :: rest, rev, acc, rev', acc', h, k, v, hk => by
    simp only [newProtoFileSetLoop] at h
    split at h
    · cases h
    · rename_i hnone
      apply newProtoFileSetLoop_keeps rest _ _ rev' acc' h k v
      rw [GoMap.get_set]
      have hne : k ≠ real := by
        intro hkr
        subst hkr
        rw [hk] at hnone
        exact hnone rfl
      simp [hne, hk]

/-- After the loop the reverse map binds every real path visited to its root
path. -/
theorem newProtoFileSetLoop_binds : ∀ (m : List (String × String)) (rev : GoMap)
    (acc : List rootRealFilePath) (rev' : GoMap) (acc' : List rootRealFilePath),
    newProtoFileSetLoop m rev acc = .ok (rev', acc') →
    ∀ root real, (root, real) ∈ m → rev'.get real = some root
  | [], _, _, _, _, _, _, _, hmem => by simp at hmem
  | (root0, real0) :: rest, rev, acc, rev', acc', h, root, real, hmem => by
    simp only [newProtoFileSetLoop] at h
    split at h
    · cases h
    · rcases List.mem_cons.mp hmem with heq | hrest
      · injection heq with h1 h2
        subst h1; subst h2
        apply newProtoFileSetLoop_keeps rest _ _ rev' acc' h
        simp [GoMap.get_set]
      · exact newProtoFileSetLoop_binds rest _ _ rev' acc' h root real hrest

/-- The loop fails exactly when a real path is visited that the reverse map
already holds, or that was visited before. -/
theorem newProtoFileSetLoop_ok_iff : ∀ (m : List (String × String)) (rev : GoMap)
    (acc : List rootRealFilePath),
    (∃ r, newProtoFileSetLoop m rev acc = .ok r) ↔
      ((m.map Prod.snd).Nodup ∧ ∀ v ∈ m.map Prod.snd, rev.get v = none)
  | [], rev, acc => by simp [newProtoFileSetLoop]
  | (root, real) :: rest, rev, acc => by
    simp only [newProtoFileSetLoop]
    split
    · rename_i hsome
      constructor
      · rintro ⟨r, hr⟩; cases hr
      · rintro ⟨_, hall⟩
        have := hall real (by simp)
        rw [this] at hsome
        simp at hsome
    · rename_i hnone
      have hnone' : rev.get real = none := by
        cases hg : rev.get real with
        | none => rfl
        | some w => rw [hg] at hnone; simp at hnone
      rw [newProtoFileSetLoop_ok_iff rest]
      simp only [List.map_cons, List.nodup_cons, List.mem_cons, GoMap.get_set]
      constructor
      · rintro ⟨hnd, hall⟩
        refine ⟨⟨?_, hnd⟩, ?_⟩
        · intro hmem
          have := hall real hmem
          simp at this
        · intro v hv
          rcases hv with hv | hv
          · subst hv; exact hnone'
          · have := hall v hv
            split_ifs at this
            exact this
      · rintro ⟨⟨hnot, hnd⟩, hall⟩
        refine ⟨hnd, ?_⟩
        intro v hv
        have hne : v ≠ real := by
          intro hvr; subst hvr; exact hnot hv
        simp only [hne, if_false]
        exact hall v (Or.inr hv)

theorem newProtoFileSetLoop_error_internal : ∀ (m : List (String × String)) (rev : GoMap)
    (acc : List rootRealFilePath) (e : Error),
    newProtoFileSetLoop m rev acc = .error e → e.isInternal = true
  | [], _, _, _, h => by simp [newProtoFileSetLoop] at h
  | (root, real) :: rest, rev, acc, e, h => by
    simp only [newProtoFileSetLoop] at h
    split at h
    · cases h; rfl
    · exact newProtoFileSetLoop_error_internal rest _ _ e h

theorem newProtoFileSet_ok_iff (roots : List String) (m : GoMap) :
    (∃ s, newProtoFileSet roots m = .ok s) ↔ (m.map Prod.snd).Nodup := by
  have key := newProtoFileSetLoop_ok_iff m [] []
  unfold newProtoFileSet
  constructor
  · rintro ⟨s, hs⟩
    cases hl : newProtoFileSetLoop m [] [] with
    | error e => rw [hl] at hs; cases hs
    | ok r => exact (key.mp ⟨r, hl⟩).1
  · intro hnd
    obtain ⟨r, hr⟩ := key.mpr ⟨hnd, by intro v _; rfl⟩
    rw [hr]
    exact ⟨_, rfl⟩

theorem newProtoFileSet_ok_fields (roots : List String) (m : GoMap) (s : protoFileSet)
    (h : newProtoFileSet roots m = .ok s) :
    s.roots = roots ∧ s.rootFilePathToRealFilePath = m ∧
      ∃ acc, newProtoFileSetLoop m [] [] = .ok (s.realFilePathToRootFilePath, acc) ∧
        s.sortedRootRealFilePaths = List.insertionSort rootRealFilePath.le acc := by
  unfold newProtoFileSet at h
  cases hl : newProtoFileSetLoop m [] [] with
  | error e => rw [hl] at h; cases h
  | ok r =>
    obtain ⟨rev, acc⟩ := r
    rw [hl] at h
    simp only [Except.ok.injEq] at h
    subst h
    exact ⟨rfl, rfl, acc, rfl, rfl⟩

/-- A map with distinct keys has a repeated value exactly when two distinct
keys are bound to the same value. -/
theorem GoMap.values_nodup_iff (m : GoMap) (hm : m.WF) :
    (m.map Prod.snd).Nodup ↔ ∀ r1 r2 v, (r1, v) ∈ m → (r2, v) ∈ m → r1 = r2 := by
  have hnd : m.Nodup := List.Nodup.of_map Prod.fst hm
  constructor
  · intro h r1 r2 v h1 h2
    have := List.inj_on_of_nodup_map h h1 h2 rfl
    exact congrArg Prod.fst this
  · intro h
    refine List.Nodup.map_on ?_ hnd
    rintro ⟨a1, b1⟩ h1 ⟨a2, b2⟩ h2 heq
    simp only at heq
    subst heq
    rw [h a1 a2 b1 h1 h2]

/-- C1: bijection round trip. For every roots list and every mapping whose
keys and values are non-empty and fixed points of the path normalizer, if
`newProtoFileSet` succeeds then for every bound pair `(root, real)`
`GetRealFilePath root` returns `real` without error and `GetRootFilePath real`
returns `root` without error. -/
theorem protoFileSet_round_trip (x : Externals) (roots : List String) (m : GoMap)
    (hm : m.WF)
    (hfix : ∀ root real, (root, real) ∈ m →
      root ≠ "" ∧ real ≠ "" ∧
        x.NormalizeAndValidate root = .ok root ∧ x.NormalizeAndValidate real = .ok real)
    (s : protoFileSet) (h : newProtoFileSet roots m = .ok s) :
    ∀ root real, (root, real) ∈ m →
      s.GetRealFilePath x root = .ok real ∧ s.GetRootFilePath x real = .ok root := by
  intro root real hmem
  obtain ⟨hroot, hreal, hnroot, hnreal⟩ := hfix root real hmem
  obtain ⟨_, hfwd, acc, hloop, _⟩ := newProtoFileSet_ok_fields roots m s h
  constructor
  · have hget : s.rootFilePathToRealFilePath.get root = some real := by
      rw [hfwd]; exact GoMap.get_of_mem m hm root real hmem
    simp [protoFileSet.GetRealFilePath, hroot, hnroot, hget]
  · have hget : s.realFilePathToRootFilePath.get real = some root :=
      newProtoFileSetLoop_binds m [] [] _ acc hloop root real hmem
    simp [protoFileSet.GetRootFilePath, hreal, hnreal, hget]

/-- The round trip of C1 on a set of two files below the root `a`. -/
theorem protoFileSet_round_trip_witness :
    GoMap.WF [("b/x.proto", "a/b/x.proto"), ("a.proto", "a/a.proto")] ∧
    ∃ s, newProtoFileSet ["a"] [("b/x.proto", "a/b/x.proto"), ("a.proto", "a/a.proto")] = .ok s ∧
      s.GetRealFilePath specExternals "a.proto" = .ok "a/a.proto" ∧
      s.GetRootFilePath specExternals "a/a.proto" = .ok "a.proto" := by
  have hm : GoMap.WF [("b/x.proto", "a/b/x.proto"), ("a.proto", "a/a.proto")] := by
    unfold GoMap.WF; decide
  refine ⟨hm, _, rfl, ?_⟩
  refine protoFileSet_round_trip specExternals ["a"]
    [("b/x.proto", "a/b/x.proto"), ("a.proto", "a/a.proto")] hm ?_ _ rfl "a.proto" "a/a.proto"
    (by decide)
  intro root real hmem
  simp only [List.mem_cons, Prod.mk.injEq, List.mem_singleton, List.not_mem_nil, or_false] at hmem
  rcases hmem with ⟨rfl, rfl⟩ | ⟨rfl, rfl⟩
  · exact ⟨by decide, by decide, rfl, rfl⟩
  · exact ⟨by decide, by decide, rfl, rfl⟩

/-- C2: `newProtoFileSet` fails exactly when the mapping is not injective. For
every roots list and every mapping, construction returns an error if and only
if two distinct root file paths are bound to the same real file path; that
error is an internal error and not a user-input error; and when the mapping
is injective construction succeeds. -/
theorem newProtoFileSet_error_iff (roots : List String) (m : GoMap) (hm : m.WF) :
    ((∃ e, newProtoFileSet roots m = .error e) ↔
        ∃ r1 r2 v, r1 ≠ r2 ∧ (r1, v) ∈ m ∧ (r2, v) ∈ m) ∧
      (∀ e, newProtoFileSet roots m = .error e →
        e.isInternal = true ∧ e.isInvalidArgument = false) ∧
      ((∀ r1 r2 v, (r1, v) ∈ m → (r2, v) ∈ m → r1 = r2) →
        ∃ s, newProtoFileSet roots m = .ok s) := by
  have hok := newProtoFileSet_ok_iff roots m
  have hinj := GoMap.values_nodup_iff m hm
  refine ⟨?_, ?_, ?_⟩
  · constructor
    · rintro ⟨e, he⟩
      by_contra hno
      have hall : ∀ r1 r2 v, (r1, v) ∈ m → (r2, v) ∈ m → r1 = r2 := by
        intro r1 r2 v h1 h2
        by_contra hne
        exact hno ⟨r1, r2, v, hne, h1, h2⟩
      obtain ⟨s, hs⟩ := hok.mpr (hinj.mpr hall)
      rw [hs] at he
      cases he
    · rintro ⟨r1, r2, v, hne, h1, h2⟩
      cases hres : newProtoFileSet roots m with
      | error e => exact ⟨e, rfl⟩
      | ok s => exact absurd (hinj.mp (hok.mp ⟨s, hres⟩) r1 r2 v h1 h2) hne
  · intro e he
    unfold newProtoFileSet at he
    cases hl : newProtoFileSetLoop m [] [] with
    | ok r => rw [hl] at he; cases he
    | error e' =>
      rw [hl] at he
      simp only [Except.error.injEq] at he
      subst he
      have := newProtoFileSetLoop_error_internal m [] [] e' hl
      cases e' <;> simp_all [Error.isInternal, Error.isInvalidArgument]
  · intro hall
    exact hok.mpr (hinj.mpr hall)

/-- C2 on a mapping that binds two root paths to one real path: construction
fails with an internal error. -/
theorem newProtoFileSet_error_iff_witness :
    GoMap.WF [("b/x.proto", "a/b/x.proto"), ("a.proto", "a/b/x.proto")] ∧
    newProtoFileSet ["a"] [("b/x.proto", "a/b/x.proto"), ("a.proto", "a/b/x.proto")] =
      .error (.Internal "real file path %q passed with duplicate root file path %q") ∧
    ∃ r1 r2 v, r1 ≠ r2 ∧
      (r1, v) ∈ [("b/x.proto", "a/b/x.proto"), ("a.proto", "a/b/x.proto")] ∧
      (r2, v) ∈ [("b/x.proto", "a/b/x.proto"), ("a.proto", "a/b/x.proto")] := by
  have hm : GoMap.WF [("b/x.proto", "a/b/x.proto"), ("a.proto", "a/b/x.proto")] := by
    unfold GoMap.WF; decide
  exact ⟨hm, rfl,
    (newProtoFileSet_error_iff ["a"] _ hm).1.mp ⟨_, rfl⟩⟩

/-! ## Path prefixes and string prefixes -/

theorem intercalate_prefix_append (sep : List Char) : ∀ (A B : List (List Char)),
    sep.intercalate A <+: sep.intercalate (A ++ B)
  | [], B => by simp [List.intercalate]
  | [a], [] => by simp
  | [a], b :: B => by
    simp only [List.intercalate, List.singleton_append, List.intersperse_single,
      List.intersperse_cons₂, List.flatten_cons, List.flatten_nil, List.append_nil]
    exact List.prefix_append _ _
  | a :: a' :: A, B => by
    have ih := intercalate_prefix_append sep (a' :: A) B
    simp only [List.intercalate, List.cons_append, List.intersperse_cons₂,
      List.flatten_cons] at ih ⊢
    exact (List.prefix_append_right_inj a).mpr ((List.prefix_append_right_inj sep).mpr ih)

theorem isPathPrefix_hasPrefix (p q : String) (h : isPathPrefix p q = true) :
    p = "." ∨ HasPrefix q p = true := by
  unfold isPathPrefix at h
  rcases Bool.or_eq_true _ _ |>.mp h with h1 | h2
  · exact Or.inl (by simpa using h1)
  · right
    have hpre : pathComponents p <+: pathComponents q := List.isPrefixOf_iff_prefix.mp h2
    obtain ⟨t, ht⟩ := hpre
    have hp : ['/'].intercalate (pathComponents p) = p.data := List.intercalate_splitOn _ _
    have hq : ['/'].intercalate (pathComponents q) = q.data := List.intercalate_splitOn _ _
    have := intercalate_prefix_append ['/'] (pathComponents p) t
    rw [ht, hp, hq] at this
    exact List.isPrefixOf_iff_prefix.mpr this

/-! ## `transformFileListForConfig` and `newConfig` -/

theorem normalizeInputs_ok_iff (x : Externals) (name : String) :
    ∀ (inputs outputs : List String),
      normalizeInputs x name inputs = .ok outputs ↔
        List.Forall₂ (fun i o => i ≠ "" ∧ x.NormalizeAndValidate i = .ok o) inputs outputs
  | [], outputs => by
    simp only [normalizeInputs, Except.ok.injEq, List.forall₂_nil_left_iff]
    exact eq_comm
  | input :: rest, outputs => by
    simp only [normalizeInputs]
    by_cases hempty : input = ""
    · simp only [hempty, if_true]
      constructor
      · intro h; cases h
      · intro h
        cases h with
        | cons h1 _ => exact absurd rfl h1.1
    · simp only [hempty, if_false]
      cases hn : x.NormalizeAndValidate input with
      | error e =>
        constructor
        · intro h; cases h
        · intro h
          cases h with
          | cons h1 _ => rw [hn] at h1; cases h1.2
      | ok o =>
        cases hr : normalizeInputs x name rest with
        | error e =>
          constructor
          · intro h; cases h
          · intro h
            cases h with
            | cons h1 h2 =>
              rw [(normalizeInputs_ok_iff x name rest _).mpr h2] at hr
              cases hr
        | ok outs =>
          have ih := (normalizeInputs_ok_iff x name rest outs).mp hr
          constructor
          · intro h
            simp only [Except.ok.injEq] at h
            subst h
            exact List.Forall₂.cons ⟨hempty, hn⟩ ih
          · intro h
            cases h with
            | cons h1 h2 =>
              rename_i b l
              have hb : o = b := by
                have := h1.2
                rw [hn] at this
                simp only [Except.ok.injEq] at this
                exact this
              have hl := (normalizeInputs_ok_iff x name rest l).mpr h2
              rw [hr] at hl
              simp only [Except.ok.injEq] at hl
              rw [hb, hl]

theorem normalizeInputs_error (x : Externals) (name : String) :
    ∀ (inputs : List String) (e : Error), normalizeInputs x name inputs = .error e →
      e = .InvalidArgument "%s value is empty" ∨
        ∃ i ∈ inputs, x.NormalizeAndValidate i = .error e
  | [], e, h => by simp [normalizeInputs] at h
  | input :: rest, e, h => by
    simp only [normalizeInputs] at h
    split at h
    · left; cases h; rfl
    · split at h
      · rename_i err hn
        cases h
        exact Or.inr ⟨input, List.mem_cons_self _ _, hn⟩
      · split at h
        · rename_i err hr
          cases h
          rcases normalizeInputs_error x name rest _ hr with h1 | ⟨i, hi, hie⟩
          · exact Or.inl h1
          · exact Or.inr ⟨i, List.mem_cons_of_mem _ hi, hie⟩
        · cases h

theorem checkPair_ok_iff (name a b : String) : checkPair name a b = .ok () ↔ pairOK a b := by
  unfold checkPair pairOK
  by_cases h1 : a = b
  · simp [h1]
  · by_cases h2 : HasPrefix a b = true
    · simp [h1, h2]
    · by_cases h3 : HasPrefix b a = true
      · simp [h1, h2, h3]
      · simp [h1, h2, h3]

theorem checkPair_error (name a b : String) (e : Error) (h : checkPair name a b = .error e) :
    e.isInvalidArgument = true := by
  unfold checkPair at h
  split_ifs at h <;> cases h <;> rfl

theorem checkInner_ok_iff (name a : String) : ∀ (l : List String),
    checkInner name a l = .ok () ↔ ∀ b ∈ l, pairOK a b
  | [] => by simp [checkInner]
  | b :: rest => by
    simp only [checkInner, List.mem_cons, forall_eq_or_imp]
    rw [← checkPair_ok_iff name a b, ← checkInner_ok_iff name a rest]
    cases hp : checkPair name a b with
    | error e => simp
    | ok u => simp

theorem checkInner_error (name a : String) : ∀ (l : List String) (e : Error),
    checkInner name a l = .error e → e.isInvalidArgument = true
  | [], e, h => by simp [checkInner] at h
  | b :: rest, e, h => by
    simp only [checkInner] at h
    split at h
    · rename_i err hp
      cases h
      exact checkPair_error name a b _ hp
    · exact checkInner_error name a rest e h

theorem checkOuter_ok_iff (name : String) : ∀ (l : List String),
    checkOuter name l = .ok () ↔ l.Pairwise pairOK
  | [] => by simp [checkOuter]
  | a :: rest => by
    simp only [checkOuter, List.pairwise_cons]
    rw [← checkInner_ok_iff name a rest, ← checkOuter_ok_iff name rest]
    cases hp : checkInner name a rest with
    | error e => simp
    | ok u => simp

theorem checkOuter_error (name : String) : ∀ (l : List String) (e : Error),
    checkOuter name l = .error e → e.isInvalidArgument = true
  | [], e, h => by simp [checkOuter] at h
  | a :: rest, e, h => by
    simp only [checkOuter] at h
    split at h
    · rename_i err hp
      cases h
      exact checkInner_error name a rest _ hp
    · exact checkOuter_error name rest e h

theorem checkDotDir_ok_iff (name : String) (l : List String) :
    checkDotDir name l = .ok () ↔ ("." ∈ l → ∀ o ∈ l, o = ".") := by
  unfold checkDotDir
  have hany : (l.any (fun output => decide (output = "."))) = true ↔ "." ∈ l := by
    simp [List.any_eq_true]
  have hlen : (l.filter (fun output => decide (output ≠ "."))).length = 0 ↔ ∀ o ∈ l, o = "." := by
    rw [List.length_eq_zero, List.filter_eq_nil_iff]
    simp
  by_cases hdot : "." ∈ l
  · simp only [hany.mpr hdot, if_true, hdot, forall_true_left]
    rw [← hlen]
    split_ifs with h1 h2
    · constructor
      · intro h; cases h
      · intro h; omega
    · constructor
      · intro h; cases h
      · intro h; omega
    · constructor
      · intro _; omega
      · intro _; rfl
  · have : ¬ (l.any (fun output => decide (output = "."))) = true := fun h => hdot (hany.mp h)
    simp [this, hdot]

theorem checkDotDir_error (name : String) (l : List String) (e : Error)
    (h : checkDotDir name l = .error e) : e.isInvalidArgument = true := by
  unfold checkDotDir at h
  simp only at h
  split_ifs at h <;> cases h <;> rfl

theorem transformFileListForConfig_ok_iff (x : Externals) (inputs : List String)
    (name : String) (out : List String) :
    transformFileListForConfig x inputs name = .ok out ↔
      ∃ outputs,
        List.Forall₂ (fun i o => i ≠ "" ∧ x.NormalizeAndValidate i = .ok o) inputs outputs ∧
        out = sortStrings outputs ∧ out.Pairwise pairOK ∧ ("." ∈ out → ∀ o ∈ out, o = ".") := by
  unfold transformFileListForConfig
  by_cases hlen : inputs.length = 0
  · have hnil : inputs = [] := List.length_eq_zero.mp hlen
    subst hnil
    simp only [List.length_nil, if_true, Except.ok.injEq, List.forall₂_nil_left_iff]
    constructor
    · intro h
      subst h
      exact ⟨[], rfl, rfl, List.Pairwise.nil, by simp⟩
    · rintro ⟨outputs, h1, h2, _⟩
      subst h1
      rw [h2]; rfl
  · simp only [hlen, if_false]
    cases hn : normalizeInputs x name inputs with
    | error e =>
      constructor
      · intro h; cases h
      · rintro ⟨outputs, h1, _⟩
        rw [(normalizeInputs_ok_iff x name inputs outputs).mpr h1] at hn
        cases hn
    | ok outs =>
      have hf := (normalizeInputs_ok_iff x name inputs outs).mp hn
      simp only
      cases hc : checkOuter name (sortStrings outs) with
      | error e =>
        constructor
        · intro h; cases h
        · rintro ⟨outputs, h1, h2, h3, _⟩
          have := (normalizeInputs_ok_iff x name inputs outputs).mpr h1
          rw [hn] at this
          simp only [Except.ok.injEq] at this
          subst this
          subst h2
          rw [(checkOuter_ok_iff name _).mpr h3] at hc
          cases hc
      | ok u =>
        have hp := (checkOuter_ok_iff name _).mp hc
        cases hd : checkDotDir name (sortStrings outs) with
        | error e =>
          constructor
          · intro h; cases h
          · rintro ⟨outputs, h1, h2, _, h4⟩
            have := (normalizeInputs_ok_iff x name inputs outputs).mpr h1
            rw [hn] at this
            simp only [Except.ok.injEq] at this
            subst this
            subst h2
            rw [(checkDotDir_ok_iff name _).mpr h4] at hd
            cases hd
        | ok u' =>
          have hdd := (checkDotDir_ok_iff name _).mp hd
          simp only [Except.ok.injEq]
          constructor
          · intro h
            subst h
            exact ⟨outs, hf, rfl, hp, hdd⟩
          · rintro ⟨outputs, h1, h2, _⟩
            have := (normalizeInputs_ok_iff x name inputs outputs).mpr h1
            rw [hn] at this
            simp only [Except.ok.injEq] at this
            subst this
            exact h2.symm

/-- Every error of `transformFileListForConfig` is a user-input error, when
the errors of the path normalizer are. -/
theorem transformFileListForConfig_error (x : Externals)
    (hx : ∀ p e, x.NormalizeAndValidate p = .error e → e.isInvalidArgument = true)
    (inputs : List String) (name : String) (e : Error)
    (h : transformFileListForConfig x inputs name = .error e) :
    e.isInvalidArgument = true := by
  unfold transformFileListForConfig at h
  split at h
  · cases h
  · split at h
    · rename_i err hn
      cases h
      rcases normalizeInputs_error x name inputs _ hn with h1 | ⟨i, _, hie⟩
      · rw [h1]; rfl
      · exact hx i _ hie
    · simp only at h
      split at h
      · rename_i err hc
        cases h
        exact checkOuter_error name _ _ hc
      · split at h
        · rename_i err hd
          cases h
          exact checkDotDir_error name _ _ hd
        · cases h

theorem mem_foldl_SliceToMap (e : String) : ∀ (s acc : List String),
    e ∈ s.foldl (fun m e => if e ∈ m then m else m ++ [e]) acc ↔ e ∈ acc ∨ e ∈ s
  | [], acc => by simp
  | a :: rest, acc => by
    simp only [List.foldl_cons, List.mem_cons]
    rw [mem_foldl_SliceToMap e rest]
    by_cases ha : a ∈ acc
    · simp only [ha, if_true]
      constructor
      · rintro (h | h)
        · exact Or.inl h
        · exact Or.inr (Or.inr h)
      · rintro (h | h | h)
        · exact Or.inl h
        · subst h; exact Or.inl ha
        · exact Or.inr h
    · simp only [ha, if_false, List.mem_append, List.mem_singleton]
      tauto

theorem mem_SliceToMap (e : String) (s : List String) : e ∈ SliceToMap s ↔ e ∈ s := by
  unfold SliceToMap
  rw [mem_foldl_SliceToMap]
  simp

/-- The roots that `newConfig` hands to `transformFileListForConfig`. -/
theorem newConfig_ok_iff (x : Externals) (cb : ConfigBuilder) (cfg : Config) :
    newConfig x cb = .ok cfg ↔
      transformFileListForConfig x (if cb.Roots.length = 0 then ["."] else cb.Roots) "root" =
          .ok cfg.Roots ∧
        transformFileListForConfig x cb.Excludes "exclude" = .ok cfg.Excludes ∧
        (∀ e ∈ cfg.Excludes, e ∉ cfg.Roots) ∧
        (∀ e ∈ cfg.Excludes, x.MapContainsMatch (SliceToMap cfg.Roots) e = true) := by
  obtain ⟨croots, cexcl⟩ := cfg
  obtain ⟨broots, bexcl⟩ := cb
  unfold newConfig
  simp only
  have hroots : (if broots.length = 0 then ({ Roots := ["."], Excludes := bexcl } : ConfigBuilder)
      else { Roots := broots, Excludes := bexcl }).Roots
      = (if broots.length = 0 then ["."] else broots) := by
    split_ifs <;> rfl
  have hexcl : (if broots.length = 0 then ({ Roots := ["."], Excludes := bexcl } : ConfigBuilder)
      else { Roots := broots, Excludes := bexcl }).Excludes = bexcl := by
    split_ifs <;> rfl
  rw [hroots, hexcl]
  cases hr : transformFileListForConfig x (if broots.length = 0 then ["."] else broots) "root" with
  | error e => simp
  | ok roots =>
    simp only
    by_cases hlen : bexcl.length > 0
    · simp only [hlen, if_true]
      cases he : transformFileListForConfig x bexcl "exclude" with
      | error e => simp
      | ok excludes =>
        simp only [List.any_eq_true, mem_SliceToMap, decide_eq_true_eq, Bool.not_eq_true',
          Except.ok.injEq, Config.mk.injEq]
        by_cases h1 : ∃ x_1, x_1 ∈ excludes ∧ x_1 ∈ roots
        · simp only [h1, if_true]
          constructor
          · intro h; cases h
          · rintro ⟨rfl, rfl, h3, _⟩
            obtain ⟨e, he1, he2⟩ := h1
            exact absurd he2 (h3 e he1)
        · simp only [h1, if_false]
          by_cases h2 : ∃ x_1, x_1 ∈ excludes ∧ x.MapContainsMatch (SliceToMap roots) x_1 = false
          · simp only [h2, if_true]
            constructor
            · intro h; cases h
            · rintro ⟨rfl, rfl, _, h4⟩
              obtain ⟨e, he1, he2⟩ := h2
              rw [h4 e he1] at he2
              cases he2
          · simp only [h2, if_false, Except.ok.injEq, Config.mk.injEq]
            constructor
            · rintro ⟨rfl, rfl⟩
              refine ⟨rfl, rfl, ?_, ?_⟩
              · intro e he1 he2
                exact h1 ⟨e, he1, he2⟩
              · intro e he1
                by_contra hne
                exact h2 ⟨e, he1, by simpa using hne⟩
            · rintro ⟨h, h', _, _⟩
              exact ⟨h, h'⟩
    · have hnil : bexcl = [] := by
        cases bexcl with
        | nil => rfl
        | cons a l => simp at hlen
      subst hnil
      simp only [List.length_nil, gt_iff_lt, lt_self_iff_false, if_false, Except.ok.injEq,
        Config.mk.injEq]
      have ht : transformFileListForConfig x [] "exclude" = .ok [] := rfl
      rw [ht]
      simp only [Except.ok.injEq]
      constructor
      · rintro ⟨rfl, rfl⟩
        exact ⟨rfl, rfl, by simp, by simp⟩
      · rintro ⟨h, h', _, _⟩
        exact ⟨h, h'.symm ▸ rfl⟩

/-- Every error of `newConfig` is a user-input error, when the errors of the
path normalizer are. -/
theorem newConfig_error (x : Externals)
    (hx : ∀ p e, x.NormalizeAndValidate p = .error e → e.isInvalidArgument = true)
    (cb : ConfigBuilder) (e : Error) (h : newConfig x cb = .error e) :
    e.isInvalidArgument = true := by
  obtain ⟨broots, bexcl⟩ := cb
  unfold newConfig at h
  simp only at h
  have hroots : (if broots.length = 0 then ({ Roots := ["."], Excludes := bexcl } : ConfigBuilder)
      else { Roots := broots, Excludes := bexcl }).Roots
      = (if broots.length = 0 then ["."] else broots) := by
    split_ifs <;> rfl
  have hexcl : (if broots.length = 0 then ({ Roots := ["."], Excludes := bexcl } : ConfigBuilder)
      else { Roots := broots, Excludes := bexcl }).Excludes = bexcl := by
    split_ifs <;> rfl
  rw [hroots, hexcl] at h
  cases hr : transformFileListForConfig x (if broots.length = 0 then ["."] else broots) "root" with
  | error err =>
    rw [hr] at h
    cases h
    exact transformFileListForConfig_error x hx _ _ _ hr
  | ok roots =>
    rw [hr] at h
    simp only at h
    by_cases hlen : bexcl.length > 0
    · simp only [hlen, if_true] at h
      cases he : transformFileListForConfig x bexcl "exclude" with
      | error err =>
        rw [he] at h
        cases h
        exact transformFileListForConfig_error x hx _ _ _ he
      | ok excludes =>
        rw [he] at h
        simp only at h
        split_ifs at h <;> cases h <;> rfl
    · simp only [hlen, if_false] at h
      cases h

theorem forall₂_mem_left {R : String → String → Prop} : ∀ {l1 l2 : List String},
    List.Forall₂ R l1 l2 → ∀ a ∈ l1, ∃ b ∈ l2, R a b
  | _, _, .nil, a, ha => by simp at ha
  | _, _, .cons hab hrest, a, ha => by
    rcases List.mem_cons.mp ha with h | h
    · subst h; exact ⟨_, List.mem_cons_self _ _, hab⟩
    · obtain ⟨b, hb, hr⟩ := forall₂_mem_left hrest a h
      exact ⟨b, List.mem_cons_of_mem _ hb, hr⟩

theorem forall₂_mem_right {R : String → String → Prop} : ∀ {l1 l2 : List String},
    List.Forall₂ R l1 l2 → ∀ b ∈ l2, ∃ a ∈ l1, R a b
  | _, _, .nil, b, hb => by simp at hb
  | _, _, .cons hab hrest, b, hb => by
    rcases List.mem_cons.mp hb with h | h
    · subst h; exact ⟨_, List.mem_cons_self _ _, hab⟩
    · obtain ⟨a, ha, hr⟩ := forall₂_mem_right hrest b h
      exact ⟨a, List.mem_cons_of_mem _ ha, hr⟩

theorem pairOK_symm {a b : String} (h : pairOK a b) : pairOK b a :=
  ⟨fun hba => h.1 hba.symm, h.2.2, h.2.1⟩

/-- In a list that passed the pairwise loop and the `"."` block, two entries
at different positions are unequal and neither is a path-prefix of the
other. -/
theorem no_nesting_of_checks (out : List String) (hp : out.Pairwise pairOK)
    (hd : "." ∈ out → ∀ o ∈ out, o = ".") (i j : Nat) (hi : i < out.length)
    (hj : j < out.length) (hij : i ≠ j) :
    out[i] ≠ out[j] ∧ isPathPrefix out[i] out[j] = false := by
  have hpair : pairOK out[i] out[j] := by
    rcases Nat.lt_or_gt_of_ne hij with hlt | hgt
    · exact (List.pairwise_iff_getElem.mp hp) i j hi hj hlt
    · exact pairOK_symm ((List.pairwise_iff_getElem.mp hp) j i hj hi hgt)
  refine ⟨hpair.1, ?_⟩
  by_contra hne
  have htrue : isPathPrefix out[i] out[j] = true := by simpa using hne
  rcases isPathPrefix_hasPrefix _ _ htrue with hdot | hpre
  · have hmem : "." ∈ out := hdot ▸ List.getElem_mem hi
    have hj' : out[j] = "." := hd hmem _ (List.getElem_mem hj)
    exact hpair.1 (hdot.trans hj'.symm)
  · rw [hpair.2.2] at hpre
    cases hpre

/-- C3: no-nesting invariant of a built Config. For every roots and excludes
input on which `newConfig` succeeds, any two entries of the returned `Roots`
at different positions are unequal and neither is a path-prefix of the other,
and the same holds for any two entries of the returned `Excludes`. -/
theorem newConfig_no_nesting (x : Externals) (cb : ConfigBuilder) (cfg : Config)
    (h : newConfig x cb = .ok cfg) :
    (∀ (i j : Nat) (hi : i < cfg.Roots.length) (hj : j < cfg.Roots.length), i ≠ j →
      cfg.Roots[i] ≠ cfg.Roots[j] ∧ isPathPrefix cfg.Roots[i] cfg.Roots[j] = false) ∧
    (∀ (i j : Nat) (hi : i < cfg.Excludes.length) (hj : j < cfg.Excludes.length), i ≠ j →
      cfg.Excludes[i] ≠ cfg.Excludes[j] ∧
        isPathPrefix cfg.Excludes[i] cfg.Excludes[j] = false) := by
  obtain ⟨hr, he, _, _⟩ := (newConfig_ok_iff x cb cfg).mp h
  obtain ⟨_, _, _, hrp, hrd⟩ := (transformFileListForConfig_ok_iff x _ _ _).mp hr
  obtain ⟨_, _, _, hep, hed⟩ := (transformFileListForConfig_ok_iff x _ _ _).mp he
  exact ⟨fun i j hi hj hij => no_nesting_of_checks _ hrp hrd i j hi hj hij,
    fun i j hi hj hij => no_nesting_of_checks _ hep hed i j hi hj hij⟩

/-- C3 on the roots `b`, `a/x` and the excludes `b/y`, `a/x/z`: the built
Config holds `a/x` before `b`, two unequal roots of which the first is no
path-prefix of the second. -/
theorem newConfig_no_nesting_witness :
    newConfig specExternals ⟨["b", "a/x"], ["b/y", "a/x/z"]⟩ =
        .ok ⟨["a/x", "b"], ["a/x/z", "b/y"]⟩ ∧
      ("a/x" : String) ≠ "b" ∧ isPathPrefix "a/x" "b" = false :=
  ⟨rfl, ((newConfig_no_nesting specExternals ⟨["b", "a/x"], ["b/y", "a/x/z"]⟩
    ⟨["a/x", "b"], ["a/x/z", "b/y"]⟩ rfl).1 0 1 (by decide) (by decide) (by decide))⟩

theorem mem_MapContainsMatch (m : List String) (path : String) :
    MapContainsMatch m path = true ↔ ∃ key ∈ m, isPathPrefix key path = true := by
  simp [MapContainsMatch, List.any_eq_true]

theorem error_of_isInvalidArgument (e : Error) (h : e.isInvalidArgument = true) :
    ∃ msg, e = .InvalidArgument msg := by
  cases e with
  | InvalidArgument msg => exact ⟨msg, rfl⟩
  | Internal msg => cases h
  | ErrFilePathUnknown => cases h

/-- The entries of the list that `transformFileListForConfig` returns are the
normalized inputs. -/
theorem transformFileListForConfig_mem (x : Externals) (inputs : List String) (name : String)
    (out : List String) (h : transformFileListForConfig x inputs name = .ok out) :
    (∀ i ∈ inputs, ∃ o ∈ out, x.NormalizeAndValidate i = .ok o) ∧
      (∀ o ∈ out, ∃ i ∈ inputs, x.NormalizeAndValidate i = .ok o) := by
  obtain ⟨outputs, hf, hout, _, _⟩ := (transformFileListForConfig_ok_iff x _ _ _).mp h
  have hperm : out.Perm outputs := hout ▸ sortStrings_perm outputs
  constructor
  · intro i hi
    obtain ⟨o, ho, hr⟩ := forall₂_mem_left hf i hi
    exact ⟨o, hperm.mem_iff.mpr ho, hr.2⟩
  · intro o ho
    obtain ⟨i, hi, hr⟩ := forall₂_mem_right hf o (hperm.mem_iff.mp ho)
    exact ⟨i, hi, hr.2⟩

/-- The errors of the normalizer of `specExternals` are user-input errors. -/
theorem specExternals_normalize_error (p : String) (e : Error)
    (h : specExternals.NormalizeAndValidate p = .error e) : e.isInvalidArgument = true := by
  simp only [specExternals, NormalizeAndValidate] at h
  split_ifs at h
  · cases h; rfl
  · cases h; rfl
  · split at h
    · cases h; rfl
    · cases h
    · cases h

/-- C4: exclude/root cross-check. With `MapContainsMatch` as the spec
describes it and a path normalizer whose errors are user-input errors: when
`newConfig` succeeds, no returned exclude is equal to a returned root and
every returned exclude is a path-descendant of a returned root; and if some
normalized exclude equals a normalized root, or lies under no normalized
root, `newConfig` fails with a user-input error, as it does for roots `a`
with excludes `a` and for roots `a`, `b` with excludes `c`. -/
theorem newConfig_excludes_under_roots (x : Externals)
    (hM : x.MapContainsMatch = MapContainsMatch)
    (hx : ∀ p e, x.NormalizeAndValidate p = .error e → e.isInvalidArgument = true)
    (cb : ConfigBuilder) :
    (∀ cfg, newConfig x cb = .ok cfg →
      ∀ e ∈ cfg.Excludes,
        (∀ r ∈ cfg.Roots, e ≠ r) ∧ ∃ r ∈ cfg.Roots, r ≠ e ∧ isPathPrefix r e = true) ∧
    ((∃ e' ∈ cb.Excludes, ∃ e, x.NormalizeAndValidate e' = .ok e ∧
        ((∃ r' ∈ (if cb.Roots.length = 0 then ["."] else cb.Roots),
            x.NormalizeAndValidate r' = .ok e) ∨
          (∀ r' ∈ (if cb.Roots.length = 0 then ["."] else cb.Roots),
            ∀ r, x.NormalizeAndValidate r' = .ok r → isPathPrefix r e = false))) →
      ∃ msg, newConfig x cb = .error (.InvalidArgument msg)) ∧
    (∃ msg, newConfig specExternals ⟨["a"], ["a"]⟩ = .error (.InvalidArgument msg)) ∧
    (∃ msg, newConfig specExternals ⟨["a", "b"], ["c"]⟩ = .error (.InvalidArgument msg)) := by
  have part1 : ∀ cfg, newConfig x cb = .ok cfg →
      ∀ e ∈ cfg.Excludes,
        (∀ r ∈ cfg.Roots, e ≠ r) ∧ ∃ r ∈ cfg.Roots, r ≠ e ∧ isPathPrefix r e = true := by
    intro cfg h e he
    obtain ⟨_, _, hne, hmc⟩ := (newConfig_ok_iff x cb cfg).mp h
    have hnotin := hne e he
    refine ⟨fun r hr her => hnotin (her ▸ hr), ?_⟩
    have := hmc e he
    rw [hM, mem_MapContainsMatch] at this
    obtain ⟨key, hkey, hpre⟩ := this
    have hkey' : key ∈ cfg.Roots := (mem_SliceToMap key cfg.Roots).mp hkey
    exact ⟨key, hkey', fun hke => hnotin (hke ▸ hkey'), hpre⟩
  refine ⟨part1, ?_, ⟨_, rfl⟩, ⟨_, rfl⟩⟩
  rintro ⟨e', he', e, hne, hcase⟩
  cases hres : newConfig x cb with
  | error err =>
    obtain ⟨msg, hmsg⟩ := error_of_isInvalidArgument err (newConfig_error x hx cb err hres)
    exact ⟨msg, by rw [hmsg]⟩
  | ok cfg =>
    exfalso
    obtain ⟨hr, hex, _, _⟩ := (newConfig_ok_iff x cb cfg).mp hres
    obtain ⟨hrl, hrr⟩ := transformFileListForConfig_mem x _ _ _ hr
    obtain ⟨hel, _⟩ := transformFileListForConfig_mem x _ _ _ hex
    obtain ⟨o, ho, hoe⟩ := hel e' he'
    rw [hne] at hoe
    simp only [Except.ok.injEq] at hoe
    subst hoe
    obtain ⟨hneq, r, hrmem, _, hpre⟩ := part1 cfg hres e ho
    rcases hcase with ⟨r', hr', hnr'⟩ | hall
    · obtain ⟨o', ho', hoe'⟩ := hrl r' hr'
      rw [hnr'] at hoe'
      simp only [Except.ok.injEq] at hoe'
      subst hoe'
      exact hneq e ho' rfl
    · obtain ⟨i, hi, hni⟩ := hrr r hrmem
      rw [hall i hi r hni] at hpre
      cases hpre

/-- C4 on the roots `a` and the excludes `a/b`: the exclude is no root and is
a path-descendant of the root `a`. -/
theorem newConfig_excludes_under_roots_witness :
    newConfig specExternals ⟨["a"], ["a/b"]⟩ = .ok ⟨["a"], ["a/b"]⟩ ∧
      ∀ e ∈ ["a/b"], (∀ r ∈ ["a"], e ≠ r) ∧ ∃ r ∈ ["a"], r ≠ e ∧ isPathPrefix r e = true := by
  exact ⟨rfl, (newConfig_excludes_under_roots specExternals rfl specExternals_normalize_error
    ⟨["a"], ["a/b"]⟩).1 ⟨["a"], ["a/b"]⟩ rfl⟩

/-- C5, at the roots `a` and `ab`: both entries are non-empty and normalize to
themselves, they are unequal, neither is a path-prefix of the other and
none is `"."`, and yet `transformFileListForConfig` rejects the list, as
it rejects `one/a` with `one/ab`: the pairwise loop compares with
`strings.HasPrefix`, and `a` is a prefix of the string `ab`. -/
theorem transformFileListForConfig_rejects_siblings :
    specExternals.NormalizeAndValidate "a" = .ok "a" ∧
    specExternals.NormalizeAndValidate "ab" = .ok "ab" ∧
    isPathPrefix "a" "ab" = false ∧ isPathPrefix "ab" "a" = false ∧
    transformFileListForConfig specExternals ["a", "ab"] "root" =
      .error (.InvalidArgument "%s %s is within %s %s which is not allowed") ∧
    isPathPrefix "one/a" "one/ab" = false ∧ isPathPrefix "one/ab" "one/a" = false ∧
    transformFileListForConfig specExternals ["one/a", "one/ab"] "root" =
      .error (.InvalidArgument "%s %s is within %s %s which is not allowed") :=
  ⟨rfl, rfl, rfl, rfl, rfl, rfl, rfl, rfl⟩

theorem strict_of_sorted_of_checks (out : List String) (hs : out.Sorted stringLE)
    (hp : out.Pairwise pairOK) : out.Sorted (fun a b => stringLess a b = true) := by
  have := List.Pairwise.and hs hp
  refine this.imp ?_
  rintro a b ⟨hle, hne, _, _⟩
  rcases stringLess_total a b with h | h | h
  · exact h
  · exact absurd h hne
  · unfold stringLE at hle
    rw [hle] at h
    cases h

/-- The list that `transformFileListForConfig` returns is a strictly
increasing arrangement of the normalized inputs. -/
theorem transformFileListForConfig_sorted (x : Externals) (inputs : List String)
    (name : String) (out : List String)
    (h : transformFileListForConfig x inputs name = .ok out) :
    (∃ outputs, List.Forall₂ (fun i o => x.NormalizeAndValidate i = .ok o) inputs outputs ∧
        out.Perm outputs) ∧
      out.Sorted (fun a b => stringLess a b = true) := by
  obtain ⟨outputs, hf, hout, hp, _⟩ := (transformFileListForConfig_ok_iff x _ _ _).mp h
  refine ⟨⟨outputs, hf.imp (fun _ _ hab => hab.2), hout ▸ sortStrings_perm outputs⟩, ?_⟩
  exact strict_of_sorted_of_checks out (hout ▸ sortStrings_sorted outputs) hp

/-- C6: result of a successful build. When `newConfig` succeeds, the
returned `Roots` is a permutation of the normalized input roots (an empty
roots input standing for the single entry `"."`) that is strictly
increasing in the order of Go strings, and the returned `Excludes` is a
strictly increasing permutation of the normalized input excludes. With the
normalizer of the spec, empty roots and excludes give `Roots ["."]` and no
excludes, and roots `a` with excludes `a/b` give `Roots ["a"]` and
`Excludes ["a/b"]`. -/
theorem newConfig_sorted_normalized :
    (∀ (x : Externals) (cb : ConfigBuilder) (cfg : Config), newConfig x cb = .ok cfg →
      ((∃ outputs,
          List.Forall₂ (fun i o => x.NormalizeAndValidate i = .ok o)
            (if cb.Roots.length = 0 then ["."] else cb.Roots) outputs ∧
          cfg.Roots.Perm outputs) ∧
        cfg.Roots.Sorted (fun a b => stringLess a b = true)) ∧
      ((∃ outputs,
          List.Forall₂ (fun i o => x.NormalizeAndValidate i = .ok o) cb.Excludes outputs ∧
          cfg.Excludes.Perm outputs) ∧
        cfg.Excludes.Sorted (fun a b => stringLess a b = true))) ∧
    newConfig specExternals ⟨[], []⟩ = .ok ⟨["."], []⟩ ∧
    newConfig specExternals ⟨["a"], ["a/b"]⟩ = .ok ⟨["a"], ["a/b"]⟩ := by
  refine ⟨?_, rfl, rfl⟩
  intro x cb cfg h
  obtain ⟨hr, he, _, _⟩ := (newConfig_ok_iff x cb cfg).mp h
  exact ⟨transformFileListForConfig_sorted x _ _ _ hr,
    transformFileListForConfig_sorted x _ _ _ he⟩

/-- C6 on the roots `b`, `./a/` and the excludes `b/z`, `b/y`: the built
Config holds the normalized roots `a`, `b` and the excludes `b/y`, `b/z`,
both in strictly increasing order. -/
theorem newConfig_sorted_normalized_witness :
    newConfig specExternals ⟨["b", "./a/"], ["b/z", "b/y"]⟩ = .ok ⟨["a", "b"], ["b/y", "b/z"]⟩ ∧
      List.Sorted (fun a b => stringLess a b = true) ["a", "b"] ∧
      List.Sorted (fun a b => stringLess a b = true) ["b/y", "b/z"] :=
  have h := newConfig_sorted_normalized.1 specExternals ⟨["b", "./a/"], ["b/z", "b/y"]⟩
    ⟨["a", "b"], ["b/y", "b/z"]⟩ rfl
  ⟨rfl, h.1.2, h.2.2⟩

/-- A list of two or more inputs of which one normalizes to `"."` does not
pass `transformFileListForConfig`. -/
theorem transformFileListForConfig_dot (x : Externals) (inputs : List String) (name : String)
    (out : List String) (hlen : 2 ≤ inputs.length)
    (hdot : ∃ r ∈ inputs, x.NormalizeAndValidate r = .ok ".")
    (h : transformFileListForConfig x inputs name = .ok out) : False := by
  obtain ⟨outputs, hf, hout, hp, hd⟩ := (transformFileListForConfig_ok_iff x _ _ _).mp h
  have hperm : out.Perm outputs := hout ▸ sortStrings_perm outputs
  have hlen' : 2 ≤ out.length := by
    rw [hperm.length_eq, ← hf.length_eq]; exact hlen
  obtain ⟨r, hr, hnr⟩ := hdot
  obtain ⟨o, ho, hro⟩ := forall₂_mem_left hf r hr
  rw [hnr] at hro
  have ho' : o = "." := by
    have := hro.2
    simp only [Except.ok.injEq] at this
    exact this.symm
  subst ho'
  have hall := hd (hperm.mem_iff.mpr ho)
  match out, hp, hall, hlen' with
  | a :: b :: rest, hp, hall, _ =>
    have ha : a = "." := hall a (by simp)
    have hb : b = "." := hall b (by simp)
    have hab : pairOK a b := (List.pairwise_cons.mp hp).1 b (by simp)
    exact hab.1 (ha.trans hb.symm)

/-- C7: `"."` may only stand alone. With a path normalizer whose errors are
user-input errors: for every roots list with at least two entries of which
one normalizes to `"."`, `newConfig` fails with a user-input error, and
likewise for every excludes list with at least two entries of which one
normalizes to `"."`; the roots `.` and `sub` are rejected. -/
theorem newConfig_dot_alone (x : Externals)
    (hx : ∀ p e, x.NormalizeAndValidate p = .error e → e.isInvalidArgument = true)
    (cb : ConfigBuilder) :
    ((2 ≤ cb.Roots.length ∧ ∃ r ∈ cb.Roots, x.NormalizeAndValidate r = .ok ".") →
      ∃ msg, newConfig x cb = .error (.InvalidArgument msg)) ∧
    ((2 ≤ cb.Excludes.length ∧ ∃ e ∈ cb.Excludes, x.NormalizeAndValidate e = .ok ".") →
      ∃ msg, newConfig x cb = .error (.InvalidArgument msg)) ∧
    (∃ msg, newConfig specExternals ⟨[".", "sub"], []⟩ = .error (.InvalidArgument msg)) := by
  have key : ∀ cfg, newConfig x cb = .ok cfg →
      ¬ (2 ≤ cb.Roots.length ∧ ∃ r ∈ cb.Roots, x.NormalizeAndValidate r = .ok ".") ∧
      ¬ (2 ≤ cb.Excludes.length ∧ ∃ e ∈ cb.Excludes, x.NormalizeAndValidate e = .ok ".") := by
    intro cfg h
    obtain ⟨hr, he, _, _⟩ := (newConfig_ok_iff x cb cfg).mp h
    constructor
    · rintro ⟨hlen, hdot⟩
      have hne : ¬ cb.Roots.length = 0 := by omega
      simp only [hne, if_false] at hr
      exact transformFileListForConfig_dot x _ _ _ hlen hdot hr
    · rintro ⟨hlen, hdot⟩
      exact transformFileListForConfig_dot x _ _ _ hlen hdot he
  refine ⟨?_, ?_, ⟨_, rfl⟩⟩
  · intro hyp
    cases hres : newConfig x cb with
    | error err =>
      obtain ⟨msg, hmsg⟩ := error_of_isInvalidArgument err (newConfig_error x hx cb err hres)
      exact ⟨msg, by rw [hmsg]⟩
    | ok cfg => exact absurd hyp (key cfg hres).1
  · intro hyp
    cases hres : newConfig x cb with
    | error err =>
      obtain ⟨msg, hmsg⟩ := error_of_isInvalidArgument err (newConfig_error x hx cb err hres)
      exact ⟨msg, by rw [hmsg]⟩
    | ok cfg => exact absurd hyp (key cfg hres).2

/-- C7 on the roots `a` with the excludes `a/b`, `./`: the second exclude
normalizes to `"."` and `newConfig` fails with a user-input error. -/
theorem newConfig_dot_alone_witness :
    (2 ≤ (["a/b", "./"] : List String).length ∧
        ∃ e ∈ ["a/b", "./"], specExternals.NormalizeAndValidate e = .ok ".") ∧
      ∃ msg, newConfig specExternals ⟨["a"], ["a/b", "./"]⟩ = .error (.InvalidArgument msg) :=
  have hyp : 2 ≤ (["a/b", "./"] : List String).length ∧
      ∃ e ∈ ["a/b", "./"], specExternals.NormalizeAndValidate e = .ok "." :=
    ⟨by decide, "./", by simp, rfl⟩
  ⟨hyp, (newConfig_dot_alone specExternals specExternals_normalize_error
    ⟨["a"], ["a/b", "./"]⟩).2.1 hyp⟩

/-! ## `ParseInputRef` -/

/-- The part of `ParseInputRef` before the final checks does not look at the
two flags: either it fails with one error for all flags, or it hands one
`inputRef` to the final checks. -/
theorem ParseInputRef_cases (x : Externals) (i : inputRefParser) (value : String) :
    (∃ e, ∀ onlySources onlyImages : Bool, ¬ (onlySources = true ∧ onlyImages = true) →
        i.ParseInputRef x value onlySources onlyImages = .error e) ∨
    (∃ v p o r0, ∀ onlySources onlyImages : Bool, ¬ (onlySources = true ∧ onlyImages = true) →
        i.ParseInputRef x value onlySources onlyImages =
          i.checkInputRef v p o onlySources onlyImages r0) := by
  by_cases hv : TrimSpace value = ""
  · left
    refine ⟨newValueEmptyError i.valueFlagName, ?_⟩
    intro os oi hno
    simp only [inputRefParser.ParseInputRef, hno, if_false, hv, if_true]
  · cases hs : i.splitValue (TrimSpace value) with
    | error e =>
      left
      refine ⟨e, ?_⟩
      intro os oi hno
      simp only [inputRefParser.ParseInputRef, hno, if_false, hv, hs]
    | ok po =>
      obtain ⟨path, options⟩ := po
      cases ha : i.applyInputRefOptions x
          { Path := path, Format := .unset, GitBranch := "", StripComponents := 0 } options with
      | error e =>
        left
        refine ⟨e, ?_⟩
        intro os oi hno
        simp only [inputRefParser.ParseInputRef, hno, if_false, hv, hs, ha]
      | ok inputRef =>
        by_cases hf : inputRef.Format = .unset
        · cases hp : i.parseFormatFromPath x path with
          | error e =>
            left
            refine ⟨e, ?_⟩
            intro os oi hno
            simp only [inputRefParser.ParseInputRef, hno, if_false, hv, hs, ha, hf, if_true, hp]
          | ok format =>
            right
            refine ⟨TrimSpace value, path, options, { inputRef with Format := format }, ?_⟩
            intro os oi hno
            simp only [inputRefParser.ParseInputRef, hno, if_false, hv, hs, ha, hf, if_true, hp]
        · right
          refine ⟨TrimSpace value, path, options, inputRef, ?_⟩
          intro os oi hno
          simp only [inputRefParser.ParseInputRef, hno, if_false, hv, hs, ha, hf]

/-- What the final checks of `ParseInputRef` establish when they pass. -/
theorem checkInputRef_ok (i : inputRefParser) (value path options : String)
    (onlySources onlyImages : Bool) (r0 r : InputRef)
    (h : i.checkInputRef value path options onlySources onlyImages r0 = .ok r) :
    r = r0 ∧ (r.Format = .FormatGit ↔ r.GitBranch ≠ "") ∧
      (r.StripComponents > 0 → r.Format = .FormatTar ∨ r.Format = .FormatTarGz) ∧
      (onlySources = true → r.Format.IsSource = true) ∧
      (onlyImages = true → r.Format.IsImage = true) ∧
      (path = "-" → r.Format.isFile = true) := by
  unfold inputRefParser.checkInputRef at h
  split_ifs at h with h1 h2 h3 h4 h5 h6
  simp only [Except.ok.injEq] at h
  subst h
  refine ⟨rfl, ?_, ?_, ?_, ?_, ?_⟩
  · constructor
    · intro hg hb; exact h1 ⟨hg, hb⟩
    · intro hb; by_contra hg; exact h2 ⟨hg, hb⟩
  · intro hs
    by_contra hno
    push_neg at hno
    exact h3 ⟨hno.1, hno.2, hs⟩
  · intro hos
    by_contra hno
    exact h4 ⟨hos, hno⟩
  · intro hoi
    by_contra hno
    exact h5 ⟨hoi, hno⟩
  · intro hp
    by_contra hno
    exact h6 ⟨hp, hno⟩

/-- A successful `ParseInputRef` went through the final checks. -/
theorem ParseInputRef_ok (x : Externals) (i : inputRefParser) (value : String)
    (onlySources onlyImages : Bool) (r : InputRef)
    (h : i.ParseInputRef x value onlySources onlyImages = .ok r) :
    ∃ v p o r0, i.checkInputRef v p o onlySources onlyImages r0 = .ok r := by
  have hno : ¬ (onlySources = true ∧ onlyImages = true) := by
    intro hboth
    simp only [inputRefParser.ParseInputRef, hboth, and_self, if_true] at h
    cases h
  rcases ParseInputRef_cases x i value with ⟨e, he⟩ | ⟨v, p, o, r0, hr⟩
  · rw [he _ _ hno] at h; cases h
  · exact ⟨v, p, o, r0, (hr _ _ hno) ▸ h⟩

/-- C9: strip count only for tar. For every value and flag setting on which
`ParseInputRef` succeeds, if the returned `StripComponents` is greater than
zero then the returned `Format` is the tar format or the gzip-tar format. -/
theorem parseInputRef_strip_only_tar (x : Externals) (i : inputRefParser) (value : String)
    (onlySources onlyImages : Bool) (r : InputRef)
    (h : i.ParseInputRef x value onlySources onlyImages = .ok r)
    (hs : r.StripComponents > 0) :
    r.Format = .FormatTar ∨ r.Format = .FormatTarGz := by
  obtain ⟨v, p, o, r0, hc⟩ := ParseInputRef_ok x i value onlySources onlyImages r h
  exact (checkInputRef_ok i v p o onlySources onlyImages r0 r hc).2.2.1 hs

/-- C9 on `x.tar.gz#strip_components=2`: the strip count is 2 and the format
is gzip-tar. -/
theorem parseInputRef_strip_only_tar_witness :
    inputRefParser.ParseInputRef specExternals ⟨"--input"⟩ "x.tar.gz#strip_components=2"
        false false =
      .ok { Path := "x.tar.gz", Format := .FormatTarGz, GitBranch := "", StripComponents := 2 } ∧
    (Format.FormatTarGz = Format.FormatTar ∨ Format.FormatTarGz = Format.FormatTarGz) :=
  ⟨rfl, parseInputRef_strip_only_tar specExternals ⟨"--input"⟩ "x.tar.gz#strip_components=2"
    false false
    { Path := "x.tar.gz", Format := .FormatTarGz, GitBranch := "", StripComponents := 2 }
    rfl (by decide)⟩

/-- C10: the caller restriction is enforced. If `ParseInputRef value true
false` succeeds, the returned `Format` is directory, tar, gzip-tar or git; if
`ParseInputRef value false true` succeeds, it is binary, JSON or one of their
gzip variants; and a value that without restriction resolves to a format
outside the restriction fails under the restriction with a user-input
error. -/
theorem parseInputRef_restriction (x : Externals) (i : inputRefParser) (value : String) :
    (∀ r, i.ParseInputRef x value true false = .ok r →
      r.Format = .FormatDir ∨ r.Format = .FormatTar ∨ r.Format = .FormatTarGz ∨
        r.Format = .FormatGit) ∧
    (∀ r, i.ParseInputRef x value false true = .ok r →
      r.Format = .FormatBin ∨ r.Format = .FormatJSON ∨ r.Format = .FormatBinGz ∨
        r.Format = .FormatJSONGz) ∧
    (∀ r, i.ParseInputRef x value false false = .ok r →
      ¬ (r.Format = .FormatDir ∨ r.Format = .FormatTar ∨ r.Format = .FormatTarGz ∨
        r.Format = .FormatGit) →
      ∃ msg, i.ParseInputRef x value true false = .error (.InvalidArgument msg)) ∧
    (∀ r, i.ParseInputRef x value false false = .ok r →
      ¬ (r.Format = .FormatBin ∨ r.Format = .FormatJSON ∨ r.Format = .FormatBinGz ∨
        r.Format = .FormatJSONGz) →
      ∃ msg, i.ParseInputRef x value false true = .error (.InvalidArgument msg)) := by
  have hsrc : ∀ f : Format, f.IsSource = true ↔
      (f = .FormatDir ∨ f = .FormatTar ∨ f = .FormatTarGz ∨ f = .FormatGit) := by
    intro f; cases f <;> simp [Format.IsSource]
  have himg : ∀ f : Format, f.IsImage = true ↔
      (f = .FormatBin ∨ f = .FormatJSON ∨ f = .FormatBinGz ∨ f = .FormatJSONGz) := by
    intro f; cases f <;> simp [Format.IsImage]
  refine ⟨?_, ?_, ?_, ?_⟩
  · intro r h
    obtain ⟨v, p, o, r0, hc⟩ := ParseInputRef_ok x i value true false r h
    exact (hsrc _).mp ((checkInputRef_ok i v p o true false r0 r hc).2.2.2.1 rfl)
  · intro r h
    obtain ⟨v, p, o, r0, hc⟩ := ParseInputRef_ok x i value false true r h
    exact (himg _).mp ((checkInputRef_ok i v p o false true r0 r hc).2.2.2.2.1 rfl)
  · intro r h hnot
    rcases ParseInputRef_cases x i value with ⟨e, he⟩ | ⟨v, p, o, r0, hr⟩
    · rw [he false false (by simp)] at h; cases h
    · rw [hr false false (by simp)] at h
      rw [hr true false (by simp)]
      have hr0 := (checkInputRef_ok i v p o false false r0 r h).1
      subst hr0
      have hns : ¬ r.Format.IsSource = true := fun hs => hnot ((hsrc _).mp hs)
      unfold inputRefParser.checkInputRef at h ⊢
      split_ifs at h with h1 h2 h3
      simp only [h1, h2, h3, if_false, true_and, hns, not_false_eq_true, if_true]
      exact ⟨_, rfl⟩
  · intro r h hnot
    rcases ParseInputRef_cases x i value with ⟨e, he⟩ | ⟨v, p, o, r0, hr⟩
    · rw [he false false (by simp)] at h; cases h
    · rw [hr false false (by simp)] at h
      rw [hr false true (by simp)]
      have hr0 := (checkInputRef_ok i v p o false false r0 r h).1
      subst hr0
      have hns : ¬ r.Format.IsImage = true := fun hs => hnot ((himg _).mp hs)
      unfold inputRefParser.checkInputRef at h ⊢
      split_ifs at h with h1 h2 h3
      simp only [h1, h2, h3, if_false, true_and, false_and, hns, not_false_eq_true, if_true]
      exact ⟨_, rfl⟩

/-- C10 on `x.bin`: without restriction it resolves to the binary format,
which is no source format, and as a source it fails with a user-input
error. -/
theorem parseInputRef_restriction_witness :
    inputRefParser.ParseInputRef specExternals ⟨"--input"⟩ "x.bin" false false =
      .ok { Path := "x.bin", Format := .FormatBin, GitBranch := "", StripComponents := 0 } ∧
    ∃ msg, inputRefParser.ParseInputRef specExternals ⟨"--input"⟩ "x.bin" true false =
      .error (.InvalidArgument msg) :=
  ⟨rfl, (parseInputRef_restriction specExternals ⟨"--input"⟩ "x.bin").2.2.1
    { Path := "x.bin", Format := .FormatBin, GitBranch := "", StripComponents := 0 } rfl
    (by decide)⟩

/-! ## The ordered views of a `protoFileSet` -/

/-- The loop of `newProtoFileSet` appends one pair for every entry of the
map, in the order of the visit. -/
theorem newProtoFileSetLoop_acc : ∀ (m : List (String × String)) (rev : GoMap)
    (acc : List rootRealFilePath) (rev' : GoMap) (acc' : List rootRealFilePath),
    newProtoFileSetLoop m rev acc = .ok (rev', acc') →
    acc' = acc ++ m.map (fun e => (⟨e.1, e.2⟩ : rootRealFilePath))
  | [], rev, acc, rev', acc', h => by
    simp only [newProtoFileSetLoop, Except.ok.injEq, Prod.mk.injEq] at h
    simp [h.2]
  | (root, real) :: rest, rev, acc, rev', acc', h => by
    simp only [newProtoFileSetLoop] at h
    split at h
    · cases h
    · have := newProtoFileSetLoop_acc rest _ _ rev' acc' h
      rw [this]
      simp

theorem rootRealFilePath_le_total (a b : rootRealFilePath) :
    rootRealFilePath.le a b ∨ rootRealFilePath.le b a :=
  stringLE_total a.rootFilePath b.rootFilePath

theorem rootRealFilePath_le_trans (a b c : rootRealFilePath) (hab : rootRealFilePath.le a b)
    (hbc : rootRealFilePath.le b c) : rootRealFilePath.le a c :=
  stringLE_trans a.rootFilePath b.rootFilePath c.rootFilePath hab hbc

/-- The sorted slice of a `protoFileSet` is a rearrangement of the entries of
the map, ordered by root path. -/
theorem newProtoFileSet_sorted (roots : List String) (m : GoMap) (s : protoFileSet)
    (h : newProtoFileSet roots m = .ok s) :
    s.sortedRootRealFilePaths.Perm (m.map (fun e => (⟨e.1, e.2⟩ : rootRealFilePath))) ∧
      s.sortedRootRealFilePaths.Sorted rootRealFilePath.le := by
  obtain ⟨_, _, acc, hloop, hsorted⟩ := newProtoFileSet_ok_fields roots m s h
  have hacc := newProtoFileSetLoop_acc m [] [] _ acc hloop
  simp only [List.nil_append] at hacc
  rw [hsorted]
  constructor
  · rw [← hacc]
    exact List.perm_insertionSort _ acc
  · exact @List.sorted_insertionSort _ rootRealFilePath.le _
      ⟨rootRealFilePath_le_total⟩ ⟨rootRealFilePath_le_trans⟩ acc

/-- C19: ordered views. For every successfully constructed `protoFileSet`,
`RootFilePaths()` is strictly increasing in the order of Go strings and is a
rearrangement of the keys of the mapping, so that it contains exactly the
keys; `RealFilePaths()` has the same length; and for every index `i`,
`RealFilePaths()[i]` is the real path bound to `RootFilePaths()[i]`. -/
theorem protoFileSet_ordered_views (roots : List String) (m : GoMap) (hm : m.WF)
    (s : protoFileSet) (h : newProtoFileSet roots m = .ok s) :
    s.RootFilePaths.Sorted (fun a b => stringLess a b = true) ∧
    s.RootFilePaths.Perm (m.map Prod.fst) ∧
    (∀ k, k ∈ s.RootFilePaths ↔ ∃ v, (k, v) ∈ m) ∧
    s.RealFilePaths.length = s.RootFilePaths.length ∧
    (∀ (i : Nat) (hi : i < s.RootFilePaths.length) (hj : i < s.RealFilePaths.length),
      m.get s.RootFilePaths[i] = some s.RealFilePaths[i]) := by
  obtain ⟨hperm, hsorted⟩ := newProtoFileSet_sorted roots m s h
  have hpermk : s.RootFilePaths.Perm (m.map Prod.fst) := by
    have := hperm.map (fun e => e.rootFilePath)
    simpa [protoFileSet.RootFilePaths, List.map_map, Function.comp_def] using this
  have hnd : s.RootFilePaths.Nodup := hpermk.nodup_iff.mpr hm
  refine ⟨?_, hpermk, ?_, ?_, ?_⟩
  · have hle : s.RootFilePaths.Pairwise stringLE := by
      unfold protoFileSet.RootFilePaths
      rw [List.pairwise_map]
      exact hsorted
    have := List.Pairwise.and hle hnd
    refine this.imp ?_
    rintro a b ⟨hab, hne⟩
    rcases stringLess_total a b with h1 | h1 | h1
    · exact h1
    · exact absurd h1 hne
    · unfold stringLE at hab
      rw [hab] at h1
      cases h1
  · intro k
    rw [hpermk.mem_iff, List.mem_map]
    constructor
    · rintro ⟨⟨a, b⟩, hmem, rfl⟩
      exact ⟨b, hmem⟩
    · rintro ⟨v, hv⟩
      exact ⟨(k, v), hv, rfl⟩
  · simp [protoFileSet.RealFilePaths, protoFileSet.RootFilePaths]
  · intro i hi hj
    have hi' : i < s.sortedRootRealFilePaths.length := by
      simpa [protoFileSet.RootFilePaths] using hi
    have hmem : s.sortedRootRealFilePaths[i] ∈
        m.map (fun e => (⟨e.1, e.2⟩ : rootRealFilePath)) :=
      hperm.mem_iff.mp (List.getElem_mem hi')
    obtain ⟨⟨a, b⟩, hab, heq⟩ := List.mem_map.mp hmem
    have h1 : s.RootFilePaths[i] = a := by
      simp only [protoFileSet.RootFilePaths, List.getElem_map, ← heq]
    have h2 : s.RealFilePaths[i] = b := by
      simp only [protoFileSet.RealFilePaths, List.getElem_map, ← heq]
    rw [h1, h2]
    exact GoMap.get_of_mem m hm a b hab

/-- C19 on a set of two files whose real paths are in the opposite order of
their root paths: the views are ordered by root path. -/
theorem protoFileSet_ordered_views_witness :
    GoMap.WF [("b.proto", "x/b.proto"), ("a.proto", "y/a.proto")] ∧
    ∃ s, newProtoFileSet ["x", "y"] [("b.proto", "x/b.proto"), ("a.proto", "y/a.proto")] = .ok s ∧
      s.RootFilePaths = ["a.proto", "b.proto"] ∧
      s.RealFilePaths = ["y/a.proto", "x/b.proto"] ∧
      s.RootFilePaths.Sorted (fun a b => stringLess a b = true) := by
  have hm : GoMap.WF [("b.proto", "x/b.proto"), ("a.proto", "y/a.proto")] := by
    unfold GoMap.WF; decide
  exact ⟨hm, _, rfl, rfl, rfl,
    (protoFileSet_ordered_views ["x", "y"] [("b.proto", "x/b.proto"), ("a.proto", "y/a.proto")]
      hm _ rfl).1⟩

/-! ## Lookups of absent paths -/

theorem GoMap.get_eq_none (m : GoMap) (k : String) (h : ∀ v, (k, v) ∉ m) : m.get k = none := by
  cases hg : m.get k with
  | none => rfl
  | some v => exact absurd (GoMap.mem_of_get m k v hg) (h v)

/-- C20, as stated, fails on the set that binds `a.proto` to `a/a.proto`: the
empty string is not a key of the mapping and `GetRealFilePath ""` returns the
internal error `file path empty`; and `./a.proto` is not a key either, and
`GetRealFilePath "./a.proto"` returns the real path bound to `a.proto`. -/
theorem getRealFilePath_absent_counterexample :
    ∃ s, newProtoFileSet ["a"] [("a.proto", "a/a.proto")] = .ok s ∧
      (∀ v, (("", v) : String × String) ∉ [("a.proto", "a/a.proto")]) ∧
      s.GetRealFilePath specExternals "" = .error (.Internal "file path empty") ∧
      s.GetRealFilePath specExternals "" ≠ .error .ErrFilePathUnknown ∧
      (∀ v, (("./a.proto", v) : String × String) ∉ [("a.proto", "a/a.proto")]) ∧
      s.GetRealFilePath specExternals "./a.proto" = .ok "a/a.proto" := by
  refine ⟨_, rfl, ?_, rfl, ?_, ?_, rfl⟩
  · intro v hv
    simp at hv
  · intro hne
    cases hne
  · intro v hv
    simp only [List.mem_singleton, Prod.mk.injEq] at hv
    exact absurd hv.1 (by decide)

/-- C20, amended: for every successfully constructed `protoFileSet` and every
non-empty path that the normalizer accepts and whose normalized form is not
a key of the mapping, `GetRealFilePath` returns `ErrFilePathUnknown`. -/
theorem getRealFilePath_absent (x : Externals) (roots : List String) (m : GoMap)
    (s : protoFileSet) (h : newProtoFileSet roots m = .ok s) (p q : String)
    (hp : p ≠ "") (hq : x.NormalizeAndValidate p = .ok q) (habs : ∀ v, (q, v) ∉ m) :
    s.GetRealFilePath x p = .error .ErrFilePathUnknown := by
  obtain ⟨_, hfwd, _⟩ := newProtoFileSet_ok_fields roots m s h
  have hget : s.rootFilePathToRealFilePath.get q = none := by
    rw [hfwd]; exact GoMap.get_eq_none m q habs
  simp [protoFileSet.GetRealFilePath, hp, hq, hget]

/-- The amended C20 on the set that binds `a.proto` to `a/a.proto`, looked up
at `b/../c.proto`. -/
theorem getRealFilePath_absent_witness :
    ∃ s, newProtoFileSet ["a"] [("a.proto", "a/a.proto")] = .ok s ∧
      specExternals.NormalizeAndValidate "b/../c.proto" = .ok "c.proto" ∧
      s.GetRealFilePath specExternals "b/../c.proto" = .error .ErrFilePathUnknown := by
  refine ⟨_, rfl, rfl, ?_⟩
  refine getRealFilePath_absent specExternals ["a"] [("a.proto", "a/a.proto")] _ rfl
    "b/../c.proto" "c.proto" (by decide) rfl ?_
  intro v hv
  simp only [List.mem_singleton, Prod.mk.injEq] at hv
  exact absurd hv.1 (by decide)

/-! ## `ParseInputRef`, continued -/

/-- C16: both restrictions set is a programming error. For every value,
`ParseInputRef value true true` returns the internal error
`onlySources and onlyImages both set`, which is no user-input error, and no
`InputRef`. -/
theorem parseInputRef_both_flags (x : Externals) (i : inputRefParser) (value : String) :
    i.ParseInputRef x value true true =
        .error (.Internal "onlySources and onlyImages both set") ∧
      (Error.Internal "onlySources and onlyImages both set").isInternal = true ∧
      (Error.Internal "onlySources and onlyImages both set").isInvalidArgument = false := by
  refine ⟨?_, rfl, rfl⟩
  simp [inputRefParser.ParseInputRef]

/-- The steps of a successful `ParseInputRef`, one by one. -/
theorem ParseInputRef_ok_parts (x : Externals) (i : inputRefParser) (value : String)
    (onlySources onlyImages : Bool) (r : InputRef)
    (h : i.ParseInputRef x value onlySources onlyImages = .ok r) :
    TrimSpace value ≠ "" ∧
    ∃ path options r1 r0,
      i.splitValue (TrimSpace value) = .ok (path, options) ∧
      i.applyInputRefOptions x
        { Path := path, Format := .unset, GitBranch := "", StripComponents := 0 } options =
          .ok r1 ∧
      ((r1.Format = .unset ∧
          ∃ format, i.parseFormatFromPath x path = .ok format ∧
            r0 = { r1 with Format := format }) ∨
        (r1.Format ≠ .unset ∧ r0 = r1)) ∧
      i.checkInputRef (TrimSpace value) path options onlySources onlyImages r0 = .ok r := by
  have hno : ¬ (onlySources = true ∧ onlyImages = true) := by
    intro hboth
    simp only [inputRefParser.ParseInputRef, hboth, and_self, if_true] at h
    cases h
  by_cases hv : TrimSpace value = ""
  · simp only [inputRefParser.ParseInputRef, hno, if_false, hv, if_true] at h
    cases h
  refine ⟨hv, ?_⟩
  cases hs : i.splitValue (TrimSpace value) with
  | error e =>
    simp only [inputRefParser.ParseInputRef, hno, if_false, hv, hs] at h
    cases h
  | ok po =>
    obtain ⟨path, options⟩ := po
    cases ha : i.applyInputRefOptions x
        { Path := path, Format := .unset, GitBranch := "", StripComponents := 0 } options with
    | error e =>
      simp only [inputRefParser.ParseInputRef, hno, if_false, hv, hs, ha] at h
      cases h
    | ok r1 =>
      by_cases hf : r1.Format = .unset
      · cases hp : i.parseFormatFromPath x path with
        | error e =>
          simp only [inputRefParser.ParseInputRef, hno, if_false, hv, hs, ha, hf, if_true,
            hp] at h
          cases h
        | ok format =>
          simp only [inputRefParser.ParseInputRef, hno, if_false, hv, hs, ha, hf, if_true,
            hp] at h
          exact ⟨path, options, r1, { r1 with Format := format }, rfl, ha,
            Or.inl ⟨hf, format, hp, rfl⟩, h⟩
      · simp only [inputRefParser.ParseInputRef, hno, if_false, hv, hs, ha, hf] at h
        exact ⟨path, options, r1, r1, rfl, ha, Or.inr ⟨hf, rfl⟩, h⟩

theorem applyInputRefOption_path (x : Externals) (i : inputRefParser) (inputRef r : InputRef)
    (options pair : String) (h : i.applyInputRefOption x inputRef options pair = .ok r) :
    r.Path = inputRef.Path := by
  unfold inputRefParser.applyInputRefOption at h
  split at h
  · simp only at h
    split_ifs at h
    · split at h
      · cases h
      · split_ifs at h
        split at h
        · cases h
        · cases h; rfl
    · cases h; rfl
    · split at h
      · cases h
      · cases h; rfl
  · cases h

theorem applyInputRefOptionsLoop_path (x : Externals) (i : inputRefParser) (options : String) :
    ∀ (pairs : List String) (inputRef r : InputRef),
      i.applyInputRefOptionsLoop x options inputRef pairs = .ok r → r.Path = inputRef.Path
  | [], inputRef, r, h => by
    simp only [inputRefParser.applyInputRefOptionsLoop, Except.ok.injEq] at h
    rw [h]
  | pair :: rest, inputRef, r, h => by
    simp only [inputRefParser.applyInputRefOptionsLoop] at h
    split at h
    · cases h
    · rename_i r' hr'
      rw [applyInputRefOptionsLoop_path x i options rest r' r h,
        applyInputRefOption_path x i inputRef r' options pair hr']

theorem applyInputRefOptions_path (x : Externals) (i : inputRefParser) (inputRef r : InputRef)
    (options : String) (h : i.applyInputRefOptions x inputRef options = .ok r) :
    r.Path = inputRef.Path := by
  unfold inputRefParser.applyInputRefOptions at h
  split_ifs at h
  · cases h; rfl
  · exact applyInputRefOptionsLoop_path x i options _ _ _ h

/-- C11: dash needs a stream format. For every value and flag setting on
which `ParseInputRef` succeeds with returned `Path` exactly `-`, the returned
`Format` is a file-stream format: it is neither the directory format nor the
git format. With the collaborators of the spec, `-#format=dir` and
`-#format=git,branch=x` fail with a user-input error. -/
theorem parseInputRef_dash_is_file :
    (∀ (x : Externals) (i : inputRefParser) (value : String) (onlySources onlyImages : Bool)
      (r : InputRef), i.ParseInputRef x value onlySources onlyImages = .ok r → r.Path = "-" →
        r.Format.isFile = true ∧ r.Format ≠ .FormatDir ∧ r.Format ≠ .FormatGit) ∧
    (∀ i : inputRefParser, ∃ msg,
      i.ParseInputRef specExternals "-#format=dir" false false = .error (.InvalidArgument msg)) ∧
    (∀ i : inputRefParser, ∃ msg,
      i.ParseInputRef specExternals "-#format=git,branch=x" false false =
        .error (.InvalidArgument msg)) := by
  refine ⟨?_, fun i => ⟨_, rfl⟩, fun i => ⟨_, rfl⟩⟩
  intro x i value os oi r h hdash
  obtain ⟨_, path, options, r1, r0, _, ha, hr0, hc⟩ := ParseInputRef_ok_parts x i value os oi r h
  have hpath1 : r1.Path = path := applyInputRefOptions_path x i _ r1 options ha
  have hpath0 : r0.Path = path := by
    rcases hr0 with ⟨_, f, _, rfl⟩ | ⟨_, rfl⟩
    · exact hpath1
    · exact hpath1
  obtain ⟨hrr, _, _, _, _, hfile⟩ := checkInputRef_ok i _ path options os oi r0 r hc
  have hp : path = "-" := by rw [← hpath0, ← hrr]; exact hdash
  have hf := hfile hp
  refine ⟨hf, ?_, ?_⟩
  · intro hd; rw [hd] at hf; cases hf
  · intro hg; rw [hg] at hf; cases hf

/-- C11 on `-#format=tar`: the path is `-` and the format tar is a file-stream
format. -/
theorem parseInputRef_dash_is_file_witness :
    inputRefParser.ParseInputRef specExternals ⟨"--input"⟩ "-#format=tar" false false =
      .ok { Path := "-", Format := .FormatTar, GitBranch := "", StripComponents := 0 } ∧
    Format.FormatTar.isFile = true ∧ Format.FormatTar ≠ Format.FormatDir ∧
      Format.FormatTar ≠ Format.FormatGit :=
  ⟨rfl, parseInputRef_dash_is_file.1 specExternals ⟨"--input"⟩ "-#format=tar" false false
    { Path := "-", Format := .FormatTar, GitBranch := "", StripComponents := 0 } rfl rfl⟩

/-! ## `filepath.Ext` and the extension table -/

/-- The backwards scan of `filepath.Ext`: it returns the suffix that starts
at the first dot met, when no separator comes before that dot, and nothing
when every dot has a separator after it. -/
theorem extRev_spec : ∀ (l acc : List Char),
    (∃ t pre, l = t ++ '.' :: pre ∧ '.' ∉ t ∧ '/' ∉ t ∧
        extRev l acc = '.' :: (t.reverse ++ acc)) ∨
      (extRev l acc = [] ∧ ∀ t pre, l = t ++ '.' :: pre → '/' ∈ t)
  | [], acc => by
    right
    refine ⟨rfl, ?_⟩
    intro t pre h
    cases t <;> cases h
  | c :: rest, acc => by
    by_cases hs : c = '/'
    · right
      subst hs
      refine ⟨by simp [extRev], ?_⟩
      intro t pre h
      cases t with
      | nil =>
        simp only [List.nil_append, List.cons.injEq] at h
        exact absurd h.1 (by decide)
      | cons a t' =>
        simp only [List.cons_append, List.cons.injEq] at h
        rw [← h.1]
        exact List.mem_cons_self _ _
    · by_cases hd : c = '.'
      · left
        subst hd
        exact ⟨[], rest, rfl, by simp, by simp, by simp [extRev]⟩
      · have hstep : extRev (c :: rest) acc = extRev rest (c :: acc) := by
          simp [extRev, hs, hd]
        rcases extRev_spec rest (c :: acc) with ⟨t, pre, hl, h1, h2, h3⟩ | ⟨h1, h2⟩
        · left
          refine ⟨c :: t, pre, by rw [hl]; rfl, ?_, ?_, ?_⟩
          · simp only [List.mem_cons, not_or]
            exact ⟨fun h => hd h.symm, h1⟩
          · simp only [List.mem_cons, not_or]
            exact ⟨fun h => hs h.symm, h2⟩
          · rw [hstep, h3]
            simp
        · right
          refine ⟨by rw [hstep, h1], ?_⟩
          intro t pre h
          cases t with
          | nil =>
            simp only [List.nil_append, List.cons.injEq] at h
            exact absurd h.1 hd
          | cons a t' =>
            simp only [List.cons_append, List.cons.injEq] at h
            exact List.mem_cons_of_mem _ (h2 t' pre h.2)

/-- The result of `filepath.Ext` is the suffix of the last path element that
starts at its last dot: the suffix of the path that starts at the last dot,
when no separator follows that dot, and the empty string when every dot of
the path is followed by a separator. -/
theorem Ext_spec (path : String) :
    (∃ pre t, path.data = pre ++ '.' :: t ∧ '.' ∉ t ∧ '/' ∉ t ∧ Ext path = ⟨'.' :: t⟩) ∨
      (Ext path = "" ∧ ∀ pre t, path.data = pre ++ '.' :: t → '/' ∈ t) := by
  rcases extRev_spec path.data.reverse [] with ⟨t, pre, hl, h1, h2, h3⟩ | ⟨h1, h2⟩
  · left
    refine ⟨pre.reverse, t.reverse, ?_, by simpa using h1, by simpa using h2, ?_⟩
    · have := congrArg List.reverse hl
      simpa using this
    · unfold Ext
      rw [h3]
      simp
  · right
    refine ⟨by unfold Ext; rw [h1], ?_⟩
    intro pre t h
    have := h2 t.reverse pre.reverse (by rw [h]; simp)
    simpa using this

theorem TrimSuffix_append (stem suffix : List Char) :
    TrimSuffix ⟨stem ++ suffix⟩ ⟨suffix⟩ = ⟨stem⟩ := by
  unfold TrimSuffix
  have h : suffix.isSuffixOf (stem ++ suffix) = true :=
    List.isSuffixOf_iff_suffix.mpr (List.suffix_append _ _)
  simp only [h, if_true, List.length_append, Nat.add_sub_cancel]
  rw [List.take_left']
  rfl

/-- When the extension of a path is `.gz`, the path ends in `.gz` and
`parseFormatFromPath` looks at the path without these three characters. -/
theorem Ext_gz (path : String) (h : Ext path = ".gz") :
    ∃ stem, path.data = stem ++ (".gz" : String).data ∧
      TrimSuffix path (Ext path) = ⟨stem⟩ := by
  rcases Ext_spec path with ⟨pre, t, hp, _, _, he⟩ | ⟨he, _⟩
  · rw [h] at he
    have ht : t = ['g', 'z'] := by
      have := congrArg String.data he
      simp only [List.cons.injEq, true_and] at this
      exact this.symm
    subst ht
    refine ⟨pre, hp, ?_⟩
    rw [h]
    have hpath : path = ⟨pre ++ (".gz" : String).data⟩ := String.ext hp
    rw [hpath]
    exact TrimSuffix_append pre (".gz" : String).data
  · rw [h] at he
    exact absurd he (by decide)

/-- C12: format inference follows the extension table. With `devNull` the
null-device path: `parseFormatFromPath` returns binary for `-` and for
`devNull`; otherwise, with `Ext path` the suffix of the last path element
that starts at its last dot, it returns binary for `.bin`, JSON for `.json`,
tar for `.tar`, gzip-tar for `.tgz`, git for `.git`; for `.gz` it looks at
the extension of the path without its last three characters `.gz` and
returns gzip-binary for `.bin`, gzip-JSON for `.json`, gzip-tar for `.tar`
and a user-input error otherwise; and it returns directory for every other
extension. With the collaborators of the spec, `ParseInputRef` yields binary
with empty branch and zero strip count for `-`, gzip-tar for `x.tar.gz`, and
fails for `x.gz`. -/
theorem parseFormatFromPath_table :
    (∀ (x : Externals) (i : inputRefParser) (devNull path : String),
      x.DevNull = .ok devNull →
      ((path = "-" ∨ path = devNull) → i.parseFormatFromPath x path = .ok .FormatBin) ∧
      (path ≠ "-" → path ≠ devNull →
        (Ext path = ".bin" → i.parseFormatFromPath x path = .ok .FormatBin) ∧
        (Ext path = ".json" → i.parseFormatFromPath x path = .ok .FormatJSON) ∧
        (Ext path = ".tar" → i.parseFormatFromPath x path = .ok .FormatTar) ∧
        (Ext path = ".tgz" → i.parseFormatFromPath x path = .ok .FormatTarGz) ∧
        (Ext path = ".git" → i.parseFormatFromPath x path = .ok .FormatGit) ∧
        (Ext path = ".gz" → ∃ stem, path.data = stem ++ (".gz" : String).data ∧
          (Ext ⟨stem⟩ = ".bin" → i.parseFormatFromPath x path = .ok .FormatBinGz) ∧
          (Ext ⟨stem⟩ = ".json" → i.parseFormatFromPath x path = .ok .FormatJSONGz) ∧
          (Ext ⟨stem⟩ = ".tar" → i.parseFormatFromPath x path = .ok .FormatTarGz) ∧
          (Ext ⟨stem⟩ ≠ ".bin" → Ext ⟨stem⟩ ≠ ".json" → Ext ⟨stem⟩ ≠ ".tar" →
            ∃ msg, i.parseFormatFromPath x path = .error (.InvalidArgument msg))) ∧
        (Ext path ≠ ".bin" → Ext path ≠ ".json" → Ext path ≠ ".tar" → Ext path ≠ ".gz" →
          Ext path ≠ ".tgz" → Ext path ≠ ".git" →
          i.parseFormatFromPath x path = .ok .FormatDir))) ∧
    (∀ path : String,
      (∃ pre t, path.data = pre ++ '.' :: t ∧ '.' ∉ t ∧ '/' ∉ t ∧ Ext path = ⟨'.' :: t⟩) ∨
        (Ext path = "" ∧ ∀ pre t, path.data = pre ++ '.' :: t → '/' ∈ t)) ∧
    (∀ i : inputRefParser, i.ParseInputRef specExternals "-" false false =
      .ok { Path := "-", Format := .FormatBin, GitBranch := "", StripComponents := 0 }) ∧
    (∀ i : inputRefParser, i.ParseInputRef specExternals "x.tar.gz" false false =
      .ok { Path := "x.tar.gz", Format := .FormatTarGz, GitBranch := "", StripComponents := 0 }) ∧
    (∀ i : inputRefParser, ∃ msg, i.ParseInputRef specExternals "x.gz" false false =
      .error (.InvalidArgument msg)) := by
  refine ⟨?_, Ext_spec, fun i => rfl, fun i => rfl, fun i => ⟨_, rfl⟩⟩
  intro x i devNull path hd
  constructor
  · intro h
    simp only [inputRefParser.parseFormatFromPath, hd, h, if_true]
  · intro h1 h2
    have hno : ¬ (path = "-" ∨ path = devNull) := by
      rintro (h | h)
      · exact h1 h
      · exact h2 h
    refine ⟨?_, ?_, ?_, ?_, ?_, ?_, ?_⟩
    · intro he
      simp only [inputRefParser.parseFormatFromPath, hd, hno, if_false, he, if_true]
    · intro he
      simp only [inputRefParser.parseFormatFromPath, hd, hno, if_false, he]
      rfl
    · intro he
      simp only [inputRefParser.parseFormatFromPath, hd, hno, if_false, he]
      rfl
    · intro he
      simp only [inputRefParser.parseFormatFromPath, hd, hno, if_false, he]
      rfl
    · intro he
      simp only [inputRefParser.parseFormatFromPath, hd, hno, if_false, he]
      rfl
    · intro he
      obtain ⟨stem, hstem, htrim⟩ := Ext_gz path he
      have hbin : ¬ ((".gz" : String) = ".bin") := by decide
      have hjson : ¬ ((".gz" : String) = ".json") := by decide
      have htar : ¬ ((".gz" : String) = ".tar") := by decide
      refine ⟨stem, hstem, ?_, ?_, ?_, ?_⟩
      · intro hi
        simp only [inputRefParser.parseFormatFromPath, hd, hno, if_false, htrim, hi, if_true]
        simp only [he, hbin, hjson, htar, if_false, if_true]
      · intro hi
        simp only [inputRefParser.parseFormatFromPath, hd, hno, if_false, htrim, hi]
        simp only [he, hbin, hjson, htar, if_false, if_true]
        rfl
      · intro hi
        simp only [inputRefParser.parseFormatFromPath, hd, hno, if_false, htrim, hi]
        simp only [he, hbin, hjson, htar, if_false, if_true]
        rfl
      · intro hi1 hi2 hi3
        simp only [inputRefParser.parseFormatFromPath, hd, hno, if_false, htrim, hi1, hi2, hi3]
        simp only [he, hbin, hjson, htar, if_false, if_true]
        exact ⟨_, rfl⟩
    · intro e1 e2 e3 e4 e5 e6
      simp only [inputRefParser.parseFormatFromPath, hd, hno, if_false, e1, e2, e3, e4, e5, e6]

/-- C12 on `a.b/c.json` with the null device `/dev/null`: the extension is
`.json` and the format is JSON. -/
theorem parseFormatFromPath_table_witness :
    specExternals.DevNull = .ok "/dev/null" ∧ Ext "a.b/c.json" = ".json" ∧
      inputRefParser.parseFormatFromPath specExternals ⟨"--input"⟩ "a.b/c.json" =
        .ok .FormatJSON :=
  ⟨rfl, rfl, ((parseFormatFromPath_table.1 specExternals ⟨"--input"⟩ "/dev/null" "a.b/c.json"
    rfl).2 (by decide) (by decide)).2.1 rfl⟩

/-! ## `strings.TrimSpace` -/

theorem TrimSpace_eq (s : String) : TrimSpace s = ⟨trimChars s.data⟩ := rfl

theorem allSpace_nil : allSpace [] := by
  intro c hc; cases hc

theorem allSpace_takeWhile (l : List Char) : allSpace (l.takeWhile isSpace) :=
  fun _ hc => List.mem_takeWhile_imp hc

theorem trimChars_eq_nil_iff (l : List Char) : trimChars l = [] ↔ allSpace l := by
  unfold trimChars allSpace
  rw [List.reverse_eq_nil_iff, List.dropWhile_eq_nil_iff]
  constructor
  · intro h
    have hall : ∀ c ∈ l.dropWhile isSpace, isSpace c = true := by
      intro c hc
      exact h c (List.mem_reverse.mpr hc)
    have hnil : l.dropWhile isSpace = [] := by
      cases hd : l.dropWhile isSpace with
      | nil => rfl
      | cons a t =>
        have hne : l.dropWhile isSpace ≠ [] := by rw [hd]; simp
        have h1 := List.head_dropWhile_not isSpace l hne
        have h2 := hall ((l.dropWhile isSpace).head hne) (List.head_mem hne)
        rw [h1] at h2
        cases h2
    exact List.dropWhile_eq_nil_iff.mp hnil
  · intro h c hc
    exact h c (List.dropWhile_subset _ (List.mem_reverse.mp hc))

theorem trimChars_append_left (u l : List Char) (hu : allSpace u) :
    trimChars (u ++ l) = trimChars l := by
  unfold trimChars
  rw [List.dropWhile_append_of_pos hu]

/-- Dropping white space in front of a list that holds a character that is
not white space leaves the characters after it. -/
theorem dropWhile_append_cons (a b : List Char) (c : Char) (hc : isSpace c = false) :
    (a ++ c :: b).dropWhile isSpace = a.dropWhile isSpace ++ c :: b := by
  induction a with
  | nil => simp [List.dropWhile, hc]
  | cons h t ih =>
    by_cases hh : isSpace h = true
    · simp only [List.cons_append, List.dropWhile_cons_of_pos hh, ih]
    · simp only [List.cons_append, List.dropWhile_cons_of_neg hh]

theorem dropWhile_append_not_allSpace (l u : List Char) (hl : ¬ allSpace l) :
    (l ++ u).dropWhile isSpace = l.dropWhile isSpace ++ u := by
  induction l with
  | nil => exact absurd allSpace_nil hl
  | cons h t ih =>
    by_cases hh : isSpace h = true
    · have ht : ¬ allSpace t := by
        intro hall
        apply hl
        intro c hc
        rcases List.mem_cons.mp hc with rfl | hc'
        · exact hh
        · exact hall c hc'
      simp only [List.cons_append, List.dropWhile_cons_of_pos hh, ih ht]
    · simp only [List.cons_append, List.dropWhile_cons_of_neg hh]

theorem trimChars_append_right (l u : List Char) (hu : allSpace u) :
    trimChars (l ++ u) = trimChars l := by
  by_cases hl : allSpace l
  · have h1 : allSpace (l ++ u) := by
      intro c hc
      rcases List.mem_append.mp hc with h | h
      · exact hl c h
      · exact hu c h
    rw [(trimChars_eq_nil_iff _).mpr h1, (trimChars_eq_nil_iff _).mpr hl]
  · unfold trimChars
    rw [dropWhile_append_not_allSpace l u hl, List.reverse_append]
    rw [List.dropWhile_append_of_pos]
    intro c hc
    exact hu c (List.mem_reverse.mp hc)

theorem trimChars_pad (raw tr : List Char) (h : Pad raw tr) : trimChars raw = trimChars tr := by
  obtain ⟨u1, u2, h1, h2, rfl⟩ := h
  rw [trimChars_append_right _ _ h2, trimChars_append_left _ _ h1]

theorem pad_refl (l : List Char) : Pad l l :=
  ⟨[], [], allSpace_nil, allSpace_nil, by simp⟩

/-- A list is its trimmed form with white space before and after it. -/
theorem pad_trimChars (l : List Char) : Pad l (trimChars l) := by
  have h1 := List.takeWhile_append_dropWhile isSpace l
  have h2 := List.takeWhile_append_dropWhile isSpace (l.dropWhile isSpace).reverse
  refine ⟨l.takeWhile isSpace, ((l.dropWhile isSpace).reverse.takeWhile isSpace).reverse,
    allSpace_takeWhile l, ?_, ?_⟩
  · intro c hc
    exact allSpace_takeWhile _ c (List.mem_reverse.mp hc)
  · have h3 : l.dropWhile isSpace =
        trimChars l ++ ((l.dropWhile isSpace).reverse.takeWhile isSpace).reverse := by
      have := congrArg List.reverse h2
      rw [List.reverse_append, List.reverse_reverse] at this
      exact this.symm
    rw [List.append_assoc, ← h3, h1]

/-- Trimming a list that holds a character `c` that is not white space trims
what comes before `c` on the left and what comes after `c` on the right. -/
theorem trimChars_append_cons (a b : List Char) (c : Char) (hc : isSpace c = false) :
    trimChars (a ++ c :: b) =
      a.dropWhile isSpace ++ c :: (b.reverse.dropWhile isSpace).reverse := by
  unfold trimChars
  rw [dropWhile_append_cons a b c hc]
  have : (a.dropWhile isSpace ++ c :: b).reverse =
      b.reverse ++ c :: (a.dropWhile isSpace).reverse := by simp
  rw [this, dropWhile_append_cons _ _ c hc]
  simp

theorem trimChars_dropWhile (l : List Char) : trimChars (l.dropWhile isSpace) = trimChars l := by
  conv_rhs => rw [← List.takeWhile_append_dropWhile isSpace l]
  rw [trimChars_append_left _ _ (allSpace_takeWhile l)]

theorem trimChars_rdropWhile (l : List Char) :
    trimChars (l.reverse.dropWhile isSpace).reverse = trimChars l := by
  have h2 := List.takeWhile_append_dropWhile isSpace l.reverse
  have h3 : l = (l.reverse.dropWhile isSpace).reverse ++
      (l.reverse.takeWhile isSpace).reverse := by
    have := congrArg List.reverse h2
    rw [List.reverse_append, List.reverse_reverse] at this
    exact this.symm
  conv_rhs => rw [h3]
  rw [trimChars_append_right]
  intro c hc
  exact allSpace_takeWhile _ c (List.mem_reverse.mp hc)

/-- A list without white space at its two ends is its own trimmed form. -/
theorem trimChars_eq_self (l : List Char) (h : ∀ c ∈ l, isSpace c = false) : trimChars l = l := by
  have hd : ∀ m : List Char, (∀ c ∈ m, isSpace c = false) → m.dropWhile isSpace = m := by
    intro m hm
    cases m with
    | nil => rfl
    | cons a t =>
      have : ¬ isSpace a = true := by rw [hm a (List.mem_cons_self _ _)]; simp
      exact List.dropWhile_cons_of_neg this
  unfold trimChars
  rw [hd l h, hd l.reverse (fun c hc => h c (List.mem_reverse.mp hc)), List.reverse_reverse]

/-! ## `strings.Split` -/

theorem splitOn_cons (sep c : Char) (l : List Char) :
    (c :: l).splitOn sep =
      if c = sep then [] :: l.splitOn sep else (l.splitOn sep).modifyHead (List.cons c) := by
  unfold List.splitOn
  rw [List.splitOnP_cons]
  by_cases h : c = sep
  · simp [h]
  · have : (c == sep) = false := by simpa using h
    simp [h, this]

theorem splitOn_ne_nil (sep : Char) (l : List Char) : l.splitOn sep ≠ [] :=
  List.splitOnP_ne_nil _ _

/-- The number of pieces is the number of separators plus one. -/
theorem splitOn_length (sep : Char) : ∀ l : List Char,
    (l.splitOn sep).length = l.count sep + 1
  | [] => by simp [List.splitOn_nil]
  | c :: l => by
    rw [splitOn_cons, List.count_cons]
    by_cases h : c = sep
    · have hb : (c == sep) = true := by simpa using h
      simp only [h, if_true, List.length_cons, splitOn_length sep l, beq_self_eq_true]
    · have hb : (c == sep) = false := by simpa using h
      simp only [h, if_false, hb, Bool.false_eq_true, Nat.add_zero]
      rw [← splitOn_length sep l]
      cases l.splitOn sep <;> simp [List.modifyHead]

theorem splitOn_single (sep : Char) (l : List Char) (h : sep ∉ l) : l.splitOn sep = [l] := by
  unfold List.splitOn
  apply List.splitOnP_eq_single
  intro c hc hcs
  have : c = sep := by simpa using hcs
  exact h (this ▸ hc)

theorem splitOn_two (sep : Char) (a b : List Char) (ha : sep ∉ a) (hb : sep ∉ b) :
    (a ++ sep :: b).splitOn sep = [a, b] := by
  have := List.splitOn_intercalate [a, b] sep
    (by
      intro l hl
      simp only [List.mem_cons, List.mem_singleton, List.not_mem_nil, or_false] at hl
      rcases hl with rfl | rfl
      · exact ha
      · exact hb)
    (by simp)
  simpa [List.intercalate, List.intersperse] using this

theorem count_dropWhile (sep : Char) (hsep : isSpace sep = false) : ∀ l : List Char,
    (l.dropWhile isSpace).count sep = l.count sep
  | [] => rfl
  | c :: l => by
    by_cases hc : isSpace c = true
    · have hne : (c == sep) = false := by
        have : c ≠ sep := by
          intro h; rw [h, hsep] at hc; cases hc
        simpa using this
      rw [List.dropWhile_cons_of_pos hc, count_dropWhile sep hsep l, List.count_cons]
      simp [hne]
    · rw [List.dropWhile_cons_of_neg hc]

theorem count_trimChars (sep : Char) (hsep : isSpace sep = false) (l : List Char) :
    (trimChars l).count sep = l.count sep := by
  unfold trimChars
  rw [List.count_reverse, count_dropWhile sep hsep, List.count_reverse,
    count_dropWhile sep hsep]

/-- White space in front of a list goes to the first piece. -/
theorem splitOn_pad_left (sep : Char) (hsep : isSpace sep = false) (l : List Char) :
    ∀ u : List Char, allSpace u →
      List.Forall₂ (fun raw tr => ∃ w, allSpace w ∧ raw = w ++ tr)
        ((u ++ l).splitOn sep) (l.splitOn sep)
  | [], _ => by
    simp only [List.nil_append]
    generalize l.splitOn sep = X
    induction X with
    | nil => exact List.Forall₂.nil
    | cons a t ih => exact List.Forall₂.cons ⟨[], allSpace_nil, rfl⟩ ih
  | c :: u, hu => by
    have hc : isSpace c = true := hu c (List.mem_cons_self _ _)
    have hu' : allSpace u := fun d hd => hu d (List.mem_cons_of_mem _ hd)
    have hne : c ≠ sep := by
      intro h; rw [h, hsep] at hc; cases hc
    have ih := splitOn_pad_left sep hsep l u hu'
    rw [List.cons_append, splitOn_cons]
    simp only [hne, if_false]
    generalize (u ++ l).splitOn sep = X at ih ⊢
    generalize l.splitOn sep = Y at ih ⊢
    cases ih with
    | nil => exact List.Forall₂.nil
    | cons hab hrest =>
      obtain ⟨w, hw, hraw⟩ := hab
      refine List.Forall₂.cons ⟨c :: w, ?_, ?_⟩ hrest
      · intro d hd
        rcases List.mem_cons.mp hd with rfl | hd'
        · exact hc
        · exact hw d hd'
      · rw [hraw]; rfl

/-- White space behind a list goes to the last piece. -/
theorem splitOn_pad_right (sep : Char) (hsep : isSpace sep = false) (u : List Char)
    (hu : allSpace u) : ∀ l : List Char,
      List.Forall₂ (fun raw tr => ∃ w, allSpace w ∧ raw = tr ++ w)
        ((l ++ u).splitOn sep) (l.splitOn sep)
  | [] => by
    have hnot : sep ∉ u := by
      intro h
      have := hu sep h
      rw [hsep] at this
      cases this
    simp only [List.nil_append, splitOn_single sep u hnot, List.splitOn_nil]
    exact List.Forall₂.cons ⟨u, hu, rfl⟩ List.Forall₂.nil
  | c :: l => by
    have ih := splitOn_pad_right sep hsep u hu l
    rw [List.cons_append, splitOn_cons, splitOn_cons]
    by_cases h : c = sep
    · simp only [h, if_true]
      exact List.Forall₂.cons ⟨[], allSpace_nil, rfl⟩ ih
    · simp only [h, if_false]
      generalize (l ++ u).splitOn sep = X at ih ⊢
      generalize l.splitOn sep = Y at ih ⊢
      cases ih with
      | nil => exact List.Forall₂.nil
      | cons hab hrest =>
        obtain ⟨w, hw, hraw⟩ := hab
        exact List.Forall₂.cons ⟨w, hw, by rw [hraw]; rfl⟩ hrest

/-- The pieces of a padded list are the pieces of the list, padded. -/
theorem splitOn_pad (sep : Char) (hsep : isSpace sep = false) (raw tr : List Char)
    (h : Pad raw tr) : List.Forall₂ Pad (raw.splitOn sep) (tr.splitOn sep) := by
  obtain ⟨u1, u2, h1, h2, rfl⟩ := h
  have hl := splitOn_pad_left sep hsep (tr ++ u2) u1 h1
  have hr := splitOn_pad_right sep hsep u2 h2 tr
  rw [List.append_assoc]
  generalize (u1 ++ (tr ++ u2)).splitOn sep = A at hl
  generalize (tr ++ u2).splitOn sep = B at hl hr
  generalize tr.splitOn sep = C at hr
  induction hl generalizing C with
  | nil =>
    cases hr
    exact List.Forall₂.nil
  | cons hab _ ih =>
    cases hr with
    | cons hbc hrest =>
      obtain ⟨w1, hw1, e1⟩ := hab
      obtain ⟨w2, hw2, e2⟩ := hbc
      refine List.Forall₂.cons ⟨w1, w2, hw1, hw2, ?_⟩ (ih _ hrest)
      rw [e1, e2, List.append_assoc]

theorem forall₂_exists_right {α β : Type} {R : α → β → Prop} : ∀ {l1 : List α} {l2 : List β},
    List.Forall₂ R l1 l2 → ∀ a ∈ l1, ∃ b ∈ l2, R a b
  | _, _, .nil, a, ha => by simp at ha
  | _, _, .cons hab hrest, a, ha => by
    rcases List.mem_cons.mp ha with h | h
    · subst h; exact ⟨_, List.mem_cons_self _ _, hab⟩
    · obtain ⟨b, hb, hr⟩ := forall₂_exists_right hrest a h
      exact ⟨b, List.mem_cons_of_mem _ hb, hr⟩

theorem forall₂_append_left {α β : Type} {R : α → β → Prop} : ∀ (l1 l2 : List α) (l : List β),
    List.Forall₂ R (l1 ++ l2) l →
      ∃ m1 m2, l = m1 ++ m2 ∧ List.Forall₂ R l1 m1 ∧ List.Forall₂ R l2 m2
  | [], l2, l, h => ⟨[], l, rfl, List.Forall₂.nil, h⟩
  | a :: l1, l2, l, h => by
    rw [List.cons_append] at h
    cases h with
    | cons hab hrest =>
      obtain ⟨m1, m2, rfl, h1, h2⟩ := forall₂_append_left l1 l2 _ hrest
      exact ⟨_ :: m1, m2, rfl, List.Forall₂.cons hab h1, h2⟩

/-! ## The hash grammar -/

theorem isSpace_hash : isSpace '#' = false := by decide

theorem isSpace_comma : isSpace ',' = false := by decide

theorem isSpace_equals : isSpace '=' = false := by decide

/-- What `splitValue` returns on a value with exactly one `#`: the path is
the trimmed text before the `#` and the options are the trimmed text
after it. -/
theorem splitValue_one_hash (i : inputRefParser) (value : String) (P O : List Char)
    (hv : value.data = P ++ '#' :: O) (hP : '#' ∉ P) (hO : '#' ∉ O) :
    i.splitValue (TrimSpace value) =
      if TrimSpace ⟨P⟩ = "" then
        .error (newValueStartsWithHashtagError i.valueFlagName (TrimSpace value))
      else if TrimSpace ⟨O⟩ = "" then
        .error (newValueEndsWithHashtagError i.valueFlagName (TrimSpace value))
      else .ok (TrimSpace ⟨P⟩, TrimSpace ⟨O⟩) := by
  have htrim : (TrimSpace value).data =
      P.dropWhile isSpace ++ '#' :: (O.reverse.dropWhile isSpace).reverse := by
    rw [TrimSpace_eq, hv]
    exact trimChars_append_cons P O '#' isSpace_hash
  have h1 : '#' ∉ P.dropWhile isSpace := fun h => hP (List.dropWhile_subset _ h)
  have h2 : '#' ∉ (O.reverse.dropWhile isSpace).reverse := by
    intro h
    exact hO (List.mem_reverse.mp (List.dropWhile_subset _ (List.mem_reverse.mp h)))
  have hsplit : Split (TrimSpace value) '#' =
      [⟨P.dropWhile isSpace⟩, ⟨(O.reverse.dropWhile isSpace).reverse⟩] := by
    unfold Split
    rw [htrim, splitOn_two '#' _ _ h1 h2]
    rfl
  have hp : TrimSpace ⟨P.dropWhile isSpace⟩ = TrimSpace ⟨P⟩ := by
    rw [TrimSpace_eq, TrimSpace_eq]
    exact congrArg String.mk (trimChars_dropWhile P)
  have ho : TrimSpace ⟨(O.reverse.dropWhile isSpace).reverse⟩ = TrimSpace ⟨O⟩ := by
    rw [TrimSpace_eq, TrimSpace_eq]
    exact congrArg String.mk (trimChars_rdropWhile O)
  unfold inputRefParser.splitValue
  rw [hsplit]
  simp only [hp, ho]

/-- A value with two or more `#` makes `splitValue` fail. -/
theorem splitValue_many_hashes (i : inputRefParser) (value : String)
    (h : 2 ≤ value.data.count '#') :
    i.splitValue (TrimSpace value) =
      .error (newValueMultipleHashtagsError i.valueFlagName (TrimSpace value)) := by
  have hlen : (Split (TrimSpace value) '#').length = value.data.count '#' + 1 := by
    unfold Split
    rw [List.length_map, splitOn_length, TrimSpace_eq, count_trimChars '#' isSpace_hash]
  unfold inputRefParser.splitValue
  generalize Split (TrimSpace value) '#' = L at hlen
  match L, hlen with
  | [], hlen => simp at hlen
  | [_], hlen => simp at hlen; omega
  | [_, _], hlen => simp at hlen; omega
  | _ :: _ :: _ :: _, _ => rfl

theorem TrimSpace_eq_empty_iff (s : String) : TrimSpace s = "" ↔ allSpace s.data := by
  rw [TrimSpace_eq, ← trimChars_eq_nil_iff]
  constructor
  · intro h
    exact congrArg String.data h
  · intro h
    rw [h]

/-- When `splitValue` fails, `ParseInputRef` fails with the same error. -/
theorem ParseInputRef_of_splitValue_error (x : Externals) (i : inputRefParser) (value : String)
    (onlySources onlyImages : Bool) (hno : ¬ (onlySources = true ∧ onlyImages = true))
    (hv : TrimSpace value ≠ "") (e : Error) (h : i.splitValue (TrimSpace value) = .error e) :
    i.ParseInputRef x value onlySources onlyImages = .error e := by
  simp only [inputRefParser.ParseInputRef, hno, if_false, hv, h]

/-- C13: hash grammar. For every value and flags that are not both set,
`ParseInputRef` fails with a user-input error if the value is empty or
blank, if it contains more than one `#`, or if it contains exactly one `#`
and the text before it, or the text after it, is empty after trimming white
space. -/
theorem parseInputRef_hash_grammar (x : Externals) (i : inputRefParser) (value : String)
    (onlySources onlyImages : Bool) (hno : ¬ (onlySources = true ∧ onlyImages = true)) :
    ((∀ c ∈ value.data, isSpace c = true) →
      ∃ msg, i.ParseInputRef x value onlySources onlyImages = .error (.InvalidArgument msg)) ∧
    (2 ≤ value.data.count '#' →
      ∃ msg, i.ParseInputRef x value onlySources onlyImages = .error (.InvalidArgument msg)) ∧
    (∀ P O : List Char, value.data = P ++ '#' :: O → '#' ∉ P → '#' ∉ O →
      (TrimSpace ⟨P⟩ = "" ∨ TrimSpace ⟨O⟩ = "") →
      ∃ msg, i.ParseInputRef x value onlySources onlyImages = .error (.InvalidArgument msg)) := by
  have hne : 1 ≤ value.data.count '#' → TrimSpace value ≠ "" := by
    intro hc he
    have hall := (TrimSpace_eq_empty_iff value).mp he
    have hmem : '#' ∈ value.data := List.count_pos_iff.mp hc
    have := hall '#' hmem
    rw [isSpace_hash] at this
    cases this
  refine ⟨?_, ?_, ?_⟩
  · intro hblank
    have hv : TrimSpace value = "" := (TrimSpace_eq_empty_iff value).mpr hblank
    exact ⟨"%s is required", by simp only [inputRefParser.ParseInputRef, hno, if_false, hv,
      if_true, newValueEmptyError]⟩
  · intro hcount
    have hv : TrimSpace value ≠ "" := hne (by omega)
    exact ⟨_, ParseInputRef_of_splitValue_error x i value _ _ hno hv _
      (splitValue_many_hashes i value hcount)⟩
  · intro P O hval hP hO hempty
    have hv : TrimSpace value ≠ "" := by
      apply hne
      rw [hval]
      simp
      omega
    have hs := splitValue_one_hash i value P O hval hP hO
    rcases hempty with hp | ho
    · rw [if_pos hp] at hs
      exact ⟨_, ParseInputRef_of_splitValue_error x i value _ _ hno hv _ hs⟩
    · by_cases hp : TrimSpace ⟨P⟩ = ""
      · rw [if_pos hp] at hs
        exact ⟨_, ParseInputRef_of_splitValue_error x i value _ _ hno hv _ hs⟩
      · rw [if_neg hp, if_pos ho] at hs
        exact ⟨_, ParseInputRef_of_splitValue_error x i value _ _ hno hv _ hs⟩

/-- C13 on the value ` #format=bin`, whose text before the `#` is blank. -/
theorem parseInputRef_hash_grammar_witness :
    (" #format=bin" : String).data = [' '] ++ '#' :: ("format=bin" : String).data ∧
      TrimSpace ⟨[' ']⟩ = "" ∧
      ∃ msg, inputRefParser.ParseInputRef specExternals ⟨"--input"⟩ " #format=bin" false true =
        .error (.InvalidArgument msg) :=
  ⟨rfl, rfl, (parseInputRef_hash_grammar specExternals ⟨"--input"⟩ " #format=bin" false true
    (by simp)).2.2 [' '] ("format=bin" : String).data rfl (by decide) (by decide) (Or.inl rfl)⟩

/-! ## The options of a value -/

/-- What a successful round of the loop of `applyInputRefOptions` did. -/
theorem applyInputRefOption_ok (x : Externals) (i : inputRefParser) (ref ref' : InputRef)
    (options pair : String) (h : i.applyInputRefOption x ref options pair = .ok ref') :
    ∃ k v, pair.data.splitOn '=' = [k, v] ∧ TrimSpace ⟨k⟩ ≠ "" ∧ TrimSpace ⟨v⟩ ≠ "" ∧
      ((TrimSpace ⟨k⟩ = "format" ∧ ∃ devNull format, x.DevNull = .ok devNull ∧
          ref.Path ≠ devNull ∧
          x.parseFormatOverride i.valueFlagName (TrimSpace ⟨v⟩) = .ok format ∧
          ref' = { ref with Format := format }) ∨
        (TrimSpace ⟨k⟩ = "branch" ∧ ref' = { ref with GitBranch := TrimSpace ⟨v⟩ }) ∨
        (TrimSpace ⟨k⟩ = "strip_components" ∧ ∃ n, ParseUint32 (TrimSpace ⟨v⟩) = some n ∧
          ref' = { ref with StripComponents := n })) := by
  unfold inputRefParser.applyInputRefOption at h
  have hS : Split pair '=' = (pair.data.splitOn '=').map String.mk := rfl
  rw [hS] at h
  generalize pair.data.splitOn '=' = L at h
  match L, h with
  | [], h => cases h
  | [_], h => cases h
  | _ :: _ :: _ :: _, h => cases h
  | [k, v], h =>
    refine ⟨k, v, rfl, ?_⟩
    simp only [List.map] at h
    by_cases hkv : TrimSpace ⟨k⟩ = "" ∨ TrimSpace ⟨v⟩ = ""
    · simp only [hkv, if_true] at h
      cases h
    · simp only [hkv, if_false] at h
      push_neg at hkv
      refine ⟨hkv.1, hkv.2, ?_⟩
      by_cases hf : TrimSpace ⟨k⟩ = "format"
      · left
        simp only [hf, if_true] at h
        cases hd : x.DevNull with
        | error e => rw [hd] at h; cases h
        | ok devNull =>
          rw [hd] at h
          simp only at h
          by_cases hp : ref.Path = devNull
          · simp only [hp, if_true] at h
            cases h
          · simp only [hp, if_false] at h
            cases ho : x.parseFormatOverride i.valueFlagName (TrimSpace ⟨v⟩) with
            | error e => rw [ho] at h; cases h
            | ok format =>
              rw [ho] at h
              simp only [Except.ok.injEq] at h
              exact ⟨hf, devNull, format, rfl, hp, rfl, h.symm⟩
      · simp only [hf, if_false] at h
        by_cases hb : TrimSpace ⟨k⟩ = "branch"
        · right; left
          simp only [hb, if_true, Except.ok.injEq] at h
          exact ⟨hb, h.symm⟩
        · simp only [hb, if_false] at h
          by_cases hs : TrimSpace ⟨k⟩ = "strip_components"
          · right; right
            simp only [hs, if_true] at h
            cases hn : ParseUint32 (TrimSpace ⟨v⟩) with
            | none => rw [hn] at h; cases h
            | some n =>
              rw [hn] at h
              simp only [Except.ok.injEq] at h
              exact ⟨hs, n, rfl, h.symm⟩
          · simp only [hs, if_false] at h
            cases h

theorem applyInputRefOptionsLoop_append (x : Externals) (i : inputRefParser) (options : String) :
    ∀ (A B : List String) (ref : InputRef),
      i.applyInputRefOptionsLoop x options ref (A ++ B) =
        match i.applyInputRefOptionsLoop x options ref A with
        | .error err => .error err
        | .ok ref' => i.applyInputRefOptionsLoop x options ref' B
  | [], B, ref => by simp [inputRefParser.applyInputRefOptionsLoop]
  | a :: A, B, ref => by
    simp only [List.cons_append, inputRefParser.applyInputRefOptionsLoop]
    cases i.applyInputRefOption x ref options a with
    | error e => rfl
    | ok ref' => exact applyInputRefOptionsLoop_append x i options A B ref'

/-- In a successful loop every pair was applied successfully, to a reference
with the path of the start. -/
theorem applyInputRefOptionsLoop_each (x : Externals) (i : inputRefParser) (options : String) :
    ∀ (pairs : List String) (ref r : InputRef),
      i.applyInputRefOptionsLoop x options ref pairs = .ok r →
      ∀ pair ∈ pairs, ∃ ref1 ref2, ref1.Path = ref.Path ∧
        i.applyInputRefOption x ref1 options pair = .ok ref2
  | [], _, _, _, pair, hp => by simp at hp
  | a :: rest, ref, r, h, pair, hp => by
    simp only [inputRefParser.applyInputRefOptionsLoop] at h
    cases ha : i.applyInputRefOption x ref options a with
    | error e => rw [ha] at h; cases h
    | ok ref' =>
      rw [ha] at h
      simp only at h
      rcases List.mem_cons.mp hp with rfl | hmem
      · exact ⟨ref, ref', rfl, ha⟩
      · obtain ⟨ref1, ref2, h1, h2⟩ :=
          applyInputRefOptionsLoop_each x i options rest ref' r h pair hmem
        exact ⟨ref1, ref2, h1.trans (applyInputRefOption_path x i ref ref' options a ha), h2⟩

/-- Pairs whose key is not `branch` leave the branch as it is. -/
theorem applyInputRefOptionsLoop_branch (x : Externals) (i : inputRefParser)
    (options : String) :
    ∀ (pairs : List String) (ref r : InputRef),
      i.applyInputRefOptionsLoop x options ref pairs = .ok r →
      (∀ pair ∈ pairs, ∀ k rest, pair.data.splitOn '=' = k :: rest →
        TrimSpace ⟨k⟩ ≠ "branch") →
      r.GitBranch = ref.GitBranch
  | [], ref, r, h, _ => by
    simp only [inputRefParser.applyInputRefOptionsLoop, Except.ok.injEq] at h
    rw [h]
  | a :: rest, ref, r, h, hno => by
    simp only [inputRefParser.applyInputRefOptionsLoop] at h
    cases ha : i.applyInputRefOption x ref options a with
    | error e => rw [ha] at h; cases h
    | ok ref' =>
      rw [ha] at h
      simp only at h
      have ih := applyInputRefOptionsLoop_branch x i options rest ref' r h
        (fun pair hp => hno pair (List.mem_cons_of_mem _ hp))
      rw [ih]
      obtain ⟨k, v, hkv, _, _, hcase⟩ := applyInputRefOption_ok x i ref ref' options a ha
      have hnb := hno a (List.mem_cons_self _ _) k [v] hkv
      rcases hcase with ⟨_, _, _, _, _, _, rfl⟩ | ⟨hb, _⟩ | ⟨_, _, _, rfl⟩
      · rfl
      · exact absurd hb hnb
      · rfl

/-- The pieces of a padded pair are the pieces of the pair, with the same
trimmed forms. -/
theorem pad_pair (raw tr : List Char) (h : Pad raw tr) :
    List.Forall₂ (fun a b => TrimSpace ⟨a⟩ = TrimSpace ⟨b⟩)
      (raw.splitOn '=') (tr.splitOn '=') := by
  refine (splitOn_pad '=' isSpace_equals raw tr h).imp ?_
  intro a b hab
  rw [TrimSpace_eq, TrimSpace_eq]
  exact congrArg String.mk (trimChars_pad a b hab)

/-- A successful `ParseInputRef` of a value with a `#`: the value has no
other `#`, the loop of `applyInputRefOptions` ran successfully over the
pairs of the text after the `#`, each without the white space around it, and
the result has the branch and the strip count that the loop left. -/
theorem ParseInputRef_ok_options (x : Externals) (i : inputRefParser) (value : String)
    (onlySources onlyImages : Bool) (r : InputRef)
    (h : i.ParseInputRef x value onlySources onlyImages = .ok r)
    (P O : List Char) (hv : value.data = P ++ '#' :: O) :
    '#' ∉ P ∧ '#' ∉ O ∧
    ∃ trs : List (List Char), List.Forall₂ Pad (O.splitOn ',') trs ∧
      ∃ r1, i.applyInputRefOptionsLoop x (TrimSpace ⟨O⟩)
          { Path := TrimSpace ⟨P⟩, Format := .unset, GitBranch := "", StripComponents := 0 }
          (trs.map String.mk) = .ok r1 ∧
        r.GitBranch = r1.GitBranch ∧ r.StripComponents = r1.StripComponents ∧
        r.Path = TrimSpace ⟨P⟩ := by
  obtain ⟨_, path, options, r1, r0, hs, ha, hr0, hc⟩ :=
    ParseInputRef_ok_parts x i value onlySources onlyImages r h
  have hcount : value.data.count '#' ≤ 1 := by
    by_contra hgt
    rw [splitValue_many_hashes i value (by omega)] at hs
    cases hs
  have hP : '#' ∉ P := by
    intro hmem
    have := List.count_pos_iff.mpr hmem
    rw [hv] at hcount
    simp at hcount
    omega
  have hO : '#' ∉ O := by
    intro hmem
    have := List.count_pos_iff.mpr hmem
    rw [hv] at hcount
    simp at hcount
    omega
  refine ⟨hP, hO, ?_⟩
  rw [splitValue_one_hash i value P O hv hP hO] at hs
  split_ifs at hs with h1 h2
  simp only [Except.ok.injEq, Prod.mk.injEq] at hs
  obtain ⟨hpath, hopt⟩ := hs
  subst hpath
  subst hopt
  refine ⟨(trimChars O).splitOn ',', splitOn_pad ',' isSpace_comma O _ (pad_trimChars O), r1, ?_,
    ?_⟩
  · unfold inputRefParser.applyInputRefOptions at ha
    rw [if_neg h2] at ha
    exact ha
  · have hrr := (checkInputRef_ok i _ _ _ _ _ r0 r hc).1
    have hpath1 := applyInputRefOptions_path x i _ r1 _ ha
    rcases hr0 with ⟨_, f, _, rfl⟩ | ⟨_, rfl⟩
    · rw [hrr]
      exact ⟨rfl, rfl, hpath1⟩
    · rw [hrr]
      exact ⟨rfl, rfl, hpath1⟩

/-- C14: unknown or malformed options reject the whole value. For every value
with a `#` of which the text after the `#` has a comma-separated pair that
does not split on `=` into exactly two parts, both non-empty after trimming,
the first of which trims to `format`, `branch` or `strip_components`,
`ParseInputRef` returns an error, and so no `InputRef`, for every flag
setting. -/
theorem parseInputRef_bad_option (x : Externals) (i : inputRefParser) (value : String)
    (onlySources onlyImages : Bool) (P O : List Char) (hv : value.data = P ++ '#' :: O)
    (pair : List Char) (hpair : pair ∈ O.splitOn ',')
    (hbad : ¬ ∃ k v, pair.splitOn '=' = [k, v] ∧ TrimSpace ⟨k⟩ ≠ "" ∧ TrimSpace ⟨v⟩ ≠ "" ∧
      (TrimSpace ⟨k⟩ = "format" ∨ TrimSpace ⟨k⟩ = "branch" ∨
        TrimSpace ⟨k⟩ = "strip_components")) :
    ∃ e, i.ParseInputRef x value onlySources onlyImages = .error e := by
  cases hres : i.ParseInputRef x value onlySources onlyImages with
  | error e => exact ⟨e, rfl⟩
  | ok r =>
    exfalso
    obtain ⟨_, _, trs, hpad, r1, hloop, _⟩ :=
      ParseInputRef_ok_options x i value onlySources onlyImages r hres P O hv
    obtain ⟨tr, htr, hpt⟩ := forall₂_exists_right hpad pair hpair
    obtain ⟨ref1, ref2, _, hstep⟩ := applyInputRefOptionsLoop_each x i _ _ _ _ hloop ⟨tr⟩
      (List.mem_map_of_mem String.mk htr)
    obtain ⟨k', v', hkv, hk, hv', hkey⟩ := applyInputRefOption_ok x i ref1 ref2 _ _ hstep
    have hpp := pad_pair pair tr hpt
    simp only at hkv
    rw [hkv] at hpp
    generalize pair.splitOn '=' = L at hpp hbad
    match L, hpp with
    | [k, v], .cons h1 (.cons h2 .nil) =>
      apply hbad
      refine ⟨k, v, rfl, by rw [h1]; exact hk, by rw [h2]; exact hv', ?_⟩
      rw [h1]
      rcases hkey with ⟨hf, _⟩ | ⟨hb, _⟩ | ⟨hs, _⟩
      · exact Or.inl hf
      · exact Or.inr (Or.inl hb)
      · exact Or.inr (Or.inr hs)

/-- C14 on `x.tar#strip_components=1, depth=2`, whose second pair has an
unknown key. -/
theorem parseInputRef_bad_option_witness :
    ("x.tar#strip_components=1, depth=2" : String).data =
        ("x.tar" : String).data ++ '#' :: ("strip_components=1, depth=2" : String).data ∧
      (" depth=2" : String).data ∈ ("strip_components=1, depth=2" : String).data.splitOn ',' ∧
      ∃ e, inputRefParser.ParseInputRef specExternals ⟨"--input"⟩
        "x.tar#strip_components=1, depth=2" true false = .error e := by
  have hmem : (" depth=2" : String).data ∈
      ("strip_components=1, depth=2" : String).data.splitOn ',' := by decide
  refine ⟨rfl, hmem, ?_⟩
  refine parseInputRef_bad_option specExternals ⟨"--input"⟩ "x.tar#strip_components=1, depth=2"
    true false ("x.tar" : String).data ("strip_components=1, depth=2" : String).data rfl
    (" depth=2" : String).data hmem ?_
  rintro ⟨k, v, hkv, _, _, hkey⟩
  have hsplit : (" depth=2" : String).data.splitOn '=' =
      [(" depth" : String).data, ("2" : String).data] := by decide
  rw [hsplit] at hkv
  simp only [List.cons.injEq, and_true] at hkv
  obtain ⟨hk, _⟩ := hkv
  subst hk
  rcases hkey with h | h | h <;> exact absurd h (by decide)

/-- C15: no format override on the null device. For every value with a `#`
whose text before the `#` trims to the null-device path and whose text after
the `#` has a comma-separated pair of which the text before the first `=`
trims to `format`, `ParseInputRef` returns an error for every flag setting.
The path `-` is not subject to this rule: with the collaborators of the
spec, `-#format=json` yields the JSON format, without restriction and as an
image. -/
theorem parseInputRef_devnull_format :
    (∀ (x : Externals) (i : inputRefParser) (value : String) (onlySources onlyImages : Bool)
      (P O : List Char), value.data = P ++ '#' :: O → x.DevNull = .ok (TrimSpace ⟨P⟩) →
      ∀ pair ∈ O.splitOn ',', ∀ k rest, pair.splitOn '=' = k :: rest →
        TrimSpace ⟨k⟩ = "format" →
        ∃ e, i.ParseInputRef x value onlySources onlyImages = .error e) ∧
    (∀ i : inputRefParser, i.ParseInputRef specExternals "-#format=json" false false =
      .ok { Path := "-", Format := .FormatJSON, GitBranch := "", StripComponents := 0 }) ∧
    (∀ i : inputRefParser, i.ParseInputRef specExternals "-#format=json" false true =
      .ok { Path := "-", Format := .FormatJSON, GitBranch := "", StripComponents := 0 }) := by
  refine ⟨?_, fun i => rfl, fun i => rfl⟩
  intro x i value os oi P O hv hd pair hpair k rest hk hkey
  cases hres : i.ParseInputRef x value os oi with
  | error e => exact ⟨e, rfl⟩
  | ok r =>
    exfalso
    obtain ⟨_, _, trs, hpad, r1, hloop, _⟩ :=
      ParseInputRef_ok_options x i value os oi r hres P O hv
    obtain ⟨tr, htr, hpt⟩ := forall₂_exists_right hpad pair hpair
    obtain ⟨ref1, ref2, hpath, hstep⟩ := applyInputRefOptionsLoop_each x i _ _ _ _ hloop ⟨tr⟩
      (List.mem_map_of_mem String.mk htr)
    obtain ⟨k', v', hkv, _, _, hcase⟩ := applyInputRefOption_ok x i ref1 ref2 _ _ hstep
    have hpp := pad_pair pair tr hpt
    simp only at hkv
    rw [hkv, hk] at hpp
    cases hpp with
    | cons h1 _ =>
      have hk' : TrimSpace ⟨k'⟩ = "format" := h1 ▸ hkey
      rcases hcase with ⟨_, devNull, _, hd', hne, _, _⟩ | ⟨hb, _⟩ | ⟨hs, _⟩
      · rw [hd] at hd'
        simp only [Except.ok.injEq] at hd'
        apply hne
        rw [hpath, hd']
      · rw [hk'] at hb
        exact absurd hb (by decide)
      · rw [hk'] at hs
        exact absurd hs (by decide)

/-- C15 on `/dev/null#format=json`, with the null device of the spec's
collaborators. -/
theorem parseInputRef_devnull_format_witness :
    specExternals.DevNull = .ok (TrimSpace ⟨("/dev/null" : String).data⟩) ∧
      ("format=json" : String).data ∈ ("format=json" : String).data.splitOn ',' ∧
      ∃ e, inputRefParser.ParseInputRef specExternals ⟨"--input"⟩ "/dev/null#format=json"
        false false = .error e := by
  have hmem : ("format=json" : String).data ∈ ("format=json" : String).data.splitOn ',' := by
    decide
  exact ⟨rfl, hmem, parseInputRef_devnull_format.1 specExternals ⟨"--input"⟩
    "/dev/null#format=json" false false ("/dev/null" : String).data
    ("format=json" : String).data rfl rfl ("format=json" : String).data hmem
    ("format" : String).data [("json" : String).data] (by decide) rfl⟩

/-- C17, as stated, fails on `repo.git#branch= main`: the text written between
the `=` and the end of the value is ` main`, with a leading blank, and the
returned branch is `main`. It also fails on `repo.git#branch=a,branch=b`,
whose options contain the pair `branch=a` while the returned branch is
`b`. -/
theorem parseInputRef_branch_verbatim_counterexample :
    ("branch= main" : String).data.splitOn ',' = [("branch= main" : String).data] ∧
    ("branch= main" : String).data.splitOn '=' =
      [("branch" : String).data, (" main" : String).data] ∧
    inputRefParser.ParseInputRef specExternals ⟨"--input"⟩ "repo.git#branch= main" false false =
      .ok { Path := "repo.git", Format := .FormatGit, GitBranch := "main",
            StripComponents := 0 } ∧
    ("main" : String) ≠ " main" ∧
    ("branch=a,branch=b" : String).data.splitOn ',' =
      [("branch=a" : String).data, ("branch=b" : String).data] ∧
    inputRefParser.ParseInputRef specExternals ⟨"--input"⟩ "repo.git#branch=a,branch=b"
        false false =
      .ok { Path := "repo.git", Format := .FormatGit, GitBranch := "b", StripComponents := 0 } ∧
    ("b" : String) ≠ "a" :=
  ⟨by decide, by decide, rfl, by decide, by decide, rfl, by decide⟩

/-- C17, amended: the branch option is stored trimmed, and the last one
counts. For every value with a `#` on which `ParseInputRef` succeeds and of
which the text after the `#` has a comma-separated pair `k=v` whose `k`
trims to `branch`, no later pair having such a key, the returned
`GitBranch` is `v` without the white space around it. -/
theorem parseInputRef_branch_trimmed (x : Externals) (i : inputRefParser) (value : String)
    (onlySources onlyImages : Bool) (r : InputRef)
    (h : i.ParseInputRef x value onlySources onlyImages = .ok r)
    (P O : List Char) (hv : value.data = P ++ '#' :: O)
    (pre post : List (List Char)) (k v : List Char)
    (hsplit : O.splitOn ',' = pre ++ (k ++ '=' :: v) :: post)
    (hk : '=' ∉ k) (hv' : '=' ∉ v) (hkey : TrimSpace ⟨k⟩ = "branch")
    (hlast : ∀ q ∈ post, ∀ k' rest, q.splitOn '=' = k' :: rest → TrimSpace ⟨k'⟩ ≠ "branch") :
    r.GitBranch = TrimSpace ⟨v⟩ := by
  obtain ⟨_, _, trs, hpad, r1, hloop, hb, _, _⟩ :=
    ParseInputRef_ok_options x i value onlySources onlyImages r h P O hv
  rw [hsplit] at hpad
  obtain ⟨pre', rest', rfl, _, hrest⟩ := forall₂_append_left _ _ _ hpad
  cases hrest with
  | cons hpt hpost =>
    rename_i tr post'
    rw [List.map_append, List.map_cons, applyInputRefOptionsLoop_append] at hloop
    cases hA : i.applyInputRefOptionsLoop x (TrimSpace ⟨O⟩)
        { Path := TrimSpace ⟨P⟩, Format := .unset, GitBranch := "", StripComponents := 0 }
        (pre'.map String.mk) with
    | error e => rw [hA] at hloop; cases hloop
    | ok refA =>
      rw [hA] at hloop
      simp only [inputRefParser.applyInputRefOptionsLoop] at hloop
      cases hstep : i.applyInputRefOption x refA (TrimSpace ⟨O⟩) ⟨tr⟩ with
      | error e => rw [hstep] at hloop; cases hloop
      | ok refB =>
        rw [hstep] at hloop
        simp only at hloop
        have hkeep : r1.GitBranch = refB.GitBranch := by
          apply applyInputRefOptionsLoop_branch x i _ _ _ _ hloop
          intro pair hp k' rest hk'
          obtain ⟨q, hq, rfl⟩ := List.mem_map.mp hp
          have hqpad : ∃ raw ∈ post, Pad raw q := by
            have := forall₂_exists_right hpost.flip q hq
            obtain ⟨raw, hraw, hflip⟩ := this
            exact ⟨raw, hraw, hflip⟩
          obtain ⟨raw, hraw, hpq⟩ := hqpad
          have hpp := pad_pair raw q hpq
          simp only at hk'
          rw [hk'] at hpp
          generalize hL : raw.splitOn '=' = L at hpp
          cases hpp with
          | cons h1 _ =>
            rw [← h1]
            exact hlast raw hraw _ _ hL
        obtain ⟨k', v', hkv, _, _, hcase⟩ := applyInputRefOption_ok x i refA refB _ _ hstep
        have hpp := pad_pair (k ++ '=' :: v) tr hpt
        simp only at hkv
        rw [hkv, splitOn_two '=' k v hk hv'] at hpp
        cases hpp with
        | cons h1 h2 =>
          cases h2 with
          | cons h2 _ =>
            have hk' : TrimSpace ⟨k'⟩ = "branch" := h1 ▸ hkey
            rw [hb, hkeep]
            rcases hcase with ⟨hf, _⟩ | ⟨_, rfl⟩ | ⟨hs, _⟩
            · rw [hk'] at hf
              exact absurd hf (by decide)
            · exact h2.symm
            · rw [hk'] at hs
              exact absurd hs (by decide)

/-- The amended C17 on `repo.git#branch=a, branch = main `: the last pair
with the key `branch` has the value ` main `, and the returned branch is
`main`. -/
theorem parseInputRef_branch_trimmed_witness :
    inputRefParser.ParseInputRef specExternals ⟨"--input"⟩ "repo.git#branch=a, branch = main "
        false false =
      .ok { Path := "repo.git", Format := .FormatGit, GitBranch := "main",
            StripComponents := 0 } ∧
    ("main" : String) = TrimSpace ⟨(" main " : String).data⟩ :=
  ⟨rfl, parseInputRef_branch_trimmed specExternals ⟨"--input"⟩
    "repo.git#branch=a, branch = main " false false
    { Path := "repo.git", Format := .FormatGit, GitBranch := "main", StripComponents := 0 } rfl
    ("repo.git" : String).data ("branch=a, branch = main " : String).data rfl
    [("branch=a" : String).data] [] (" branch " : String).data (" main " : String).data
    (by decide) (by decide) (by decide) rfl (by simp)⟩

/-! ## `strconv.ParseUint` on decimal numerals -/

theorem parseDigits_append : ∀ (a b : List Char) (acc : Nat),
    parseDigits (a ++ b) acc =
      match parseDigits a acc with
      | some m => parseDigits b m
      | none => none
  | [], b, acc => by simp [parseDigits]
  | c :: a, b, acc => by
    simp only [List.cons_append, parseDigits]
    split_ifs
    · exact parseDigits_append a b _
    · rfl

theorem parseDigits_digits : ∀ (l : List Char) (acc n : Nat), parseDigits l acc = some n →
    ∀ c ∈ l, 48 ≤ c.toNat ∧ c.toNat ≤ 57
  | [], _, _, _, c, hc => by cases hc
  | d :: l, acc, n, h, c, hc => by
    simp only [parseDigits] at h
    split_ifs at h with hd
    rcases List.mem_cons.mp hc with rfl | hc'
    · exact hd
    · exact parseDigits_digits l _ n h c hc'

theorem digitChar_toNat (k : Nat) (hk : k < 10) : (Nat.digitChar k).toNat = 48 + k := by
  interval_cases k <;> rfl

/-- The digits that `Nat.repr` writes in front of `ds` are decimal digits, at
least one, and `parseDigits` reads the number back from them. -/
theorem toDigitsCore_spec : ∀ (fuel n : Nat) (ds : List Char), n < fuel →
    ∃ pre, Nat.toDigitsCore 10 fuel n ds = pre ++ ds ∧ pre ≠ [] ∧
      (∀ c ∈ pre, 48 ≤ c.toNat ∧ c.toNat ≤ 57) ∧
      ∀ acc, parseDigits pre acc = some (acc * 10 ^ pre.length + n)
  | 0, n, ds, h => by omega
  | fuel + 1, n, ds, h => by
    have hd : (Nat.digitChar (n % 10)).toNat = 48 + n % 10 :=
      digitChar_toNat (n % 10) (Nat.mod_lt _ (by decide))
    by_cases h0 : n / 10 = 0
    · refine ⟨[Nat.digitChar (n % 10)], ?_, by simp, ?_, ?_⟩
      · simp [Nat.toDigitsCore, h0]
      · intro c hc
        simp only [List.mem_singleton] at hc
        subst hc
        omega
      · intro acc
        have hlt : n < 10 := by omega
        simp only [parseDigits, hd, List.length_singleton, pow_one]
        rw [if_pos (by omega)]
        congr 1
        omega
    · obtain ⟨pre', hpre, _, hdig, hval⟩ :=
        toDigitsCore_spec fuel (n / 10) (Nat.digitChar (n % 10) :: ds) (by omega)
      refine ⟨pre' ++ [Nat.digitChar (n % 10)], ?_, by simp, ?_, ?_⟩
      · simp [Nat.toDigitsCore, h0, hpre]
      · intro c hc
        rcases List.mem_append.mp hc with hc' | hc'
        · exact hdig c hc'
        · simp only [List.mem_singleton] at hc'
          subst hc'
          omega
      · intro acc
        rw [parseDigits_append, hval acc]
        simp only [parseDigits, hd, List.length_append, List.length_singleton]
        rw [if_pos (by omega)]
        congr 1
        have := Nat.div_add_mod n 10
        rw [pow_succ]
        have e : 48 + n % 10 - 48 = n % 10 := by omega
        rw [e]
        nlinarith [this]

theorem repr_data (n : Nat) : (Nat.repr n).data = Nat.toDigits 10 n := rfl

/-- The decimal numeral of `n`: it is not empty, its characters are decimal
digits, and `parseDigits` reads `n` back from it. -/
theorem repr_spec (n : Nat) :
    (Nat.repr n).data ≠ [] ∧ (∀ c ∈ (Nat.repr n).data, 48 ≤ c.toNat ∧ c.toNat ≤ 57) ∧
      parseDigits (Nat.repr n).data 0 = some n := by
  obtain ⟨pre, hpre, hne, hdig, hval⟩ := toDigitsCore_spec (n + 1) n [] (by omega)
  have hdata : (Nat.repr n).data = pre := by
    rw [repr_data]
    unfold Nat.toDigits
    rw [hpre, List.append_nil]
  rw [hdata]
  refine ⟨hne, hdig, ?_⟩
  rw [hval 0]
  simp

theorem ParseUint32_repr (n : Nat) :
    ParseUint32 (Nat.repr n) = if n < 2 ^ 32 then some n else none := by
  obtain ⟨hne, _, hval⟩ := repr_spec n
  unfold ParseUint32
  have hs : Nat.repr n ≠ "" := by
    intro h
    apply hne
    rw [h]
  simp only [hs, if_false, hval]

theorem isSpace_of_digit (c : Char) (h : 48 ≤ c.toNat ∧ c.toNat ≤ 57) : isSpace c = false := by
  have h1 : ¬ (9 ≤ c.toNat ∧ c.toNat ≤ 13) := by omega
  have h2 : c.toNat ≠ 32 := by omega
  simp only [isSpace]
  simp
  refine ⟨⟨⟨⟨⟨⟨⟨⟨⟨⟨?_, ?_⟩, ?_⟩, ?_⟩, ?_⟩, ?_⟩, ?_⟩, ?_⟩, ?_⟩, ?_⟩, ?_⟩ <;> omega

/-! ## The option `strip_components` -/

/-- What `ParseInputRef` does with `x.tar#strip_components=v` when `v` holds
none of the separators `#`, `,` and `=`: the result is decided by
`strconv.ParseUint` on the trimmed `v`. -/
theorem parseInputRef_strip_value (x : Externals) (i : inputRefParser) (devNull : String)
    (hd : x.DevNull = .ok devNull) (hne : devNull ≠ "x.tar") (v : String)
    (h1 : '#' ∉ v.data) (h2 : ',' ∉ v.data) (h3 : '=' ∉ v.data) :
    (∀ n, ParseUint32 (TrimSpace v) = some n →
      i.ParseInputRef x ("x.tar#strip_components=" ++ v) false false =
        .ok { Path := "x.tar", Format := .FormatTar, GitBranch := "", StripComponents := n }) ∧
    (ParseUint32 (TrimSpace v) = none →
      ∃ msg, i.ParseInputRef x ("x.tar#strip_components=" ++ v) false false =
        .error (.InvalidArgument msg)) := by
  let sc : List Char := ("strip_components" : String).data
  let rv : List Char := (v.data.reverse.dropWhile isSpace).reverse
  have hrv_sub : ∀ c, c ∈ rv → c ∈ v.data := by
    intro c hc
    exact List.mem_reverse.mp (List.dropWhile_subset _ (List.mem_reverse.mp hc))
  have hval : ("x.tar#strip_components=" ++ v).data =
      ("x.tar" : String).data ++ '#' :: (sc ++ '=' :: v.data) := by
    rw [String.data_append]
    rfl
  have hP : '#' ∉ ("x.tar" : String).data := by decide
  have hO : '#' ∉ sc ++ '=' :: v.data := by
    intro hmem
    rcases List.mem_append.mp hmem with h | h
    · exact absurd h (by decide)
    · rcases List.mem_cons.mp h with h | h
      · exact absurd h (by decide)
      · exact h1 h
  have hopt : TrimSpace ⟨sc ++ '=' :: v.data⟩ = ⟨sc ++ '=' :: rv⟩ := by
    rw [TrimSpace_eq]
    exact congrArg String.mk (trimChars_append_cons sc v.data '=' isSpace_equals)
  have hoptne : (⟨sc ++ '=' :: rv⟩ : String) ≠ "" := by
    intro h
    have := congrArg String.data h
    cases this
  have htrim : TrimSpace ("x.tar#strip_components=" ++ v) ≠ "" := by
    intro he
    have hall := (TrimSpace_eq_empty_iff _).mp he
    have := hall '#' (by rw [hval]; simp)
    rw [isSpace_hash] at this
    cases this
  have hsv := splitValue_one_hash i _ _ _ hval hP hO
  have hpath : TrimSpace ⟨("x.tar" : String).data⟩ = "x.tar" := rfl
  rw [hopt, hpath] at hsv
  rw [if_neg (by decide), if_neg hoptne] at hsv
  have hcomma : ',' ∉ sc ++ '=' :: rv := by
    intro hmem
    rcases List.mem_append.mp hmem with h | h
    · exact absurd h (by decide)
    · rcases List.mem_cons.mp h with h | h
      · exact absurd h (by decide)
      · exact h2 (hrv_sub _ h)
  have hpairs : Split ⟨sc ++ '=' :: rv⟩ ',' = [⟨sc ++ '=' :: rv⟩] := by
    unfold Split
    rw [splitOn_single ',' _ hcomma]
    rfl
  have hkv : Split ⟨sc ++ '=' :: rv⟩ '=' = [⟨sc⟩, ⟨rv⟩] := by
    unfold Split
    rw [splitOn_two '=' sc rv (by decide) (fun h => h3 (hrv_sub _ h))]
    rfl
  have hkey : TrimSpace ⟨sc⟩ = "strip_components" := rfl
  have hvalue : TrimSpace ⟨rv⟩ = TrimSpace v := by
    rw [TrimSpace_eq, TrimSpace_eq]
    exact congrArg String.mk (trimChars_rdropWhile v.data)
  have hk1 : ¬ (("strip_components" : String) = "") := by decide
  have hk2 : ¬ (("strip_components" : String) = "format") := by decide
  have hk3 : ¬ (("strip_components" : String) = "branch") := by decide
  have hno : ¬ ((false = true) ∧ (false = true)) := by simp
  have hfmt : i.parseFormatFromPath x "x.tar" = .ok .FormatTar := by
    have hcond : ¬ (("x.tar" : String) = "-" ∨ "x.tar" = devNull) := by
      rintro (h | h)
      · exact absurd h (by decide)
      · exact hne h.symm
    have hext : Ext "x.tar" = ".tar" := rfl
    simp only [inputRefParser.parseFormatFromPath, hd, hcond, if_false, hext]
    rfl
  constructor
  · intro n hn
    have hvne : TrimSpace v ≠ "" := by
      intro he
      rw [he] at hn
      cases hn
    have hstep : ∀ ref : InputRef,
        i.applyInputRefOption x ref ⟨sc ++ '=' :: rv⟩ ⟨sc ++ '=' :: rv⟩ =
          .ok { ref with StripComponents := n } := by
      intro ref
      simp only [inputRefParser.applyInputRefOption, hkv, hkey, hvalue, hk1, hvne, or_self,
        if_false, hk2, hk3, if_true, hn]
    simp only [inputRefParser.ParseInputRef, hno, if_false, htrim, hsv,
      inputRefParser.applyInputRefOptions, hoptne, hpairs,
      inputRefParser.applyInputRefOptionsLoop, hstep, if_true, hfmt]
    rfl
  · intro hn
    by_cases hvne : TrimSpace v = ""
    · refine ⟨"%s: invalid options: %q", ?_⟩
      have hstep : ∀ ref : InputRef,
          i.applyInputRefOption x ref ⟨sc ++ '=' :: rv⟩ ⟨sc ++ '=' :: rv⟩ =
            .error (.InvalidArgument "%s: invalid options: %q") := by
        intro ref
        simp only [inputRefParser.applyInputRefOption, hkv, hkey, hvalue, hk1, hvne, or_true,
          if_true, newOptionsInvalidError]
      simp only [inputRefParser.ParseInputRef, hno, if_false, htrim, hsv,
        inputRefParser.applyInputRefOptions, hoptne, hpairs,
        inputRefParser.applyInputRefOptionsLoop, hstep]
    · refine ⟨"%s: could not parse strip_components value %q", ?_⟩
      have hstep : ∀ ref : InputRef,
          i.applyInputRefOption x ref ⟨sc ++ '=' :: rv⟩ ⟨sc ++ '=' :: rv⟩ =
            .error (.InvalidArgument "%s: could not parse strip_components value %q") := by
        intro ref
        simp only [inputRefParser.applyInputRefOption, hkv, hkey, hvalue, hk1, hvne, or_self,
          if_false, hk2, hk3, if_true, hn, newOptionsCouldNotParseStripComponentsError]
      simp only [inputRefParser.ParseInputRef, hno, if_false, htrim, hsv,
        inputRefParser.applyInputRefOptions, hoptne, hpairs,
        inputRefParser.applyInputRefOptionsLoop, hstep]

theorem repr_no_separator (n : Nat) (c : Char) (hc : c.toNat < 48 ∨ 57 < c.toNat) :
    c ∉ (Nat.repr n).data := by
  intro hmem
  have := (repr_spec n).2.1 c hmem
  omega

theorem TrimSpace_repr (n : Nat) : TrimSpace (Nat.repr n) = Nat.repr n := by
  rw [TrimSpace_eq, trimChars_eq_self]
  intro c hc
  exact isSpace_of_digit c ((repr_spec n).2.1 c hc)

/-- A string that is not a non-empty string of decimal digits is rejected by
`strconv.ParseUint`. -/
theorem ParseUint32_not_decimal (s : String)
    (h : ¬ (s ≠ "" ∧ ∀ c ∈ s.data, 48 ≤ c.toNat ∧ c.toNat ≤ 57)) : ParseUint32 s = none := by
  unfold ParseUint32
  by_cases hs : s = ""
  · simp [hs]
  · simp only [hs, if_false]
    cases hp : parseDigits s.data 0 with
    | none => rfl
    | some n => exact absurd ⟨hs, parseDigits_digits s.data 0 n hp⟩ h

/-- C18, as stated, fails at `n = 4294967296`: the numeral is a decimal
non-negative integer and `ParseInputRef` rejects it with the user-input
error of an unparsable `strip_components`. -/
theorem parseInputRef_strip_components_counterexample :
    Nat.repr 4294967296 = "4294967296" ∧
    inputRefParser.ParseInputRef specExternals ⟨"--input"⟩
        ("x.tar#strip_components=" ++ Nat.repr 4294967296) false false =
      .error (.InvalidArgument "%s: could not parse strip_components value %q") :=
  ⟨by decide, by rfl⟩

/-- C18, amended: `strip_components` accepts every non-negative integer below
`2 ^ 32`. With a null device other than `x.tar`: for every natural number
`n < 2 ^ 32` written in decimal, `ParseInputRef` of
`x.tar#strip_components=n` succeeds with the tar format and
`StripComponents` equal to `n`; for every `n` from `2 ^ 32` on it fails
with a user-input error; and it fails with a user-input error for every
option value without the separators `#`, `,`, `=` whose trimmed form is not
a non-empty string of decimal digits, such as `-1` and `abc`. -/
theorem parseInputRef_strip_components (x : Externals) (i : inputRefParser) (devNull : String)
    (hd : x.DevNull = .ok devNull) (hne : devNull ≠ "x.tar") :
    (∀ n, n < 2 ^ 32 →
      i.ParseInputRef x ("x.tar#strip_components=" ++ Nat.repr n) false false =
        .ok { Path := "x.tar", Format := .FormatTar, GitBranch := "", StripComponents := n }) ∧
    (∀ n, 2 ^ 32 ≤ n →
      ∃ msg, i.ParseInputRef x ("x.tar#strip_components=" ++ Nat.repr n) false false =
        .error (.InvalidArgument msg)) ∧
    (∀ v : String, '#' ∉ v.data → ',' ∉ v.data → '=' ∉ v.data →
      ¬ (TrimSpace v ≠ "" ∧ ∀ c ∈ (TrimSpace v).data, 48 ≤ c.toNat ∧ c.toNat ≤ 57) →
      ∃ msg, i.ParseInputRef x ("x.tar#strip_components=" ++ v) false false =
        .error (.InvalidArgument msg)) ∧
    (∃ msg, i.ParseInputRef x "x.tar#strip_components=-1" false false =
      .error (.InvalidArgument msg)) ∧
    (∃ msg, i.ParseInputRef x "x.tar#strip_components=abc" false false =
      .error (.InvalidArgument msg)) := by
  have hrepr : ∀ n, ('#' ∉ (Nat.repr n).data ∧ ',' ∉ (Nat.repr n).data) ∧
      '=' ∉ (Nat.repr n).data := by
    intro n
    exact ⟨⟨repr_no_separator n '#' (by decide), repr_no_separator n ',' (by decide)⟩,
      repr_no_separator n '=' (by decide)⟩
  have hnot : ∀ v : String, '#' ∉ v.data → ',' ∉ v.data → '=' ∉ v.data →
      ¬ (TrimSpace v ≠ "" ∧ ∀ c ∈ (TrimSpace v).data, 48 ≤ c.toNat ∧ c.toNat ≤ 57) →
      ∃ msg, i.ParseInputRef x ("x.tar#strip_components=" ++ v) false false =
        .error (.InvalidArgument msg) := by
    intro v h1 h2 h3 hbad
    exact (parseInputRef_strip_value x i devNull hd hne v h1 h2 h3).2
      (ParseUint32_not_decimal _ hbad)
  refine ⟨?_, ?_, hnot, ?_, ?_⟩
  · intro n hn
    obtain ⟨⟨h1, h2⟩, h3⟩ := hrepr n
    apply (parseInputRef_strip_value x i devNull hd hne (Nat.repr n) h1 h2 h3).1
    rw [TrimSpace_repr, ParseUint32_repr, if_pos hn]
  · intro n hn
    obtain ⟨⟨h1, h2⟩, h3⟩ := hrepr n
    apply (parseInputRef_strip_value x i devNull hd hne (Nat.repr n) h1 h2 h3).2
    rw [TrimSpace_repr, ParseUint32_repr, if_neg (by omega)]
  · exact hnot "-1" (by decide) (by decide) (by decide) (by decide)
  · exact hnot "abc" (by decide) (by decide) (by decide) (by decide)

/-- The amended C18 with the null device `/dev/null` at `n = 4294967295`, the
largest strip count that is accepted. -/
theorem parseInputRef_strip_components_witness :
    specExternals.DevNull = .ok "/dev/null" ∧ ("/dev/null" : String) ≠ "x.tar" ∧
      (4294967295 : Nat) < 2 ^ 32 ∧
      inputRefParser.ParseInputRef specExternals ⟨"--input"⟩
          ("x.tar#strip_components=" ++ Nat.repr 4294967295) false false =
        .ok { Path := "x.tar", Format := .FormatTar, GitBranch := "",
              StripComponents := 4294967295 } :=
  ⟨rfl, by decide, by decide,
    (parseInputRef_strip_components specExternals ⟨"--input"⟩ "/dev/null" rfl (by decide)).1
      4294967295 (by decide)⟩

/-! ## Lookups in a `protoFileSet` -/

/-- A binding of the reverse map after the loop was there before the loop or
comes from an entry of the map. -/
theorem newProtoFileSetLoop_get : ∀ (m : List (String × String)) (rev : GoMap)
    (acc : List rootRealFilePath) (rev' : GoMap) (acc' : List rootRealFilePath),
    newProtoFileSetLoop m rev acc = .ok (rev', acc') →
    ∀ k v, rev'.get k = some v → rev.get k = some v ∨ (v, k) ∈ m
  | [], rev, acc, rev', acc', h, k, v, hk => by
    simp only [newProtoFileSetLoop, Except.ok.injEq, Prod.mk.injEq] at h
    rw [h.1]; exact Or.inl hk
  | (root, real) :: rest, rev, acc, rev', acc', h, k, v, hk => by
    simp only [newProtoFileSetLoop] at h
    split at h
    · cases h
    · rcases newProtoFileSetLoop_get rest _ _ rev' acc' h k v hk with h1 | h1
      · rw [GoMap.get_set] at h1
        by_cases hkr : k = real
        · simp only [hkr, if_true, Option.some.injEq] at h1
          right
          rw [hkr, ← h1]
          exact List.mem_cons_self _ _
        · simp only [hkr, if_false] at h1
          exact Or.inl h1
      · exact Or.inr (List.mem_cons_of_mem _ h1)

/-- The reverse map of a `protoFileSet` binds `real` to `root` exactly when
the map binds `root` to `real`. -/
theorem newProtoFileSet_reverse (roots : List String) (m : GoMap) (s : protoFileSet)
    (h : newProtoFileSet roots m = .ok s) (root real : String) :
    s.realFilePathToRootFilePath.get real = some root ↔ (root, real) ∈ m := by
  obtain ⟨_, _, acc, hloop, _⟩ := newProtoFileSet_ok_fields roots m s h
  constructor
  · intro hg
    rcases newProtoFileSetLoop_get m [] [] _ acc hloop real root hg with h1 | h1
    · simp [GoMap.get, List.lookup] at h1
    · exact h1
  · intro hmem
    exact newProtoFileSetLoop_binds m [] [] _ acc hloop root real hmem

theorem newProtoFileSet_forward (roots : List String) (m : GoMap) (hm : m.WF) (s : protoFileSet)
    (h : newProtoFileSet roots m = .ok s) (root real : String) :
    s.rootFilePathToRealFilePath.get root = some real ↔ (root, real) ∈ m := by
  obtain ⟨_, hfwd, _⟩ := newProtoFileSet_ok_fields roots m s h
  rw [hfwd]
  exact ⟨GoMap.mem_of_get m root real, GoMap.get_of_mem m hm root real⟩

theorem option_eq_none_of_forall {o : Option String} (h : ∀ v, o ≠ some v) : o = none := by
  cases o with
  | none => rfl
  | some v => exact absurd rfl (h v)

/-- C21: lookup is normalize-then-map-lookup. For every successfully
constructed `protoFileSet` and every path `p`, `GetRealFilePath p` returns an
internal error when `p` is empty, otherwise the error of the normalizer when
it fails, otherwise the value bound to the normalized `p` when it is a key
of the map and `ErrFilePathUnknown` when it is not; `GetRootFilePath` does
the same with the root path whose real path is the normalized `p`; and
`GetFilePath` equals `GetRealFilePath`. -/
theorem protoFileSet_lookup (x : Externals) (roots : List String) (m : GoMap) (hm : m.WF)
    (s : protoFileSet) (h : newProtoFileSet roots m = .ok s) (p : String) :
    (p = "" → s.GetRealFilePath x p = .error (.Internal "file path empty") ∧
      s.GetRootFilePath x p = .error (.Internal "file path empty")) ∧
    (p ≠ "" → ∀ e, x.NormalizeAndValidate p = .error e →
      s.GetRealFilePath x p = .error e ∧ s.GetRootFilePath x p = .error e) ∧
    (p ≠ "" → ∀ q, x.NormalizeAndValidate p = .ok q →
      (∀ v, (q, v) ∈ m → s.GetRealFilePath x p = .ok v) ∧
      ((∀ v, (q, v) ∉ m) → s.GetRealFilePath x p = .error .ErrFilePathUnknown) ∧
      (∀ v, (v, q) ∈ m → s.GetRootFilePath x p = .ok v) ∧
      ((∀ v, (v, q) ∉ m) → s.GetRootFilePath x p = .error .ErrFilePathUnknown)) ∧
    s.GetFilePath x p = s.GetRealFilePath x p := by
  refine ⟨?_, ?_, ?_, rfl⟩
  · intro hp
    simp [protoFileSet.GetRealFilePath, protoFileSet.GetRootFilePath, hp]
  · intro hp e he
    simp [protoFileSet.GetRealFilePath, protoFileSet.GetRootFilePath, hp, he]
  · intro hp q hq
    refine ⟨?_, ?_, ?_, ?_⟩
    · intro v hv
      have := (newProtoFileSet_forward roots m hm s h q v).mpr hv
      simp [protoFileSet.GetRealFilePath, hp, hq, this]
    · intro hno
      have : s.rootFilePathToRealFilePath.get q = none :=
        option_eq_none_of_forall
          (fun v hv => hno v ((newProtoFileSet_forward roots m hm s h q v).mp hv))
      simp [protoFileSet.GetRealFilePath, hp, hq, this]
    · intro v hv
      have := (newProtoFileSet_reverse roots m s h v q).mpr hv
      simp [protoFileSet.GetRootFilePath, hp, hq, this]
    · intro hno
      have : s.realFilePathToRootFilePath.get q = none :=
        option_eq_none_of_forall
          (fun v hv => hno v ((newProtoFileSet_reverse roots m s h v q).mp hv))
      simp [protoFileSet.GetRootFilePath, hp, hq, this]

/-- C21 on the set that binds `a.proto` to `x/a.proto`, looked up at
`./x//a.proto`, which normalizes to the real path `x/a.proto`. -/
theorem protoFileSet_lookup_witness :
    GoMap.WF [("a.proto", "x/a.proto")] ∧
    ∃ s, newProtoFileSet ["x"] [("a.proto", "x/a.proto")] = .ok s ∧
      specExternals.NormalizeAndValidate "./x//a.proto" = .ok "x/a.proto" ∧
      s.GetRootFilePath specExternals "./x//a.proto" = .ok "a.proto" ∧
      s.GetRealFilePath specExternals "./x//a.proto" = .error .ErrFilePathUnknown := by
  have hm : GoMap.WF [("a.proto", "x/a.proto")] := by unfold GoMap.WF; decide
  have key := (protoFileSet_lookup specExternals ["x"] [("a.proto", "x/a.proto")] hm _ rfl
    "./x//a.proto").2.2.1 (by decide) "x/a.proto" rfl
  exact ⟨hm, _, rfl, rfl, key.2.2.1 "a.proto" (by simp), key.2.1 (by
    intro v hv
    simp only [List.mem_singleton, Prod.mk.injEq] at hv
    exact absurd hv.1 (by decide))⟩

/-! ## Independence of the order of the map -/

theorem GoMap.get_perm (m1 m2 : GoMap) (h1 : m1.WF) (h2 : m2.WF) (hperm : m1.Perm m2)
    (k : String) : m1.get k = m2.get k := by
  cases hg : m1.get k with
  | some v =>
    exact (GoMap.get_of_mem m2 h2 k v (hperm.mem_iff.mp (GoMap.mem_of_get m1 k v hg))).symm
  | none =>
    symm
    apply option_eq_none_of_forall
    intro v hv
    have := GoMap.get_of_mem m1 h1 k v (hperm.mem_iff.mpr (GoMap.mem_of_get m2 k v hv))
    rw [hg] at this
    cases this

/-- The sorted slice of a `protoFileSet` is strictly increasing in the root
paths. -/
theorem newProtoFileSet_sorted_strict (roots : List String) (m : GoMap) (hm : m.WF)
    (s : protoFileSet) (h : newProtoFileSet roots m = .ok s) :
    s.sortedRootRealFilePaths.Sorted
      (fun a b => stringLess a.rootFilePath b.rootFilePath = true) := by
  obtain ⟨hperm, hsorted⟩ := newProtoFileSet_sorted roots m s h
  have hkeys : (s.sortedRootRealFilePaths.map (fun e => e.rootFilePath)).Perm
      (m.map Prod.fst) := by
    have := hperm.map (fun e => e.rootFilePath)
    simpa [List.map_map, Function.comp_def] using this
  have hnd : (s.sortedRootRealFilePaths.map (fun e => e.rootFilePath)).Nodup :=
    hkeys.nodup_iff.mpr hm
  have hne : s.sortedRootRealFilePaths.Pairwise
      (fun a b => a.rootFilePath ≠ b.rootFilePath) := by
    unfold List.Nodup at hnd
    rw [List.pairwise_map] at hnd
    exact hnd
  have := List.Pairwise.and hsorted hne
  refine this.imp ?_
  rintro a b ⟨hab, hneq⟩
  rcases stringLess_total a.rootFilePath b.rootFilePath with h1 | h1 | h1
  · exact h1
  · exact absurd h1 hneq
  · unfold rootRealFilePath.le at hab
    rw [hab] at h1
    cases h1

/-- C22: construction is independent of the order in which the map is
visited. For every roots list and every two enumerations of one mapping,
`newProtoFileSet` fails on both or succeeds on both, and then with equal
`Roots()`, `RootFilePaths()`, `RealFilePaths()` and equal results of
`GetRealFilePath` and `GetRootFilePath` on every input. -/
theorem newProtoFileSet_order_independent (x : Externals) (roots : List String)
    (m1 m2 : GoMap) (h1 : m1.WF) (hperm : m1.Perm m2) :
    ((∃ e, newProtoFileSet roots m1 = .error e) ↔ (∃ e, newProtoFileSet roots m2 = .error e)) ∧
    ((∃ s, newProtoFileSet roots m1 = .ok s) ↔ (∃ s, newProtoFileSet roots m2 = .ok s)) ∧
    ∀ s1 s2, newProtoFileSet roots m1 = .ok s1 → newProtoFileSet roots m2 = .ok s2 →
      s1.Roots = s2.Roots ∧ s1.RootFilePaths = s2.RootFilePaths ∧
      s1.RealFilePaths = s2.RealFilePaths ∧
      ∀ p, s1.GetRealFilePath x p = s2.GetRealFilePath x p ∧
        s1.GetRootFilePath x p = s2.GetRootFilePath x p := by
  have h2 : m2.WF := by
    unfold GoMap.WF at h1 ⊢
    exact (hperm.map Prod.fst).nodup_iff.mp h1
  have hok : (∃ s, newProtoFileSet roots m1 = .ok s) ↔ (∃ s, newProtoFileSet roots m2 = .ok s) := by
    rw [newProtoFileSet_ok_iff, newProtoFileSet_ok_iff]
    exact (hperm.map Prod.snd).nodup_iff
  refine ⟨?_, hok, ?_⟩
  · constructor
    · rintro ⟨e, he⟩
      cases hr : newProtoFileSet roots m2 with
      | error e2 => exact ⟨e2, rfl⟩
      | ok s2 =>
        obtain ⟨s1, hs1⟩ := hok.mpr ⟨s2, hr⟩
        rw [hs1] at he
        cases he
    · rintro ⟨e, he⟩
      cases hr : newProtoFileSet roots m1 with
      | error e1 => exact ⟨e1, rfl⟩
      | ok s1 =>
        obtain ⟨s2, hs2⟩ := hok.mp ⟨s1, hr⟩
        rw [hs2] at he
        cases he
  · intro s1 s2 hs1 hs2
    obtain ⟨hr1, hf1, _⟩ := newProtoFileSet_ok_fields roots m1 s1 hs1
    obtain ⟨hr2, hf2, _⟩ := newProtoFileSet_ok_fields roots m2 s2 hs2
    have hsorted : s1.sortedRootRealFilePaths = s2.sortedRootRealFilePaths := by
      have p1 := (newProtoFileSet_sorted roots m1 s1 hs1).1
      have p2 := (newProtoFileSet_sorted roots m2 s2 hs2).1
      have hp : s1.sortedRootRealFilePaths.Perm s2.sortedRootRealFilePaths :=
        p1.trans ((hperm.map _).trans p2.symm)
      exact @List.eq_of_perm_of_sorted _
        (fun a b => stringLess a.rootFilePath b.rootFilePath = true)
        ⟨fun a b hab hba => by
          have := stringLess_asymm hab
          rw [hba] at this
          cases this⟩ _ _ hp
        (newProtoFileSet_sorted_strict roots m1 h1 s1 hs1)
        (newProtoFileSet_sorted_strict roots m2 h2 s2 hs2)
    refine ⟨?_, ?_, ?_, ?_⟩
    · simp [protoFileSet.Roots, hr1, hr2]
    · simp [protoFileSet.RootFilePaths, hsorted]
    · simp [protoFileSet.RealFilePaths, hsorted]
    · intro p
      have hfw : ∀ q, s1.rootFilePathToRealFilePath.get q = s2.rootFilePathToRealFilePath.get q := by
        intro q
        rw [hf1, hf2]
        exact GoMap.get_perm m1 m2 h1 h2 hperm q
      have hrv : ∀ q, s1.realFilePathToRootFilePath.get q = s2.realFilePathToRootFilePath.get q := by
        intro q
        cases hg : s1.realFilePathToRootFilePath.get q with
        | some v =>
          have := (newProtoFileSet_reverse roots m1 s1 hs1 v q).mp hg
          exact ((newProtoFileSet_reverse roots m2 s2 hs2 v q).mpr (hperm.mem_iff.mp this)).symm
        | none =>
          symm
          apply option_eq_none_of_forall
          intro v hv
          have := (newProtoFileSet_reverse roots m2 s2 hs2 v q).mp hv
          have := (newProtoFileSet_reverse roots m1 s1 hs1 v q).mpr (hperm.mem_iff.mpr this)
          rw [hg] at this
          cases this
      constructor
      · unfold protoFileSet.GetRealFilePath
        split_ifs
        · rfl
        · cases x.NormalizeAndValidate p with
          | error e => rfl
          | ok q => simp only [hfw q]
      · unfold protoFileSet.GetRootFilePath
        split_ifs
        · rfl
        · cases x.NormalizeAndValidate p with
          | error e => rfl
          | ok q => simp only [hrv q]

/-- C22 on the two enumerations of a map with two entries: both
constructions succeed with the same views. -/
theorem newProtoFileSet_order_independent_witness :
    GoMap.WF [("b.proto", "x/b.proto"), ("a.proto", "y/a.proto")] ∧
    List.Perm [("b.proto", "x/b.proto"), ("a.proto", "y/a.proto")]
      [("a.proto", "y/a.proto"), ("b.proto", "x/b.proto")] ∧
    ∃ s1 s2,
      newProtoFileSet ["x", "y"] [("b.proto", "x/b.proto"), ("a.proto", "y/a.proto")] = .ok s1 ∧
      newProtoFileSet ["x", "y"] [("a.proto", "y/a.proto"), ("b.proto", "x/b.proto")] = .ok s2 ∧
      s1.RealFilePaths = s2.RealFilePaths := by
  have hm : GoMap.WF [("b.proto", "x/b.proto"), ("a.proto", "y/a.proto")] := by
    unfold GoMap.WF; decide
  have hperm : List.Perm [("b.proto", "x/b.proto"), ("a.proto", "y/a.proto")]
      [("a.proto", "y/a.proto"), ("b.proto", "x/b.proto")] := List.Perm.swap _ _ _
  exact ⟨hm, hperm, _, _, rfl, rfl,
    ((newProtoFileSet_order_independent specExternals ["x", "y"] _ _ hm hperm).2.2
      _ _ rfl rfl).2.2.1⟩

/-! ## The flags of `ParseInputRef` -/

/-- The final checks under a restriction pass exactly when they pass without
restriction and the format is inside the restriction. -/
theorem checkInputRef_flags (i : inputRefParser) (value path options : String)
    (onlySources onlyImages : Bool) (r0 r : InputRef) :
    i.checkInputRef value path options onlySources onlyImages r0 = .ok r ↔
      (i.checkInputRef value path options false false r0 = .ok r ∧
        (onlySources = true → r.Format.IsSource = true) ∧
        (onlyImages = true → r.Format.IsImage = true)) := by
  constructor
  · intro h
    obtain ⟨hr, _, _, hs, hi, _⟩ := checkInputRef_ok i value path options _ _ r0 r h
    refine ⟨?_, hs, hi⟩
    unfold inputRefParser.checkInputRef at h ⊢
    split_ifs at h with h1 h2 h3 h4 h5 h6
    simp only [h1, h2, h3, h6, if_false, Bool.false_eq_true, false_and]
    exact h
  · rintro ⟨h, hs, hi⟩
    have hr := (checkInputRef_ok i value path options _ _ r0 r h).1
    subst hr
    unfold inputRefParser.checkInputRef at h ⊢
    split_ifs at h with h1 h2 h3 h4 h5 h6
    have n4 : ¬ (onlySources = true ∧ ¬ r.Format.IsSource = true) := fun hh => hh.2 (hs hh.1)
    have n5 : ¬ (onlyImages = true ∧ ¬ r.Format.IsImage = true) := fun hh => hh.2 (hi hh.1)
    simp only [h1, h2, h3, n4, n5, h6, if_false]

/-- C27: the flags only filter. For every value: if `ParseInputRef` succeeds
under a flag setting with at most one flag set, it succeeds without flags
with the same `InputRef`; it succeeds as a source exactly when it succeeds
without flags with a source format; and it succeeds as an image exactly
when it succeeds without flags with an image format. -/
theorem parseInputRef_flags_filter (x : Externals) (i : inputRefParser) (value : String) :
    (∀ (onlySources onlyImages : Bool) (r : InputRef),
      ¬ (onlySources = true ∧ onlyImages = true) →
      i.ParseInputRef x value onlySources onlyImages = .ok r →
      i.ParseInputRef x value false false = .ok r) ∧
    (∀ r, i.ParseInputRef x value true false = .ok r ↔
      (i.ParseInputRef x value false false = .ok r ∧ r.Format.IsSource = true)) ∧
    (∀ r, i.ParseInputRef x value false true = .ok r ↔
      (i.ParseInputRef x value false false = .ok r ∧ r.Format.IsImage = true)) := by
  have hff : ¬ ((false : Bool) = true ∧ (false : Bool) = true) := by simp
  have htf : ¬ ((true : Bool) = true ∧ (false : Bool) = true) := by simp
  have hft : ¬ ((false : Bool) = true ∧ (true : Bool) = true) := by simp
  rcases ParseInputRef_cases x i value with ⟨e, he⟩ | ⟨v, p, o, r0, hr⟩
  · refine ⟨?_, ?_, ?_⟩
    · intro os oi r hno h
      rw [he os oi hno] at h
      cases h
    · intro r
      rw [he true false htf, he false false hff]
      simp
    · intro r
      rw [he false true hft, he false false hff]
      simp
  · refine ⟨?_, ?_, ?_⟩
    · intro os oi r hno h
      rw [hr os oi hno] at h
      rw [hr false false hff]
      exact ((checkInputRef_flags i v p o os oi r0 r).mp h).1
    · intro r
      rw [hr true false htf, hr false false hff, checkInputRef_flags i v p o true false r0 r]
      simp
    · intro r
      rw [hr false true hft, hr false false hff, checkInputRef_flags i v p o false true r0 r]
      simp

/-- C27 on `x.tar#strip_components=1`, read as a source. -/
theorem parseInputRef_flags_filter_witness :
    inputRefParser.ParseInputRef specExternals ⟨"--input"⟩ "x.tar#strip_components=1"
        true false =
      .ok { Path := "x.tar", Format := .FormatTar, GitBranch := "", StripComponents := 1 } ∧
    inputRefParser.ParseInputRef specExternals ⟨"--input"⟩ "x.tar#strip_components=1"
        false false =
      .ok { Path := "x.tar", Format := .FormatTar, GitBranch := "", StripComponents := 1 } :=
  ⟨rfl, (parseInputRef_flags_filter specExternals ⟨"--input"⟩ "x.tar#strip_components=1").1
    true false _ (by simp) rfl⟩

/-! ## The order of the inputs of `newConfig` -/

theorem sortStrings_eq_of_perm (l1 l2 : List String) (h : l1.Perm l2) :
    sortStrings l1 = sortStrings l2 :=
  @List.eq_of_perm_of_sorted _ stringLE ⟨stringLE_antisymm⟩ _ _
    ((sortStrings_perm l1).trans (h.trans (sortStrings_perm l2).symm))
    (sortStrings_sorted l1) (sortStrings_sorted l2)

theorem transformFileListForConfig_perm_imp (x : Externals) (inputs inputs2 : List String)
    (name : String) (hperm : inputs.Perm inputs2) (out : List String)
    (h : transformFileListForConfig x inputs name = .ok out) :
    transformFileListForConfig x inputs2 name = .ok out := by
  obtain ⟨outputs, hf, hout, hp, hd⟩ := (transformFileListForConfig_ok_iff x _ _ _).mp h
  obtain ⟨w, hw, hwp⟩ := List.perm_comp_forall₂ hperm.symm hf
  refine (transformFileListForConfig_ok_iff x _ _ _).mpr ⟨w, hw, ?_, hp, hd⟩
  rw [hout]
  exact (sortStrings_eq_of_perm w outputs hwp).symm

theorem transformFileListForConfig_perm (x : Externals) (inputs inputs2 : List String)
    (name : String) (hperm : inputs.Perm inputs2) (out : List String) :
    transformFileListForConfig x inputs name = .ok out ↔
      transformFileListForConfig x inputs2 name = .ok out :=
  ⟨transformFileListForConfig_perm_imp x _ _ name hperm out,
    transformFileListForConfig_perm_imp x _ _ name hperm.symm out⟩

theorem newConfig_perm_ok (x : Externals) (roots roots2 excludes excludes2 : List String)
    (hr : roots.Perm roots2) (he : excludes.Perm excludes2) (cfg : Config) :
    newConfig x ⟨roots, excludes⟩ = .ok cfg ↔ newConfig x ⟨roots2, excludes2⟩ = .ok cfg := by
  rw [newConfig_ok_iff, newConfig_ok_iff]
  have hroots : (if roots.length = 0 then ["."] else roots).Perm
      (if roots2.length = 0 then ["."] else roots2) := by
    rw [hr.length_eq]
    split_ifs
    · exact List.Perm.refl _
    · exact hr
  simp only
  rw [transformFileListForConfig_perm x _ _ "root" hroots,
    transformFileListForConfig_perm x _ _ "exclude" he]

/-- C26: `newConfig` is insensitive to the order of its inputs. For every
roots list, excludes list and permutations of them, `newConfig` on the
permuted lists fails if and only if it fails on the original lists, and
when both succeed the returned `Roots` and `Excludes` are equal. -/
theorem newConfig_order_insensitive (x : Externals)
    (roots roots2 excludes excludes2 : List String)
    (hr : roots.Perm roots2) (he : excludes.Perm excludes2) :
    ((∃ e, newConfig x ⟨roots2, excludes2⟩ = .error e) ↔
      (∃ e, newConfig x ⟨roots, excludes⟩ = .error e)) ∧
    (∀ c1 c2, newConfig x ⟨roots, excludes⟩ = .ok c1 →
      newConfig x ⟨roots2, excludes2⟩ = .ok c2 →
      c1.Roots = c2.Roots ∧ c1.Excludes = c2.Excludes) := by
  have key := newConfig_perm_ok x roots roots2 excludes excludes2 hr he
  constructor
  · constructor
    · rintro ⟨e, h2⟩
      cases h1 : newConfig x ⟨roots, excludes⟩ with
      | error e1 => exact ⟨e1, rfl⟩
      | ok c =>
        rw [(key c).mp h1] at h2
        cases h2
    · rintro ⟨e, h1⟩
      cases h2 : newConfig x ⟨roots2, excludes2⟩ with
      | error e2 => exact ⟨e2, rfl⟩
      | ok c =>
        rw [(key c).mpr h2] at h1
        cases h1
  · intro c1 c2 h1 h2
    rw [(key c1).mp h1] at h2
    simp only [Except.ok.injEq] at h2
    subst h2
    exact ⟨rfl, rfl⟩

/-- C26 on the roots `b`, `a` and the excludes `b/y`, `a/x`, each in its two
orders. -/
theorem newConfig_order_insensitive_witness :
    List.Perm ["b", "a"] ["a", "b"] ∧ List.Perm ["b/y", "a/x"] ["a/x", "b/y"] ∧
    newConfig specExternals ⟨["b", "a"], ["b/y", "a/x"]⟩ = .ok ⟨["a", "b"], ["a/x", "b/y"]⟩ ∧
    newConfig specExternals ⟨["a", "b"], ["a/x", "b/y"]⟩ = .ok ⟨["a", "b"], ["a/x", "b/y"]⟩ ∧
    (⟨["a", "b"], ["a/x", "b/y"]⟩ : Config).Roots = (⟨["a", "b"], ["a/x", "b/y"]⟩ : Config).Roots :=
  ⟨List.Perm.swap _ _ _, List.Perm.swap _ _ _, rfl, rfl,
    ((newConfig_order_insensitive specExternals ["b", "a"] ["a", "b"] ["b/y", "a/x"]
      ["a/x", "b/y"] (List.Perm.swap _ _ _) (List.Perm.swap _ _ _)).2 _ _ rfl rfl).1⟩

/-! ## `stringutil.go` -/

theorem nodup_foldl_SliceToMap : ∀ (s acc : List String), acc.Nodup →
    (s.foldl (fun m e => if e ∈ m then m else m ++ [e]) acc).Nodup
  | [], acc, h => h
  | a :: rest, acc, h => by
    simp only [List.foldl_cons]
    apply nodup_foldl_SliceToMap rest
    by_cases ha : a ∈ acc
    · simp only [ha, if_true]; exact h
    · simp only [ha, if_false]
      rw [List.nodup_append]
      refine ⟨h, List.nodup_singleton a, ?_⟩
      intro b hb hb'
      simp only [List.mem_singleton] at hb'
      subst hb'
      exact ha hb

theorem nodup_SliceToMap (s : List String) : (SliceToMap s).Nodup :=
  nodup_foldl_SliceToMap s [] List.nodup_nil

theorem length_SliceToMap (s : List String) : (SliceToMap s).length = s.length ↔ s.Nodup := by
  have hperm : (SliceToMap s).Perm s.dedup := by
    rw [List.perm_ext_iff_of_nodup (nodup_SliceToMap s) (List.nodup_dedup s)]
    intro a
    rw [mem_SliceToMap, List.mem_dedup]
  rw [hperm.length_eq]
  constructor
  · intro h
    have := (List.dedup_sublist s).eq_of_length h
    rw [← this]
    exact List.nodup_dedup s
  · intro h
    rw [List.dedup_eq_self.mpr h]

/-- C23: `SliceToUniqueSortedSlice` returns a sorted, duplicate-free list with
the same elements. For every list `s` the result is strictly increasing in
the order of Go strings, a string occurs in the result if and only if it
occurs in `s`, and the result has the length of `s` exactly when `s` has no
repeated element. -/
theorem SliceToUniqueSortedSlice_spec (s : List String) :
    (SliceToUniqueSortedSlice s).Sorted (fun a b => stringLess a b = true) ∧
    (∀ a, a ∈ SliceToUniqueSortedSlice s ↔ a ∈ s) ∧
    ((SliceToUniqueSortedSlice s).length = s.length ↔ s.Nodup) := by
  have hperm : (SliceToUniqueSortedSlice s).Perm (SliceToMap s) := sortStrings_perm _
  refine ⟨?_, ?_, ?_⟩
  · have hs : (SliceToUniqueSortedSlice s).Sorted stringLE := sortStrings_sorted _
    have hnd : (SliceToUniqueSortedSlice s).Nodup := hperm.nodup_iff.mpr (nodup_SliceToMap s)
    have := List.Pairwise.and hs hnd
    refine this.imp ?_
    rintro a b ⟨hab, hne⟩
    rcases stringLess_total a b with h1 | h1 | h1
    · exact h1
    · exact absurd h1 hne
    · unfold stringLE at hab
      rw [hab] at h1
      cases h1
  · intro a
    rw [hperm.mem_iff, mem_SliceToMap]
  · rw [hperm.length_eq]
    exact length_SliceToMap s

/-- The loop of `SliceToChunks` ends within `len(c)` rounds when `c` is not
empty and the chunk size is positive, and it appends a partition of `c`. -/
theorem SliceToChunksLoop_spec (n : Nat) (hn : 0 < n) : ∀ (fuel : Nat) (c : List String)
    (chunks : List (List String)), c ≠ [] → c.length ≤ fuel →
    ∃ init last, SliceToChunksLoop n fuel c chunks = some (chunks ++ (init ++ [last])) ∧
      (init ++ [last]).flatten = c ∧ (∀ ch ∈ init, ch.length = n) ∧
      1 ≤ last.length ∧ last.length ≤ n
  | 0, c, _, hc, hlen => by
    have : c.length = 0 := by omega
    exact absurd (List.length_eq_zero.mp this) hc
  | fuel + 1, c, chunks, hc, hlen => by
    have hpos : 0 < c.length := List.length_pos.mpr hc
    by_cases hlt : n < c.length
    · have hdrop : c.drop n ≠ [] := by
        intro h
        have := congrArg List.length h
        simp at this
        omega
      have hdl : (c.drop n).length ≤ fuel := by
        simp only [List.length_drop]
        omega
      obtain ⟨init, last, hres, hflat, hinit, h1, h2⟩ :=
        SliceToChunksLoop_spec n hn fuel (c.drop n) (chunks ++ [c.take n]) hdrop hdl
      refine ⟨c.take n :: init, last, ?_, ?_, ?_, h1, h2⟩
      · simp only [SliceToChunksLoop, hlt, if_true, hres]
        simp
      · simp only [List.cons_append, List.flatten_cons, hflat, List.take_append_drop]
      · intro ch hch
        rcases List.mem_cons.mp hch with rfl | hmem
        · simp only [List.length_take]
          omega
        · exact hinit ch hmem
    · refine ⟨[], c, ?_, by simp, by simp, hpos, by omega⟩
      simp only [SliceToChunksLoop, hlt, if_false, List.nil_append]

/-- C24: `SliceToChunks` is an order-preserving partition. For every list `s`
and every integer `chunkSize` it returns chunks whose concatenation is `s`
and none of which is empty; the result is empty when `s` is empty, the
single chunk `s` when `s` is not empty and `chunkSize <= 0`, and when
`chunkSize > 0` every chunk except the last has `chunkSize` elements and
the last has between 1 and `chunkSize`. -/
theorem SliceToChunks_partition (s : List String) (chunkSize : Int) :
    ∃ chunks, SliceToChunks s chunkSize = some chunks ∧
      chunks.flatten = s ∧ (∀ ch ∈ chunks, ch ≠ []) ∧
      (s = [] → chunks = []) ∧
      (s ≠ [] → chunkSize ≤ 0 → chunks = [s]) ∧
      (s ≠ [] → 0 < chunkSize →
        ∃ init last, chunks = init ++ [last] ∧
          (∀ ch ∈ init, (ch.length : Int) = chunkSize) ∧
          1 ≤ last.length ∧ (last.length : Int) ≤ chunkSize) := by
  by_cases hs : s = []
  · subst hs
    exact ⟨[], rfl, rfl, by simp, fun _ => rfl, fun h => absurd rfl h, fun h => absurd rfl h⟩
  · have hlen : ¬ s.length = 0 := fun h => hs (List.length_eq_zero.mp h)
    by_cases hc : chunkSize ≤ 0
    · refine ⟨[s], ?_, by simp, ?_, fun h => absurd h hs, fun _ _ => rfl, ?_⟩
      · simp only [SliceToChunks, hlen, if_false, hc, if_true]
      · intro ch hch
        simp only [List.mem_singleton] at hch
        rw [hch]
        exact hs
      · intro _ hpos
        omega
    · have hn : 0 < chunkSize.toNat := by omega
      have hcast : (chunkSize.toNat : Int) = chunkSize := Int.toNat_of_nonneg (by omega)
      obtain ⟨init, last, hres, hflat, hinit, h1, h2⟩ :=
        SliceToChunksLoop_spec chunkSize.toNat hn s.length s [] hs (le_refl _)
      refine ⟨init ++ [last], ?_, hflat, ?_, fun h => absurd h hs, fun _ h => absurd h hc, ?_⟩
      · simp only [SliceToChunks, hlen, if_false, hc, hres, List.nil_append]
      · intro ch hch
        rcases List.mem_append.mp hch with hmem | hmem
        · intro hnil
          have := hinit ch hmem
          rw [hnil] at this
          simp at this
          omega
        · simp only [List.mem_singleton] at hmem
          intro hnil
          rw [hmem] at hnil
          rw [hnil] at h1
          simp at h1
      · intro _ _
        refine ⟨init, last, rfl, ?_, h1, ?_⟩
        · intro ch hch
          rw [hinit ch hch, hcast]
        · rw [← hcast]
          exact_mod_cast h2

/-- C24 on a list of five strings and the chunk size 2. -/
theorem SliceToChunks_partition_witness :
    SliceToChunks ["a", "b", "c", "d", "e"] 2 = some [["a", "b"], ["c", "d"], ["e"]] ∧
    ∃ chunks, SliceToChunks ["a", "b", "c", "d", "e"] 2 = some chunks ∧
      chunks.flatten = ["a", "b", "c", "d", "e"] :=
  ⟨rfl, (SliceToChunks_partition ["a", "b", "c", "d", "e"] 2).imp
    (fun _ h => ⟨h.1, h.2.1⟩)⟩

/-! ## The option `format` -/

theorem error_ne_gz (i : inputRefParser) (msg : String)
    (hmsg : msg ≠ "%s: path %q had .gz extension with unknown format") (p : String) :
    (Except.error (Error.InvalidArgument msg) : Except Error InputRef) ≠
      .error (newPathUnknownGzError i.valueFlagName p) := by
  intro h
  simp only [newPathUnknownGzError, Except.error.injEq, Error.InvalidArgument.injEq] at h
  exact hmsg h

/-- The final checks of `ParseInputRef` do not return the error of an unknown
`.gz` extension. -/
theorem checkInputRef_ne_gz (i : inputRefParser) (value path options : String)
    (onlySources onlyImages : Bool) (r0 : InputRef) (p : String) :
    i.checkInputRef value path options onlySources onlyImages r0 ≠
      .error (newPathUnknownGzError i.valueFlagName p) := by
  unfold inputRefParser.checkInputRef
  split_ifs
  · exact error_ne_gz i _ (by decide) p
  · exact error_ne_gz i _ (by decide) p
  · exact error_ne_gz i _ (by decide) p
  · exact error_ne_gz i _ (by decide) p
  · exact error_ne_gz i _ (by decide) p
  · exact error_ne_gz i _ (by decide) p
  · intro h; cases h

/-- What `ParseInputRef` does with `path#format=f` when `f` holds none of the
separators and the override parser accepts it with a format: it succeeds
only with that format, and it does not return the error of an unknown `.gz`
extension. -/
theorem parseInputRef_format_value (x : Externals) (i : inputRefParser)
    (devNull path f : String) (fmt : Format) (hd : x.DevNull = .ok devNull)
    (h1 : '#' ∉ f.data) (h2 : ',' ∉ f.data) (h3 : '=' ∉ f.data)
    (hf : x.parseFormatOverride i.valueFlagName (TrimSpace f) = .ok fmt)
    (hfmt : fmt ≠ .unset) :
    (∀ r, i.ParseInputRef x (path ++ "#format=" ++ f) false false = .ok r → r.Format = fmt) ∧
    (∀ p, i.ParseInputRef x (path ++ "#format=" ++ f) false false ≠
      .error (newPathUnknownGzError i.valueFlagName p)) := by
  let fm : List Char := ("format" : String).data
  let rv : List Char := (f.data.reverse.dropWhile isSpace).reverse
  have hrv_sub : ∀ c, c ∈ rv → c ∈ f.data := by
    intro c hc
    exact List.mem_reverse.mp (List.dropWhile_subset _ (List.mem_reverse.mp hc))
  have hval : (path ++ "#format=" ++ f).data = path.data ++ '#' :: (fm ++ '=' :: f.data) := by
    rw [String.data_append, String.data_append, List.append_assoc]
    rfl
  have hno : ¬ ((false = true) ∧ (false = true)) := by simp
  have htrim : TrimSpace (path ++ "#format=" ++ f) ≠ "" := by
    intro he
    have hall := (TrimSpace_eq_empty_iff _).mp he
    have := hall '#' (by rw [hval]; simp)
    rw [isSpace_hash] at this
    cases this
  have hO : '#' ∉ fm ++ '=' :: f.data := by
    intro hmem
    rcases List.mem_append.mp hmem with h | h
    · exact absurd h (by decide)
    · rcases List.mem_cons.mp h with h | h
      · exact absurd h (by decide)
      · exact h1 h
  by_cases hP : '#' ∈ path.data
  · have hcount : 2 ≤ (path ++ "#format=" ++ f).data.count '#' := by
      rw [hval, List.count_append, List.count_cons]
      have := List.count_pos_iff.mpr hP
      simp
      omega
    have herr := ParseInputRef_of_splitValue_error x i _ false false hno htrim _
      (splitValue_many_hashes i _ hcount)
    rw [herr]
    exact ⟨fun r h => (by cases h), fun p => error_ne_gz i _ (by decide) p⟩
  · have hsv := splitValue_one_hash i _ _ _ hval hP hO
    have hpath : (⟨path.data⟩ : String) = path := rfl
    have hopt : TrimSpace ⟨fm ++ '=' :: f.data⟩ = ⟨fm ++ '=' :: rv⟩ := by
      rw [TrimSpace_eq]
      exact congrArg String.mk (trimChars_append_cons fm f.data '=' isSpace_equals)
    have hoptne : (⟨fm ++ '=' :: rv⟩ : String) ≠ "" := by
      intro h
      have := congrArg String.data h
      cases this
    rw [hpath, hopt] at hsv
    by_cases hp0 : TrimSpace path = ""
    · rw [if_pos hp0] at hsv
      rw [ParseInputRef_of_splitValue_error x i _ false false hno htrim _ hsv]
      exact ⟨fun r h => (by cases h), fun p => error_ne_gz i _ (by decide) p⟩
    · rw [if_neg hp0, if_neg hoptne] at hsv
      have hcomma : ',' ∉ fm ++ '=' :: rv := by
        intro hmem
        rcases List.mem_append.mp hmem with h | h
        · exact absurd h (by decide)
        · rcases List.mem_cons.mp h with h | h
          · exact absurd h (by decide)
          · exact h2 (hrv_sub _ h)
      have hpairs : Split ⟨fm ++ '=' :: rv⟩ ',' = [⟨fm ++ '=' :: rv⟩] := by
        unfold Split
        rw [splitOn_single ',' _ hcomma]
        rfl
      have hkv : Split ⟨fm ++ '=' :: rv⟩ '=' = [⟨fm⟩, ⟨rv⟩] := by
        unfold Split
        rw [splitOn_two '=' fm rv (by decide) (fun h => h3 (hrv_sub _ h))]
        rfl
      have hkey : TrimSpace ⟨fm⟩ = "format" := rfl
      have hvalue : TrimSpace ⟨rv⟩ = TrimSpace f := by
        rw [TrimSpace_eq, TrimSpace_eq]
        exact congrArg String.mk (trimChars_rdropWhile f.data)
      have hk1 : ¬ (("format" : String) = "") := by decide
      by_cases hv0 : TrimSpace f = ""
      · have hstep : ∀ ref : InputRef,
            i.applyInputRefOption x ref ⟨fm ++ '=' :: rv⟩ ⟨fm ++ '=' :: rv⟩ =
              .error (.InvalidArgument "%s: invalid options: %q") := by
          intro ref
          simp only [inputRefParser.applyInputRefOption, hkv, hkey, hvalue, hk1, hv0, or_true,
            if_true, newOptionsInvalidError]
        have herr : i.ParseInputRef x (path ++ "#format=" ++ f) false false =
            .error (.InvalidArgument "%s: invalid options: %q") := by
          simp only [inputRefParser.ParseInputRef, hno, if_false, htrim, hsv,
            inputRefParser.applyInputRefOptions, hoptne, hpairs,
            inputRefParser.applyInputRefOptionsLoop, hstep]
        rw [herr]
        exact ⟨fun r h => (by cases h), fun p => error_ne_gz i _ (by decide) p⟩
      · by_cases hpd : TrimSpace path = devNull
        · have hstep : i.applyInputRefOption x
              { Path := TrimSpace path, Format := .unset, GitBranch := "", StripComponents := 0 }
              ⟨fm ++ '=' :: rv⟩ ⟨fm ++ '=' :: rv⟩ =
              .error (.InvalidArgument "%s: not allowed if path is %s") := by
            simp only [inputRefParser.applyInputRefOption, hkv, hkey, hvalue, hk1, hv0, or_self,
              if_false, if_true, hd, hpd, newFormatOverrideNotAllowedForDevNullError]
          have herr : i.ParseInputRef x (path ++ "#format=" ++ f) false false =
              .error (.InvalidArgument "%s: not allowed if path is %s") := by
            simp only [inputRefParser.ParseInputRef, hno, if_false, htrim, hsv,
              inputRefParser.applyInputRefOptions, hoptne, hpairs,
              inputRefParser.applyInputRefOptionsLoop, hstep]
          rw [herr]
          exact ⟨fun r h => (by cases h), fun p => error_ne_gz i _ (by decide) p⟩
        · have hstep : i.applyInputRefOption x
              { Path := TrimSpace path, Format := .unset, GitBranch := "", StripComponents := 0 }
              ⟨fm ++ '=' :: rv⟩ ⟨fm ++ '=' :: rv⟩ =
              .ok { Path := TrimSpace path, Format := fmt, GitBranch := "",
                    StripComponents := 0 } := by
            simp only [inputRefParser.applyInputRefOption, hkv, hkey, hvalue, hk1, hv0, or_self,
              if_false, if_true, hd, hpd, hf]
          have hres : i.ParseInputRef x (path ++ "#format=" ++ f) false false =
              i.checkInputRef (TrimSpace (path ++ "#format=" ++ f)) (TrimSpace path)
                ⟨fm ++ '=' :: rv⟩ false false
                { Path := TrimSpace path, Format := fmt, GitBranch := "",
                  StripComponents := 0 } := by
            simp only [inputRefParser.ParseInputRef, hno, if_false, htrim, hsv,
              inputRefParser.applyInputRefOptions, hoptne, hpairs,
              inputRefParser.applyInputRefOptionsLoop, hstep, hfmt]
          rw [hres]
          refine ⟨?_, fun p => checkInputRef_ne_gz i _ _ _ _ _ _ p⟩
          intro r h
          rw [(checkInputRef_ok i _ _ _ _ _ _ r h).1]

/-- C28: an explicit format option replaces inference. For every path and
every format token `f` (a string without `#`, `,` and `=`) that the override
parser accepts with a format: if `ParseInputRef` of `path#format=f` succeeds,
the returned `Format` is the format named by `f`, whatever the extension of
the path, and the error of an unknown `.gz` extension is not returned. With
the collaborators of the spec, `x.gz#format=bin` succeeds with the binary
format. -/
theorem parseInputRef_format_override :
    (∀ (x : Externals) (i : inputRefParser) (devNull path f : String) (fmt : Format),
      x.DevNull = .ok devNull → '#' ∉ f.data → ',' ∉ f.data → '=' ∉ f.data →
      x.parseFormatOverride i.valueFlagName (TrimSpace f) = .ok fmt → fmt ≠ .unset →
      (∀ r, i.ParseInputRef x (path ++ "#format=" ++ f) false false = .ok r →
        r.Format = fmt) ∧
      (∀ p, i.ParseInputRef x (path ++ "#format=" ++ f) false false ≠
        .error (newPathUnknownGzError i.valueFlagName p))) ∧
    (∀ i : inputRefParser, i.ParseInputRef specExternals "x.gz#format=bin" false false =
      .ok { Path := "x.gz", Format := .FormatBin, GitBranch := "", StripComponents := 0 }) :=
  ⟨fun x i devNull path f fmt hd h1 h2 h3 hf hfmt =>
    parseInputRef_format_value x i devNull path f fmt hd h1 h2 h3 hf hfmt, fun _ => rfl⟩

/-- C28 on `a.tar.gz#format=json`: the format is JSON, not the gzip-tar of
the extension. -/
theorem parseInputRef_format_override_witness :
    inputRefParser.ParseInputRef specExternals ⟨"--input"⟩ ("a.tar.gz" ++ "#format=" ++ "json")
        false false =
      .ok { Path := "a.tar.gz", Format := .FormatJSON, GitBranch := "", StripComponents := 0 } ∧
    Format.FormatJSON = Format.FormatJSON :=
  ⟨rfl, (parseInputRef_format_override.1 specExternals ⟨"--input"⟩ "/dev/null" "a.tar.gz" "json"
    .FormatJSON rfl (by decide) (by decide) (by decide) rfl (by decide)).1
    { Path := "a.tar.gz", Format := .FormatJSON, GitBranch := "", StripComponents := 0 } rfl⟩

/-! ## `TrimLines` -/

theorem trimChars_idempotent (l : List Char) : trimChars (trimChars l) = trimChars l :=
  (trimChars_pad l (trimChars l) (pad_trimChars l)).symm

theorem trimChars_length_le (l : List Char) :
    (trimChars l).length ≤ (l.dropWhile isSpace).length := by
  unfold trimChars
  rw [List.length_reverse]
  exact ((List.dropWhile_sublist _).length_le).trans (by rw [List.length_reverse])

/-- A trimmed list that is not empty ends with a character that is not white
space. -/
theorem trimChars_last (l : List Char) (h : trimChars l ≠ []) :
    ∃ t0 b, trimChars l = t0 ++ [b] ∧ isSpace b = false := by
  unfold trimChars at h ⊢
  have hne : (l.dropWhile isSpace).reverse.dropWhile isSpace ≠ [] := by
    intro h0
    rw [h0] at h
    exact h rfl
  have hhead := List.head_dropWhile_not isSpace (l.dropWhile isSpace).reverse hne
  cases hD : (l.dropWhile isSpace).reverse.dropWhile isSpace with
  | nil => exact absurd hD hne
  | cons b D =>
    refine ⟨D.reverse, b, by simp, ?_⟩
    simp only [hD, List.head_cons] at hhead
    exact hhead

/-- A trimmed list that is not empty starts with a character that is not
white space. -/
theorem trimChars_head (l : List Char) (h : trimChars l ≠ []) :
    ∃ a t1, trimChars l = a :: t1 ∧ isSpace a = false := by
  cases ht : trimChars l with
  | nil => exact absurd ht h
  | cons a t1 =>
    refine ⟨a, t1, rfl, ?_⟩
    by_contra hsp
    have hsp' : isSpace a = true := by simpa using hsp
    have h1 := trimChars_length_le (trimChars l)
    rw [trimChars_idempotent, ht, List.dropWhile_cons_of_pos hsp'] at h1
    have h2 := (List.dropWhile_sublist isSpace (l := t1)).length_le
    simp only [List.length_cons] at h1
    omega

theorem noOuterSpace_trimChars (l : List Char) : noOuterSpace (trimChars l) := by
  by_cases h : trimChars l = []
  · rw [h]
    exact ⟨fun c hc => (by cases hc), fun c hc => (by cases hc)⟩
  · obtain ⟨a, t1, ha, hsa⟩ := trimChars_head l h
    obtain ⟨t0, b, hb, hsb⟩ := trimChars_last l h
    constructor
    · intro c hc
      rw [ha] at hc
      simp only [List.head?_cons, Option.some.injEq] at hc
      rw [← hc]; exact hsa
    · intro c hc
      rw [hb] at hc
      simp at hc
      rw [← hc]; exact hsb

theorem splitOn_not_mem (sep : Char) : ∀ (l : List Char), ∀ piece ∈ l.splitOn sep, sep ∉ piece
  | [], piece, hp => by
    simp only [List.splitOn_nil, List.mem_singleton] at hp
    rw [hp]
    simp
  | c :: l, piece, hp => by
    rw [splitOn_cons] at hp
    by_cases hc : c = sep
    · simp only [hc, if_true, List.mem_cons] at hp
      rcases hp with rfl | hp
      · simp
      · exact splitOn_not_mem sep l piece hp
    · simp only [hc, if_false] at hp
      have ih := splitOn_not_mem sep l
      generalize l.splitOn sep = X at hp ih
      cases X with
      | nil => simp [List.modifyHead] at hp
      | cons h rest =>
        simp only [List.modifyHead_cons, List.mem_cons] at hp
        rcases hp with rfl | hp
        · intro hmem
          rcases List.mem_cons.mp hmem with h1 | h1
          · exact hc h1.symm
          · exact ih h (List.mem_cons_self _ _) h1
        · exact ih piece (List.mem_cons_of_mem _ hp)

/-- The first piece of a list that starts with a character other than the
separator starts with that character. -/
theorem splitOn_first (sep a : Char) (ha : a ≠ sep) (l : List Char) :
    ∃ h rest, (a :: l).splitOn sep = (a :: h) :: rest := by
  rw [splitOn_cons]
  simp only [ha, if_false]
  have := splitOn_ne_nil sep l
  cases hX : l.splitOn sep with
  | nil => exact absurd hX this
  | cons h rest => exact ⟨h, rest, rfl⟩

/-- The last piece of a list that ends with a character other than the
separator ends with that character. -/
theorem splitOn_last (sep b : Char) (hb : b ≠ sep) : ∀ (l : List Char),
    ∃ init lst, (l ++ [b]).splitOn sep = init ++ [lst ++ [b]]
  | [] => by
    refine ⟨[], [], ?_⟩
    rw [List.nil_append, splitOn_cons]
    simp [hb, List.splitOn_nil, List.modifyHead]
  | c :: l => by
    obtain ⟨init, lst, ih⟩ := splitOn_last sep b hb l
    rw [List.cons_append, splitOn_cons, ih]
    by_cases hc : c = sep
    · simp only [hc, if_true]
      exact ⟨[] :: init, lst, rfl⟩
    · simp only [hc, if_false]
      cases init with
      | nil => exact ⟨[], c :: lst, rfl⟩
      | cons i0 init' => exact ⟨(c :: i0) :: init', lst, rfl⟩

theorem intercalate_cons_cons (sep : List Char) (a : Char) (h : List Char)
    (rest : List (List Char)) : ∃ Y, sep.intercalate ((a :: h) :: rest) = a :: Y := by
  cases rest with
  | nil => exact ⟨h, by simp [List.intercalate]⟩
  | cons r rest' => exact ⟨h ++ (sep ++ sep.intercalate (r :: rest')), by
      simp [List.intercalate]⟩

theorem intercalate_append_last (sep : List Char) (z : List Char) :
    ∀ A : List (List Char), ∃ Y, sep.intercalate (A ++ [z]) = Y ++ z
  | [] => ⟨[], by simp [List.intercalate]⟩
  | [a] => ⟨a ++ sep, by simp [List.intercalate]⟩
  | a :: a' :: A => by
    obtain ⟨Y, hY⟩ := intercalate_append_last sep z (a' :: A)
    refine ⟨a ++ (sep ++ Y), ?_⟩
    simp only [List.intercalate, List.cons_append, List.intersperse_cons₂, List.flatten_cons,
      List.append_assoc] at hY ⊢
    rw [hY]

theorem TrimLines_data (s : String) :
    (TrimLines s).data =
      trimChars (['\n'].intercalate (((trimChars s.data).splitOn '\n').map trimChars)) := by
  simp only [TrimLines, TrimSpace_eq, Join, Split, List.map_map]
  rfl

theorem isSpace_newline : isSpace '\n' = true := by decide

/-- The joined lines of `TrimLines` have no white space at their two ends, so
that the last `strings.TrimSpace` of `TrimLines` changes nothing. -/
theorem trimChars_joined (l : List Char) :
    trimChars (['\n'].intercalate (((trimChars l).splitOn '\n').map trimChars)) =
      ['\n'].intercalate (((trimChars l).splitOn '\n').map trimChars) := by
  by_cases h : trimChars l = []
  · rw [h]
    decide
  · obtain ⟨a, t1, ha, hsa⟩ := trimChars_head l h
    obtain ⟨t0, b, hb, hsb⟩ := trimChars_last l h
    have hane : a ≠ '\n' := by
      intro he; rw [he, isSpace_newline] at hsa; cases hsa
    have hbne : b ≠ '\n' := by
      intro he; rw [he, isSpace_newline] at hsb; cases hsb
    have hfirst : ∃ Y, ['\n'].intercalate (((trimChars l).splitOn '\n').map trimChars) =
        a :: Y := by
      obtain ⟨hd, rest, hsplit⟩ := splitOn_first '\n' a hane t1
      rw [ha, hsplit, List.map_cons]
      have : trimChars (a :: hd) = a :: (hd.reverse.dropWhile isSpace).reverse := by
        have := trimChars_append_cons [] hd a hsa
        simpa using this
      rw [this]
      exact intercalate_cons_cons _ _ _ _
    have hlast : ∃ Y, ['\n'].intercalate (((trimChars l).splitOn '\n').map trimChars) =
        Y ++ [b] := by
      obtain ⟨init, lst, hsplit⟩ := splitOn_last '\n' b hbne t0
      rw [hb, hsplit, List.map_append, List.map_singleton]
      have : trimChars (lst ++ [b]) = lst.dropWhile isSpace ++ [b] := by
        have := trimChars_append_cons lst [] b hsb
        simpa using this
      rw [this]
      obtain ⟨Y, hY⟩ := intercalate_append_last ['\n'] (lst.dropWhile isSpace ++ [b])
        (init.map trimChars)
      exact ⟨Y ++ lst.dropWhile isSpace, by rw [hY, List.append_assoc]⟩
    obtain ⟨Y1, h1⟩ := hfirst
    obtain ⟨Y2, h2⟩ := hlast
    generalize ['\n'].intercalate (((trimChars l).splitOn '\n').map trimChars) = J at h1 h2 ⊢
    unfold trimChars
    have hd : J.dropWhile isSpace = J := by
      rw [h1]
      exact List.dropWhile_cons_of_neg (by rw [hsa]; simp)
    rw [hd, h2]
    simp only [List.reverse_append, List.reverse_cons, List.reverse_nil, List.nil_append,
      List.singleton_append]
    rw [List.dropWhile_cons_of_neg (by rw [hsb]; simp)]
    simp

/-- C25: `TrimLines` trims every line and the whole. For every string `s`,
`TrimLines s` has no white space at its two ends; its lines, the pieces
between the line feeds, are the trimmed lines of the trimmed `s`, and each
has no white space at its two ends; and `TrimLines (TrimLines s)` is
`TrimLines s`. -/
theorem TrimLines_spec (s : String) :
    noOuterSpace (TrimLines s).data ∧
    (TrimLines s).data.splitOn '\n' =
      ((TrimSpace s).data.splitOn '\n').map (fun line => (TrimSpace ⟨line⟩).data) ∧
    (∀ line ∈ (TrimLines s).data.splitOn '\n', noOuterSpace line) ∧
    TrimLines (TrimLines s) = TrimLines s := by
  have hdata := TrimLines_data s
  have hjoin := trimChars_joined s.data
  have hlines : (TrimLines s).data.splitOn '\n' =
      ((trimChars s.data).splitOn '\n').map trimChars := by
    rw [hdata, hjoin]
    apply List.splitOn_intercalate
    · intro l hl
      obtain ⟨piece, hp, rfl⟩ := List.mem_map.mp hl
      intro hmem
      have hsub : '\n' ∈ piece := by
        unfold trimChars at hmem
        exact List.dropWhile_subset _
          (List.mem_reverse.mp (List.dropWhile_subset _ (List.mem_reverse.mp hmem)))
      exact splitOn_not_mem '\n' _ piece hp hsub
    · intro h
      exact splitOn_ne_nil '\n' (trimChars s.data) (List.map_eq_nil_iff.mp h)
  refine ⟨?_, ?_, ?_, ?_⟩
  · rw [hdata]
    exact noOuterSpace_trimChars _
  · rw [hlines]
    rfl
  · intro line hline
    rw [hlines] at hline
    obtain ⟨piece, _, rfl⟩ := List.mem_map.mp hline
    exact noOuterSpace_trimChars piece
  · apply String.ext
    rw [TrimLines_data (TrimLines s)]
    have htrim : trimChars (TrimLines s).data = (TrimLines s).data := by
      rw [hdata]
      exact trimChars_idempotent _
    rw [htrim, hlines, List.map_map]
    have hid : (trimChars ∘ trimChars) = trimChars := by
      funext l
      exact trimChars_idempotent l
    rw [hid, hdata]

/-! ## Snake case -/

set_option maxRecDepth 100000 in
theorem ascii_facts : ∀ n : Fin 128,
    (isDelimiter (Char.ofNat n).toLower = isDelimiter (Char.ofNat n)) ∧
    (isDelimiter (Char.ofNat n).toUpper = isDelimiter (Char.ofNat n)) ∧
    ((Char.ofNat n).toLower.isUpper = false) ∧
    ((Char.ofNat n).toUpper.isLower = false) ∧
    ((Char.ofNat n).toLower = '_' ↔ Char.ofNat n = '_') ∧
    ((Char.ofNat n).toUpper = '_' ↔ Char.ofNat n = '_') ∧
    ((Char.ofNat n).toLower.isDigit = (Char.ofNat n).isDigit) ∧
    ((Char.ofNat n).toUpper.isDigit = (Char.ofNat n).isDigit) ∧
    ((Char.ofNat n).isDigit = true →
      (Char.ofNat n).toLower = Char.ofNat n ∧ (Char.ofNat n).toUpper = Char.ofNat n ∧
      isDelimiter (Char.ofNat n) = false) ∧
    ((Char.ofNat n).isAlpha = true → isDelimiter (Char.ofNat n) = false) := by
  decide

theorem ascii_char (c : Char) (hc : c.toNat < 128) :
    (isDelimiter c.toLower = isDelimiter c) ∧
    (isDelimiter c.toUpper = isDelimiter c) ∧
    (c.toLower.isUpper = false) ∧
    (c.toUpper.isLower = false) ∧
    (c.toLower = '_' ↔ c = '_') ∧
    (c.toUpper = '_' ↔ c = '_') ∧
    (c.toLower.isDigit = c.isDigit) ∧
    (c.toUpper.isDigit = c.isDigit) ∧
    (c.isDigit = true → c.toLower = c ∧ c.toUpper = c ∧ isDelimiter c = false) ∧
    (c.isAlpha = true → isDelimiter c = false) := by
  have h := ascii_facts ⟨c.toNat, hc⟩
  simpa using h

theorem isDelimiter_underscore : isDelimiter '_' = true := by decide

theorem ne_underscore_of_not_delimiter (c : Char) (h : isDelimiter c = false) : c ≠ '_' := by
  intro he
  rw [he, isDelimiter_underscore] at h
  cases h

theorem not_delimiter_ne (c : Char) (h : isDelimiter c = false) :
    c ≠ '-' ∧ c ≠ ' ' ∧ c ≠ '\t' ∧ c ≠ '\n' ∧ c ≠ '\r' := by
  refine ⟨?_, ?_, ?_, ?_, ?_⟩ <;> (intro he; rw [he] at h; revert h; decide)

/-- One turn of the loop of `toSnakeCase`: the characters `X` it writes are
underscores or the character read, and a character that is not a delimiter is
written last. -/
theorem toSnakeCaseLoop_step (nw : Bool) (prev : Option Char) (c0 : Char)
    (rest out : List Char) :
    ∃ X, toSnakeCaseLoop nw prev (c0 :: rest) out = toSnakeCaseLoop nw (some c0) rest (out ++ X) ∧
      (∀ x ∈ X, x = '_' ∨ x = c0) ∧
      (isDelimiter c0 = false → ∃ Y, out ++ X = Y ++ [c0]) := by
  cases prev with
  | none =>
    refine ⟨[if isDelimiter c0 then '_' else c0], by simp [toSnakeCaseLoop], ?_, ?_⟩
    · intro x hx
      simp only [List.mem_singleton] at hx
      rw [hx]
      by_cases hd : isDelimiter c0 = true
      · simp [hd]
      · simp [hd]
    · intro hd
      exact ⟨out, by simp [hd]⟩
  | some p =>
    by_cases hd : isDelimiter c0 = true
    · by_cases h1 : (isSnakeCaseNewWord '_' nw && out.getLast? != some '_' &&
          (nextContinuesWord rest || (nw && Char.isDigit '_') || p.isLower)) = true
      · refine ⟨['_', '_'], by simp only [toSnakeCaseLoop, hd, if_true, h1], ?_, ?_⟩
        · intro x hx
          simp only [List.mem_cons, List.mem_singleton, List.not_mem_nil, or_false, or_self] at hx
          exact Or.inl hx
        · intro h; rw [hd] at h; cases h
      · by_cases h2 : (!(isDelimiter '_' && out.getLast? == some '_')) = true
        · refine ⟨['_'], by simp only [toSnakeCaseLoop, hd, if_true, h1, h2]; rfl, ?_, ?_⟩
          · intro x hx
            simp only [List.mem_singleton] at hx
            exact Or.inl hx
          · intro h; rw [hd] at h; cases h
        · refine ⟨[], by simp only [toSnakeCaseLoop, hd, if_true, h1, h2]; simp, ?_, ?_⟩
          · intro x hx; cases hx
          · intro h; rw [hd] at h; cases h
    · have hd' : isDelimiter c0 = false := by simpa using hd
      by_cases h1 : (isSnakeCaseNewWord c0 nw && out.getLast? != some '_' &&
          (nextContinuesWord rest || (nw && Char.isDigit c0) || p.isLower)) = true
      · refine ⟨['_', c0], by
          simp only [toSnakeCaseLoop, hd, Bool.false_eq_true, if_false, h1, if_true], ?_, ?_⟩
        · intro x hx
          simpa using hx
        · intro _
          exact ⟨out ++ ['_'], by simp⟩
      · refine ⟨[c0], by
          simp only [toSnakeCaseLoop, hd, Bool.false_eq_true, if_false, h1]
          simp [hd'], ?_, ?_⟩
        · intro x hx
          simp only [List.mem_singleton] at hx
          exact Or.inr hx
        · intro _
          exact ⟨out, rfl⟩

theorem isDigit_underscore : Char.isDigit '_' = false := by decide

theorem isSnakeCaseNewWord_underscore (nw : Bool) : isSnakeCaseNewWord '_' nw = false := by
  cases nw <;> decide

theorem toSnakeCaseLoop_step_shape (nw : Bool) (p c0 : Char) (rest out : List Char) :
    ∃ X, toSnakeCaseLoop nw (some p) (c0 :: rest) out =
        toSnakeCaseLoop nw (some c0) rest (out ++ X) ∧ StepShape nw out X := by
  by_cases hd : isDelimiter c0 = true
  · by_cases h2 : (!(isDelimiter '_' && out.getLast? == some '_')) = true
    · refine ⟨['_'], by
        simp only [toSnakeCaseLoop, hd, if_true, isSnakeCaseNewWord_underscore, Bool.false_and,
          Bool.false_eq_true, if_false, h2], Or.inr (Or.inl ⟨'_', rfl, Or.inl rfl, ?_, ?_⟩)⟩
      · intro _ hlast
        rw [hlast] at h2
        revert h2
        decide
      · intro _ hdig
        rw [isDigit_underscore] at hdig
        cases hdig
    · refine ⟨[], by
        simp only [toSnakeCaseLoop, hd, if_true, isSnakeCaseNewWord_underscore, Bool.false_and,
          Bool.false_eq_true, if_false, h2]
        simp, Or.inl rfl⟩
  · have hd' : isDelimiter c0 = false := by simpa using hd
    by_cases h1 : (isSnakeCaseNewWord c0 nw && out.getLast? != some '_' &&
        (nextContinuesWord rest || (nw && Char.isDigit c0) || p.isLower)) = true
    · refine ⟨['_', c0], by
        simp only [toSnakeCaseLoop, hd, Bool.false_eq_true, if_false, h1, if_true],
        Or.inr (Or.inr ⟨c0, rfl, hd', ?_⟩)⟩
      intro hlast
      rw [hlast] at h1
      simp at h1
    · refine ⟨[c0], by
        simp only [toSnakeCaseLoop, hd, Bool.false_eq_true, if_false, h1]
        simp [hd'], Or.inr (Or.inl ⟨c0, rfl, Or.inr hd', ?_, ?_⟩)⟩
      · intro he
        exact absurd he (ne_underscore_of_not_delimiter c0 hd')
      · intro hnw hdig
        by_contra hlast
        apply h1
        simp [isSnakeCaseNewWord, hnw, hdig, hlast]

theorem snakeInv_step (nw : Bool) (out X : List Char) (hinv : SnakeInv nw out)
    (hX : StepShape nw out X) : SnakeInv nw (out ++ X) := by
  obtain ⟨hmem, hchain, hdig⟩ := hinv
  rcases hX with rfl | ⟨c, rfl, hc, hlast, hcd⟩ | ⟨c, rfl, hc, hlast⟩
  · rw [List.append_nil]
    exact ⟨hmem, hchain, hdig⟩
  · refine ⟨?_, ?_, ?_⟩
    · intro x hx
      rcases List.mem_append.mp hx with hx | hx
      · exact hmem x hx
      · rw [List.mem_singleton.mp hx]
        exact hc
    · rw [List.chain'_append]
      refine ⟨hchain, List.chain'_singleton c, ?_⟩
      intro x hx y hy
      simp only [List.head?_cons, Option.mem_def, Option.some.injEq] at hy
      rintro ⟨rfl, hy'⟩
      exact hlast (hy.trans hy') hx
    · intro hnw
      rw [List.chain'_append]
      refine ⟨hdig hnw, List.chain'_singleton c, ?_⟩
      intro x hx y hy
      simp only [List.head?_cons, Option.mem_def, Option.some.injEq] at hy
      intro hyd
      rw [← hy] at hyd
      have := hcd hnw hyd
      rw [hx] at this
      exact Option.some.inj this
  · refine ⟨?_, ?_, ?_⟩
    · intro x hx
      rcases List.mem_append.mp hx with hx | hx
      · exact hmem x hx
      · simp only [List.mem_cons, List.mem_singleton, List.not_mem_nil, or_false] at hx
        rcases hx with rfl | rfl
        · exact Or.inl rfl
        · exact Or.inr hc
    · rw [List.chain'_append]
      refine ⟨hchain, ?_, ?_⟩
      · rw [List.chain'_cons]
        exact ⟨fun h => ne_underscore_of_not_delimiter c hc h.2, List.chain'_singleton c⟩
      · intro x hx y hy
        simp only [List.head?_cons, Option.mem_def, Option.some.injEq] at hy
        rintro ⟨rfl, _⟩
        exact hlast hx
    · intro hnw
      rw [List.chain'_append]
      refine ⟨hdig hnw, ?_, ?_⟩
      · rw [List.chain'_cons]
        exact ⟨fun _ => rfl, List.chain'_singleton c⟩
      · intro x hx y hy
        simp only [List.head?_cons, Option.mem_def, Option.some.injEq] at hy
        intro hyd
        rw [← hy, isDigit_underscore] at hyd
        cases hyd

theorem snakeInv_loop (nw : Bool) : ∀ (input : List Char) (p : Char) (out : List Char),
    SnakeInv nw out → SnakeInv nw (toSnakeCaseLoop nw (some p) input out)
  | [], p, out, h => by
    rw [toSnakeCaseLoop]
    exact h
  | c0 :: rest, p, out, h => by
    obtain ⟨X, hX, hshape⟩ := toSnakeCaseLoop_step_shape nw p c0 rest out
    rw [hX]
    exact snakeInv_loop nw rest c0 (out ++ X) (snakeInv_step nw out X h hshape)

/-- The loop of `toSnakeCase` only adds to its output. -/
theorem toSnakeCaseLoop_prefix (nw : Bool) : ∀ (input : List Char) (prev : Option Char)
    (out : List Char), ∃ Z, toSnakeCaseLoop nw prev input out = out ++ Z
  | [], prev, out => ⟨[], by rw [toSnakeCaseLoop, List.append_nil]⟩
  | c0 :: rest, prev, out => by
    obtain ⟨X, hX, _, _⟩ := toSnakeCaseLoop_step nw prev c0 rest out
    obtain ⟨Z, hZ⟩ := toSnakeCaseLoop_prefix nw rest (some c0) (out ++ X)
    exact ⟨X ++ Z, by rw [hX, hZ, List.append_assoc]⟩

/-- Every character of the output of the loop of `toSnakeCase` is an
underscore or comes from the output so far or from the input. -/
theorem toSnakeCaseLoop_mem (nw : Bool) : ∀ (input : List Char) (prev : Option Char)
    (out : List Char), ∀ x ∈ toSnakeCaseLoop nw prev input out, x = '_' ∨ x ∈ out ∨ x ∈ input
  | [], prev, out, x, hx => by
    rw [toSnakeCaseLoop] at hx
    exact Or.inr (Or.inl hx)
  | c0 :: rest, prev, out, x, hx => by
    obtain ⟨X, hX, hmem, _⟩ := toSnakeCaseLoop_step nw prev c0 rest out
    rw [hX] at hx
    rcases toSnakeCaseLoop_mem nw rest (some c0) (out ++ X) x hx with h | h | h
    · exact Or.inl h
    · rcases List.mem_append.mp h with h | h
      · exact Or.inr (Or.inl h)
      · rcases hmem x h with h | h
        · exact Or.inl h
        · exact Or.inr (Or.inr (by rw [h]; exact List.mem_cons_self _ _))
    · exact Or.inr (Or.inr (List.mem_cons_of_mem _ h))

/-- The loop of `toSnakeCase` ends its output with the last character of an
input that ends with a character that is not a delimiter. -/
theorem toSnakeCaseLoop_last (nw : Bool) (b : Char) (hb : isDelimiter b = false) :
    ∀ (init : List Char) (prev : Option Char) (out : List Char),
      ∃ Y, toSnakeCaseLoop nw prev (init ++ [b]) out = Y ++ [b]
  | [], prev, out => by
    obtain ⟨X, hX, _, hlast⟩ := toSnakeCaseLoop_step nw prev b [] out
    obtain ⟨Y, hY⟩ := hlast hb
    exact ⟨Y, by rw [List.nil_append, hX, toSnakeCaseLoop, hY]⟩
  | c0 :: init, prev, out => by
    obtain ⟨X, hX, _, _⟩ := toSnakeCaseLoop_step nw prev c0 (init ++ [b]) out
    obtain ⟨Y, hY⟩ := toSnakeCaseLoop_last nw b hb init (some c0) (out ++ X)
    exact ⟨Y, by rw [List.cons_append, hX, hY]⟩

/-- With the option `SnakeCaseWithNewWordOnDigits`, a digit of the input
that follows a character `l` that is no delimiter is written as `l`, an
underscore and the digit. -/
theorem toSnakeCaseLoop_digit (l d : Char) (hl : isDelimiter l = false)
    (hd : isDelimiter d = false) (hdig : d.isDigit = true) (post : List Char) :
    ∀ (pre : List Char) (prev : Option Char) (out : List Char),
      ∃ o1 o2, toSnakeCaseLoop true prev (pre ++ l :: d :: post) out = o1 ++ l :: '_' :: d :: o2
  | [], prev, out => by
    obtain ⟨X, hX, _, hlast⟩ := toSnakeCaseLoop_step true prev l (d :: post) out
    obtain ⟨Y, hY⟩ := hlast hl
    have hne : (Y ++ [l]).getLast? ≠ some '_' := by
      simp only [List.getLast?_append, List.getLast?_singleton, Option.or_some]
      intro h
      exact ne_underscore_of_not_delimiter l hl (by simpa using h)
    have hstep : toSnakeCaseLoop true (some l) (d :: post) (Y ++ [l]) =
        toSnakeCaseLoop true (some d) post ((Y ++ [l]) ++ ['_', d]) := by
      have hd0 : ¬ isDelimiter d = true := by simp [hd]
      have hcond : (isSnakeCaseNewWord d true && (Y ++ [l]).getLast? != some '_' &&
          (nextContinuesWord post || (true && Char.isDigit d) || l.isLower)) = true := by
        have hne' : ((Y ++ [l]).getLast? != some '_') = true := by
          simpa using hne
        rw [hne']
        simp [isSnakeCaseNewWord, hdig]
      simp only [toSnakeCaseLoop, hd0, Bool.false_eq_true, if_false, hcond, if_true]
    obtain ⟨Z, hZ⟩ := toSnakeCaseLoop_prefix true post (some d) ((Y ++ [l]) ++ ['_', d])
    exact ⟨Y, Z, by rw [List.nil_append, hX, hY, hstep, hZ]; simp⟩
  | c0 :: pre, prev, out => by
    obtain ⟨X, hX, _, _⟩ := toSnakeCaseLoop_step true prev c0 (pre ++ l :: d :: post) out
    obtain ⟨o1, o2, h⟩ := toSnakeCaseLoop_digit l d hl hd hdig post pre (some c0) (out ++ X)
    exact ⟨o1, o2, by rw [List.cons_append, hX, h]⟩

theorem TrimFunc_subset (f : Char → Bool) (l : List Char) : ∀ x ∈ TrimFunc l f, x ∈ l := by
  intro x hx
  unfold TrimFunc at hx
  exact List.dropWhile_subset _
    (List.mem_reverse.mp (List.dropWhile_subset _ (List.mem_reverse.mp hx)))

theorem TrimFunc_last (f : Char → Bool) (l : List Char) (h : TrimFunc l f ≠ []) :
    ∃ t0 b, TrimFunc l f = t0 ++ [b] ∧ f b = false := by
  unfold TrimFunc at h ⊢
  have hne : (l.dropWhile f).reverse.dropWhile f ≠ [] := by
    intro h0
    rw [h0] at h
    exact h rfl
  have hhead := List.head_dropWhile_not f (l.dropWhile f).reverse hne
  cases hD : (l.dropWhile f).reverse.dropWhile f with
  | nil => exact absurd hD hne
  | cons b D =>
    refine ⟨D.reverse, b, by simp, ?_⟩
    simp only [hD, List.head_cons] at hhead
    exact hhead

theorem TrimFunc_head (f : Char → Bool) (l : List Char) (a : Char) (t1 : List Char)
    (h : TrimFunc l f = a :: t1) : f a = false := by
  have hsplit : l.dropWhile f = TrimFunc l f ++ ((l.dropWhile f).reverse.takeWhile f).reverse := by
    have := congrArg List.reverse (List.takeWhile_append_dropWhile f (l.dropWhile f).reverse)
    rw [List.reverse_append, List.reverse_reverse] at this
    exact this.symm
  rw [h] at hsplit
  have hne : l.dropWhile f ≠ [] := by
    rw [hsplit]
    simp
  have hhead := List.head_dropWhile_not f l hne
  have hhd : ∀ (X R : List Char) (hX : X ≠ []), X = a :: t1 ++ R → X.head hX = a := by
    intro X R hX he
    subst he
    rfl
  rw [hhd _ _ hne hsplit] at hhead
  exact hhead

theorem dropWhile_append_cons_of (f : Char → Bool) (a b : List Char) (c : Char)
    (hc : f c = false) : (a ++ c :: b).dropWhile f = a.dropWhile f ++ c :: b := by
  induction a with
  | nil => simp [List.dropWhile, hc]
  | cons h t ih =>
    by_cases hh : f h = true
    · simp only [List.cons_append, List.dropWhile_cons_of_pos hh, ih]
    · simp only [List.cons_append, List.dropWhile_cons_of_neg hh]

theorem TrimFunc_append_cons (f : Char → Bool) (a b : List Char) (c : Char) (hc : f c = false) :
    TrimFunc (a ++ c :: b) f = a.dropWhile f ++ c :: (b.reverse.dropWhile f).reverse := by
  unfold TrimFunc
  rw [dropWhile_append_cons_of f a b c hc]
  have : (a.dropWhile f ++ c :: b).reverse = b.reverse ++ c :: (a.dropWhile f).reverse := by simp
  rw [this, dropWhile_append_cons_of f _ _ c hc]
  simp

theorem TrimFunc_append_pair (f : Char → Bool) (a b : List Char) (l d : Char)
    (hl : f l = false) (hd : f d = false) :
    TrimFunc (a ++ l :: d :: b) f =
      a.dropWhile f ++ l :: d :: (b.reverse.dropWhile f).reverse := by
  rw [TrimFunc_append_cons f a (d :: b) l hl, List.reverse_cons,
    dropWhile_append_cons_of f b.reverse [] d hd]
  simp

/-- The output of `toSnakeCase` on an ASCII string: it is ASCII, it keeps
the invariant of the loop, and it is empty or begins and ends with a
character that is no delimiter. -/
theorem toSnakeCase_props (s : String) (nw : Bool) (hascii : ∀ c ∈ s.data, c.toNat < 128) :
    (∀ x ∈ (toSnakeCase s nw).data, x.toNat < 128) ∧ SnakeInv nw (toSnakeCase s nw).data ∧
    ((toSnakeCase s nw).data = [] ∨
      ∃ a b Z Y, (toSnakeCase s nw).data = a :: Z ∧ (toSnakeCase s nw).data = Y ++ [b] ∧
        isDelimiter a = false ∧ isDelimiter b = false) := by
  unfold toSnakeCase
  simp only
  refine ⟨?_, ?_⟩
  · intro x hx
    rcases toSnakeCaseLoop_mem nw _ none [] x hx with h | h | h
    · rw [h]; decide
    · cases h
    · exact hascii x (TrimFunc_subset isDelimiter s.data x h)
  · cases ht : TrimFunc s.data isDelimiter with
    | nil =>
      rw [toSnakeCaseLoop]
      exact ⟨⟨fun x hx => (by cases hx), List.chain'_nil, fun _ => List.chain'_nil⟩, Or.inl rfl⟩
    | cons a t1 =>
      have ha := TrimFunc_head isDelimiter s.data a t1 ht
      have ha0 : ¬ isDelimiter a = true := by simp [ha]
      have hfirst : toSnakeCaseLoop nw none (a :: t1) [] = toSnakeCaseLoop nw (some a) t1 [a] := by
        simp only [toSnakeCaseLoop, ha0, Bool.false_eq_true, if_false, List.nil_append]
      have hinv : SnakeInv nw [a] := by
        refine ⟨?_, List.chain'_singleton a, fun _ => List.chain'_singleton a⟩
        intro x hx
        rw [List.mem_singleton.mp hx]
        exact Or.inr ha
      refine ⟨?_, Or.inr ?_⟩
      · rw [hfirst]
        exact snakeInv_loop nw t1 a [a] hinv
      · obtain ⟨t0, b, hb, hbd⟩ := TrimFunc_last isDelimiter s.data (by rw [ht]; simp)
        obtain ⟨Z, hZ⟩ := toSnakeCaseLoop_prefix nw t1 (some a) [a]
        obtain ⟨Y, hY⟩ := toSnakeCaseLoop_last nw b hbd t0 none []
        rw [ht] at hb
        rw [← hb] at hY
        exact ⟨a, b, Z, Y, by rw [hfirst, hZ]; rfl, hY, ha, hbd⟩

theorem chain_no_double (l : List Char) (h : List.Chain' noDouble l) :
    ∀ A B, l ≠ A ++ '_' :: '_' :: B := by
  intro A B he
  rw [he, List.chain'_append] at h
  exact (List.chain'_cons.mp h.2.1).1 ⟨rfl, rfl⟩

theorem chain_digit (l : List Char) (h : List.Chain' digitRel l) : digitsStartWords l := by
  intro A B x d he hd
  rw [he, List.chain'_append] at h
  exact (List.chain'_cons.mp h.2.1).1 hd

/-- The map of an ASCII case change over an output of `toSnakeCase` is well
delimited. -/
theorem wellDelimited_map (f : Char → Char) (nw : Bool) (o : List Char)
    (hf1 : ∀ c, c.toNat < 128 → isDelimiter (f c) = isDelimiter c)
    (hf2 : ∀ c, c.toNat < 128 → (f c = '_' ↔ c = '_'))
    (hasc : ∀ x ∈ o, x.toNat < 128) (hinv : SnakeInv nw o)
    (hends : o = [] ∨ ∃ a b Z Y, o = a :: Z ∧ o = Y ++ [b] ∧
        isDelimiter a = false ∧ isDelimiter b = false) :
    wellDelimited (o.map f) := by
  obtain ⟨hmem, hchain, _⟩ := hinv
  refine ⟨?_, ?_, ?_, ?_⟩
  · intro c hc
    obtain ⟨y, hy, rfl⟩ := List.mem_map.mp hc
    rcases hmem y hy with h | h
    · rw [(hf2 y (hasc y hy)).mpr h]
      decide
    · apply not_delimiter_ne
      rw [hf1 y (hasc y hy)]
      exact h
  · apply chain_no_double
    rw [List.chain'_map]
    refine (List.Chain'.iff_mem.mp hchain).imp ?_
    rintro a b ⟨ha, hb, hab⟩ ⟨h1, h2⟩
    exact hab ⟨(hf2 a (hasc a ha)).mp h1, (hf2 b (hasc b hb)).mp h2⟩
  · rcases hends with h | ⟨a, b, Z, Y, h1, h2, ha, hb⟩
    · rw [h]
      simp
    · have hmema : a ∈ o := by rw [h1]; exact List.mem_cons_self _ _
      rw [h1, List.map_cons, List.head?_cons]
      intro he
      have := (hf2 a (hasc a hmema)).mp (Option.some.inj he)
      exact ne_underscore_of_not_delimiter a ha this
  · rcases hends with h | ⟨a, b, Z, Y, h1, h2, ha, hb⟩
    · rw [h]
      simp
    · have hmemb : b ∈ o := by rw [h2]; simp
      rw [h2, List.map_append, List.map_singleton]
      intro he
      simp only [List.getLast?_append, List.getLast?_singleton, Option.or_some,
        Option.some.injEq] at he
      have := (hf2 b (hasc b hmemb)).mp he
      exact ne_underscore_of_not_delimiter b hb this

theorem digitsStartWords_map (f : Char → Char) (o : List Char)
    (hf2 : ∀ c, c.toNat < 128 → (f c = '_' ↔ c = '_'))
    (hf3 : ∀ c, c.toNat < 128 → (f c).isDigit = c.isDigit)
    (hasc : ∀ x ∈ o, x.toNat < 128) (hinv : SnakeInv true o) :
    digitsStartWords (o.map f) := by
  apply chain_digit
  rw [List.chain'_map]
  refine (List.Chain'.iff_mem.mp (hinv.2.2 rfl)).imp ?_
  rintro a b ⟨ha, hb, hab⟩ hd
  rw [hf3 b (hasc b hb)] at hd
  exact (hf2 a (hasc a ha)).mpr (hab hd)

/-- C29: snake-case output is well delimited. For every ASCII string `s` and
either setting of the option, `ToLowerSnakeCase s` and `ToUpperSnakeCase s`
hold none of the delimiters `-`, space, tab, line feed and carriage return,
hold no two neighbouring underscores, and neither begin nor end with an
underscore; `ToLowerSnakeCase s` holds no upper-case letter and
`ToUpperSnakeCase s` no lower-case letter; and with
`SnakeCaseWithNewWordOnDigits` every digit of the output that is not its
first character comes right after an underscore, and a digit `d` that
follows a letter `l` in `s` is written as `l`, an underscore and `d`:
`fooBar1` gives `foo_bar_1`, and `foo_bar1` without the option. -/
theorem snakeCase_well_delimited (s : String) (nw : Bool)
    (hascii : ∀ c ∈ s.data, c.toNat < 128) :
    wellDelimited (ToLowerSnakeCase s nw).data ∧ wellDelimited (ToUpperSnakeCase s nw).data ∧
    (∀ c ∈ (ToLowerSnakeCase s nw).data, c.isUpper = false) ∧
    (∀ c ∈ (ToUpperSnakeCase s nw).data, c.isLower = false) ∧
    digitsStartWords (ToLowerSnakeCase s true).data ∧
    digitsStartWords (ToUpperSnakeCase s true).data ∧
    (∀ pre post l d, s.data = pre ++ l :: d :: post → l.isAlpha = true → d.isDigit = true →
      (∃ o1 o2, (ToLowerSnakeCase s true).data = o1 ++ l.toLower :: '_' :: d :: o2) ∧
      (∃ o1 o2, (ToUpperSnakeCase s true).data = o1 ++ l.toUpper :: '_' :: d :: o2)) ∧
    ToLowerSnakeCase "fooBar1" true = "foo_bar_1" ∧
    ToLowerSnakeCase "fooBar1" false = "foo_bar1" := by
  obtain ⟨hasc, hinv, hends⟩ := toSnakeCase_props s nw hascii
  obtain ⟨hascT, hinvT, _⟩ := toSnakeCase_props s true hascii
  have hL1 : ∀ c : Char, c.toNat < 128 → isDelimiter c.toLower = isDelimiter c :=
    fun c hc => (ascii_char c hc).1
  have hU1 : ∀ c : Char, c.toNat < 128 → isDelimiter c.toUpper = isDelimiter c :=
    fun c hc => (ascii_char c hc).2.1
  have hL2 : ∀ c : Char, c.toNat < 128 → (c.toLower = '_' ↔ c = '_') :=
    fun c hc => (ascii_char c hc).2.2.2.2.1
  have hU2 : ∀ c : Char, c.toNat < 128 → (c.toUpper = '_' ↔ c = '_') :=
    fun c hc => (ascii_char c hc).2.2.2.2.2.1
  have hL3 : ∀ c : Char, c.toNat < 128 → c.toLower.isDigit = c.isDigit :=
    fun c hc => (ascii_char c hc).2.2.2.2.2.2.1
  have hU3 : ∀ c : Char, c.toNat < 128 → c.toUpper.isDigit = c.isDigit :=
    fun c hc => (ascii_char c hc).2.2.2.2.2.2.2.1
  refine ⟨wellDelimited_map Char.toLower nw _ hL1 hL2 hasc hinv hends,
    wellDelimited_map Char.toUpper nw _ hU1 hU2 hasc hinv hends, ?_, ?_,
    digitsStartWords_map Char.toLower _ hL2 hL3 hascT hinvT,
    digitsStartWords_map Char.toUpper _ hU2 hU3 hascT hinvT, ?_, rfl, rfl⟩
  · intro c hc
    obtain ⟨y, hy, rfl⟩ := List.mem_map.mp hc
    exact (ascii_char y (hasc y hy)).2.2.1
  · intro c hc
    obtain ⟨y, hy, rfl⟩ := List.mem_map.mp hc
    exact (ascii_char y (hasc y hy)).2.2.2.1
  · intro pre post l d hs hl hd
    have hlm : l ∈ s.data := by rw [hs]; simp
    have hdm : d ∈ s.data := by rw [hs]; simp
    have hld : isDelimiter l = false := (ascii_char l (hascii l hlm)).2.2.2.2.2.2.2.2.2 hl
    have hdf := (ascii_char d (hascii d hdm)).2.2.2.2.2.2.2.2.1 hd
    obtain ⟨o1, o2, ho⟩ := toSnakeCaseLoop_digit l d hld hdf.2.2 hd
      ((post.reverse.dropWhile isDelimiter).reverse) (pre.dropWhile isDelimiter) none []
    have hdata : (toSnakeCase s true).data = o1 ++ l :: '_' :: d :: o2 := by
      unfold toSnakeCase
      simp only
      rw [hs, TrimFunc_append_pair isDelimiter pre post l d hld hdf.2.2, ho]
    constructor
    · refine ⟨o1.map Char.toLower, o2.map Char.toLower, ?_⟩
      unfold ToLowerSnakeCase
      simp only
      rw [hdata, List.map_append, List.map_cons, List.map_cons, List.map_cons, hdf.1]
      rfl
    · refine ⟨o1.map Char.toUpper, o2.map Char.toUpper, ?_⟩
      unfold ToUpperSnakeCase
      simp only
      rw [hdata, List.map_append, List.map_cons, List.map_cons, List.map_cons, hdf.2.1]
      rfl

theorem snakeCase_well_delimited_witness :
    (∀ c ∈ "foo-Bar 1x".data, c.toNat < 128) ∧
    wellDelimited (ToLowerSnakeCase "foo-Bar 1x" true).data ∧
    digitsStartWords (ToUpperSnakeCase "foo-Bar 1x" true).data :=
  ⟨by decide, (snakeCase_well_delimited "foo-Bar 1x" true (by decide)).1,
    (snakeCase_well_delimited "foo-Bar 1x" true (by decide)).2.2.2.2.2.1⟩


/-! ## The branch option and the git format -/

theorem applyInputRefOptionsLoop_format (x : Externals) (i : inputRefParser)
    (options : String) :
    ∀ (pairs : List String) (ref r : InputRef),
      i.applyInputRefOptionsLoop x options ref pairs = .ok r →
      (∀ pair ∈ pairs, ∀ k rest, pair.data.splitOn '=' = k :: rest →
        TrimSpace ⟨k⟩ ≠ "format") →
      r.Format = ref.Format
  | [], ref, r, h, _ => by
    simp only [inputRefParser.applyInputRefOptionsLoop, Except.ok.injEq] at h
    rw [h]
  | a :: rest, ref, r, h, hno => by
    simp only [inputRefParser.applyInputRefOptionsLoop] at h
    cases ha : i.applyInputRefOption x ref options a with
    | error e => rw [ha] at h; cases h
    | ok ref' =>
      rw [ha] at h
      simp only at h
      have ih := applyInputRefOptionsLoop_format x i options rest ref' r h
        (fun pair hp => hno pair (List.mem_cons_of_mem _ hp))
      rw [ih]
      obtain ⟨k, v, hkv, _, _, hcase⟩ := applyInputRefOption_ok x i ref ref' options a ha
      have hnf := hno a (List.mem_cons_self _ _) k [v] hkv
      rcases hcase with ⟨hf, _⟩ | ⟨_, rfl⟩ | ⟨_, _, _, rfl⟩
      · exact absurd hf hnf
      · rfl
      · rfl

/-- A successful loop of `applyInputRefOptions` over pairs one of which has
the key `branch` leaves a branch that is not empty. -/
theorem applyInputRefOptionsLoop_branch_set (x : Externals) (i : inputRefParser)
    (options : String) :
    ∀ (pairs : List String) (ref r : InputRef),
      i.applyInputRefOptionsLoop x options ref pairs = .ok r →
      (∃ pair ∈ pairs, ∃ k rest, pair.data.splitOn '=' = k :: rest ∧
        TrimSpace ⟨k⟩ = "branch") →
      r.GitBranch ≠ ""
  | [], ref, r, h, hex => by
    obtain ⟨pair, hp, _⟩ := hex
    cases hp
  | a :: rest, ref, r, h, hex => by
    simp only [inputRefParser.applyInputRefOptionsLoop] at h
    cases ha : i.applyInputRefOption x ref options a with
    | error e => rw [ha] at h; cases h
    | ok ref' =>
      rw [ha] at h
      simp only at h
      by_cases hrest : ∃ pair ∈ rest, ∃ k rest', pair.data.splitOn '=' = k :: rest' ∧
          TrimSpace ⟨k⟩ = "branch"
      · exact applyInputRefOptionsLoop_branch_set x i options rest ref' r h hrest
      · have hkeep := applyInputRefOptionsLoop_branch x i options rest ref' r h
          (fun pair hp k rest' hk hb => hrest ⟨pair, hp, k, rest', hk, hb⟩)
        rw [hkeep]
        obtain ⟨pair, hp, k, rest', hk, hb⟩ := hex
        rcases List.mem_cons.mp hp with rfl | hp'
        · obtain ⟨k', v', hkv, _, hvne, hcase⟩ :=
            applyInputRefOption_ok x i ref ref' options pair ha
          rw [hkv] at hk
          have hkk : k' = k := (List.cons.inj hk).1
          rw [hkk] at hcase
          rcases hcase with ⟨hf, _⟩ | ⟨_, rfl⟩ | ⟨hs, _⟩
          · rw [hb] at hf
            exact absurd hf (by decide)
          · exact hvne
          · rw [hb] at hs
            exact absurd hs (by decide)
        · exact absurd ⟨pair, hp', k, rest', hk, hb⟩ hrest

/-- The key of a pair of the parser is, white space apart, the key of a pair
as written. -/
theorem pad_key_right (raws trs : List (List Char)) (hpad : List.Forall₂ Pad raws trs)
    (pair : String) (hp : pair ∈ trs.map String.mk) (k : List Char) (rest : List (List Char))
    (hk : pair.data.splitOn '=' = k :: rest) :
    ∃ raw ∈ raws, ∃ k' rest', raw.splitOn '=' = k' :: rest' ∧
      TrimSpace ⟨k'⟩ = TrimSpace ⟨k⟩ := by
  obtain ⟨q, hq, rfl⟩ := List.mem_map.mp hp
  obtain ⟨raw, hraw, hpq⟩ := forall₂_exists_right hpad.flip q hq
  have hpp := pad_pair raw q hpq
  simp only at hk
  rw [hk] at hpp
  generalize hL : raw.splitOn '=' = L at hpp
  cases hpp with
  | cons h1 _ => exact ⟨raw, hraw, _, _, hL, h1⟩

/-- The key of a pair as written is, white space apart, the key of a pair of
the parser. -/
theorem pad_key_left (raws trs : List (List Char)) (hpad : List.Forall₂ Pad raws trs)
    (raw : List Char) (hraw : raw ∈ raws) (k : List Char) (rest : List (List Char))
    (hk : raw.splitOn '=' = k :: rest) :
    ∃ pair ∈ trs.map String.mk, ∃ k' rest', pair.data.splitOn '=' = k' :: rest' ∧
      TrimSpace ⟨k'⟩ = TrimSpace ⟨k⟩ := by
  obtain ⟨tr, htr, hpt⟩ := forall₂_exists_right hpad raw hraw
  have hpp := pad_pair raw tr hpt
  rw [hk] at hpp
  generalize hL : tr.splitOn '=' = L at hpp
  cases hpp with
  | cons h1 _ => exact ⟨⟨tr⟩, List.mem_map_of_mem _ htr, _, _, hL, h1.symm⟩

/-- A successful `ParseInputRef` of a value with a `#`, with the format: the
result has the branch that the loop of `applyInputRefOptions` left, and the
format that the loop left or, when it left none, the format of the path. -/
theorem ParseInputRef_ok_options_format (x : Externals) (i : inputRefParser) (value : String)
    (onlySources onlyImages : Bool) (r : InputRef)
    (h : i.ParseInputRef x value onlySources onlyImages = .ok r)
    (P O : List Char) (hv : value.data = P ++ '#' :: O) :
    ∃ trs : List (List Char), List.Forall₂ Pad (O.splitOn ',') trs ∧
      ∃ r1, i.applyInputRefOptionsLoop x (TrimSpace ⟨O⟩)
          { Path := TrimSpace ⟨P⟩, Format := .unset, GitBranch := "", StripComponents := 0 }
          (trs.map String.mk) = .ok r1 ∧
        r.GitBranch = r1.GitBranch ∧
        ((r1.Format = .unset ∧ i.parseFormatFromPath x (TrimSpace ⟨P⟩) = .ok r.Format) ∨
          (r1.Format ≠ .unset ∧ r.Format = r1.Format)) := by
  obtain ⟨_, path, options, r1, r0, hs, ha, hr0, hc⟩ :=
    ParseInputRef_ok_parts x i value onlySources onlyImages r h
  obtain ⟨hP, hO, _⟩ := ParseInputRef_ok_options x i value onlySources onlyImages r h P O hv
  rw [splitValue_one_hash i value P O hv hP hO] at hs
  split_ifs at hs with h1 h2
  simp only [Except.ok.injEq, Prod.mk.injEq] at hs
  obtain ⟨hpath, hopt⟩ := hs
  subst hpath
  subst hopt
  refine ⟨(trimChars O).splitOn ',', splitOn_pad ',' isSpace_comma O _ (pad_trimChars O), r1, ?_,
    ?_⟩
  · unfold inputRefParser.applyInputRefOptions at ha
    rw [if_neg h2] at ha
    exact ha
  · have hrr := (checkInputRef_ok i _ _ _ _ _ r0 r hc).1
    rcases hr0 with ⟨hu, f, hf, rfl⟩ | ⟨hn, rfl⟩
    · rw [hrr]
      exact ⟨rfl, Or.inl ⟨hu, hf⟩⟩
    · rw [hrr]
      exact ⟨rfl, Or.inr ⟨hn, rfl⟩⟩

/-- A parse that succeeds under a flag succeeds without flags with the same
result. -/
theorem ParseInputRef_unrestricted (x : Externals) (i : inputRefParser) (value : String)
    (onlySources onlyImages : Bool) (r : InputRef)
    (h : i.ParseInputRef x value onlySources onlyImages = .ok r) :
    i.ParseInputRef x value false false = .ok r := by
  have hno : ¬ (onlySources = true ∧ onlyImages = true) := by
    intro hboth
    simp only [inputRefParser.ParseInputRef, hboth, and_self, if_true] at h
    cases h
  have hff : ¬ ((false = true) ∧ (false = true)) := by simp
  rcases ParseInputRef_cases x i value with ⟨e, he⟩ | ⟨v, p, o, r0, hr⟩
  · rw [he _ _ hno] at h
    cases h
  · rw [hr _ _ hno] at h
    rw [hr _ _ hff]
    exact ((checkInputRef_flags i v p o onlySources onlyImages r0 r).mp h).1

theorem ParseInputRef_error_of_both (x : Externals) (i : inputRefParser) (value : String)
    (onlySources onlyImages : Bool) (hboth : onlySources = true ∧ onlyImages = true) :
    ∃ e, i.ParseInputRef x value onlySources onlyImages = .error e :=
  ⟨.Internal "onlySources and onlyImages both set", by
    simp only [inputRefParser.ParseInputRef, hboth, and_self, if_true]⟩

theorem parseFormatFromPath_empty (x : Externals) (i : inputRefParser) :
    i.parseFormatFromPath x "" ≠ .ok .FormatGit := by
  unfold inputRefParser.parseFormatFromPath
  cases x.DevNull with
  | error e => intro h; cases h
  | ok devNull =>
    simp only
    have hext : Ext "" = "" := by decide
    by_cases hd : ("" : String) = "-" ∨ "" = devNull
    · rw [if_pos hd]
      intro h
      cases h
    · rw [if_neg hd]
      have e1 : ¬ ("" : String) = ".bin" := by decide
      have e2 : ¬ ("" : String) = ".json" := by decide
      have e3 : ¬ ("" : String) = ".tar" := by decide
      have e4 : ¬ ("" : String) = ".gz" := by decide
      have e5 : ¬ ("" : String) = ".tgz" := by decide
      have e6 : ¬ ("" : String) = ".git" := by decide
      simp only [hext, e1, e2, e3, e4, e5, e6, if_false]
      intro h
      cases h

/-- The parse of a value without `#`: the format is the format of the path,
which is the trimmed value, and no option is applied. -/
theorem ParseInputRef_no_hash (x : Externals) (i : inputRefParser) (value : String)
    (onlySources onlyImages : Bool) (hno : ¬ (onlySources = true ∧ onlyImages = true))
    (hhash : '#' ∉ value.data) (hv : TrimSpace value ≠ "") :
    i.ParseInputRef x value onlySources onlyImages =
      match i.parseFormatFromPath x (TrimSpace value) with
      | .error err => .error err
      | .ok format =>
        i.checkInputRef (TrimSpace value) (TrimSpace value) "" onlySources onlyImages
          { Path := TrimSpace value, Format := format, GitBranch := "", StripComponents := 0 } := by
  have hmem : '#' ∉ (TrimSpace value).data := by
    intro hm
    apply hhash
    unfold TrimSpace at hm
    exact List.dropWhile_subset _
      (List.mem_reverse.mp (List.dropWhile_subset _ (List.mem_reverse.mp hm)))
  have hs : i.splitValue (TrimSpace value) = .ok (TrimSpace value, "") := by
    unfold inputRefParser.splitValue Split
    rw [splitOn_single '#' _ hmem]
    rfl
  simp only [inputRefParser.ParseInputRef, hno, if_false, hv, hs,
    inputRefParser.applyInputRefOptions, if_true]

/-- A value without a branch option that parses has no branch. -/
theorem ParseInputRef_no_branch (x : Externals) (i : inputRefParser) (value : String)
    (onlySources onlyImages : Bool) (r : InputRef)
    (h : i.ParseInputRef x value onlySources onlyImages = .ok r)
    (P O : List Char) (hv : value.data = P ++ '#' :: O)
    (hnb : ∀ pair ∈ O.splitOn ',', ∀ k rest, pair.splitOn '=' = k :: rest →
      TrimSpace ⟨k⟩ ≠ "branch") :
    r.GitBranch = "" := by
  obtain ⟨trs, hpad, r1, hloop, hb, _⟩ :=
    ParseInputRef_ok_options_format x i value onlySources onlyImages r h P O hv
  rw [hb]
  apply applyInputRefOptionsLoop_branch x i _ _ _ _ hloop
  intro pair hp k rest hk
  obtain ⟨raw, hraw, k', rest', hk', heq⟩ := pad_key_right _ _ hpad pair hp k rest hk
  rw [← heq]
  exact hnb raw hraw k' rest' hk'

/-- A value with a branch option that parses has a branch. -/
theorem ParseInputRef_has_branch (x : Externals) (i : inputRefParser) (value : String)
    (onlySources onlyImages : Bool) (r : InputRef)
    (h : i.ParseInputRef x value onlySources onlyImages = .ok r)
    (P O : List Char) (hv : value.data = P ++ '#' :: O)
    (hb : ∃ pair ∈ O.splitOn ',', ∃ k rest, pair.splitOn '=' = k :: rest ∧
      TrimSpace ⟨k⟩ = "branch") :
    r.GitBranch ≠ "" := by
  obtain ⟨trs, hpad, r1, hloop, hbr, _⟩ :=
    ParseInputRef_ok_options_format x i value onlySources onlyImages r h P O hv
  rw [hbr]
  apply applyInputRefOptionsLoop_branch_set x i _ _ _ _ hloop
  obtain ⟨raw, hraw, k, rest, hk, hkey⟩ := hb
  obtain ⟨pair, hp, k', rest', hk', heq⟩ := pad_key_left _ _ hpad raw hraw k rest hk
  exact ⟨pair, hp, k', rest', hk', heq.trans hkey⟩

/-- A value without a format option that parses has the format of its
path. -/
theorem ParseInputRef_path_format (x : Externals) (i : inputRefParser) (value : String)
    (onlySources onlyImages : Bool) (r : InputRef)
    (h : i.ParseInputRef x value onlySources onlyImages = .ok r)
    (P O : List Char) (hv : value.data = P ++ '#' :: O)
    (hnf : ∀ pair ∈ O.splitOn ',', ∀ k rest, pair.splitOn '=' = k :: rest →
      TrimSpace ⟨k⟩ ≠ "format") :
    i.parseFormatFromPath x (TrimSpace ⟨P⟩) = .ok r.Format := by
  obtain ⟨trs, hpad, r1, hloop, _, hfmt⟩ :=
    ParseInputRef_ok_options_format x i value onlySources onlyImages r h P O hv
  have hunset : r1.Format = .unset := by
    apply applyInputRefOptionsLoop_format x i _ _ _ _ hloop
    intro pair hp k rest hk
    obtain ⟨raw, hraw, k', rest', hk', heq⟩ := pad_key_right _ _ hpad pair hp k rest hk
    rw [← heq]
    exact hnf raw hraw k' rest' hk'
  rcases hfmt with ⟨_, hp⟩ | ⟨hne, _⟩
  · exact hp
  · exact absurd hunset hne

/-- The options text `format=f` has no branch option. -/
theorem format_pair_no_branch (f : String) (h2 : ',' ∉ f.data) (h3 : '=' ∉ f.data) :
    ∀ pair ∈ (("format" : String).data ++ '=' :: f.data).splitOn ',', ∀ k rest,
      pair.splitOn '=' = k :: rest → TrimSpace ⟨k⟩ ≠ "branch" := by
  have hcomma : ',' ∉ ("format" : String).data ++ '=' :: f.data := by
    intro hmem
    rcases List.mem_append.mp hmem with h | h
    · exact absurd h (by decide)
    · rcases List.mem_cons.mp h with h | h
      · exact absurd h (by decide)
      · exact h2 h
  rw [splitOn_single ',' _ hcomma]
  intro pair hp k rest hk
  rw [List.mem_singleton.mp hp, splitOn_two '=' _ _ (by decide) h3] at hk
  rw [← (List.cons.inj hk).1]
  decide

/-- C8: branch if and only if git. For every value and every flag setting on
which `ParseInputRef` succeeds, the returned `Format` is the git format
exactly when the returned `GitBranch` is non-empty. So a git-format input
without a branch option fails: a value without `#` whose path has the git
format fails with the error that asks for a branch; a value `path#options`
whose options have no pair with the key `branch` never parses to the git
format, and fails when it has no `format` pair either and its path has the
git format; and `path#format=f` fails when the override parser reads `f` as
git. And a branch option on any other format fails: a value whose options
have a pair with the key `branch` parses only to the git format, and fails
when it has no `format` pair and its path has another format. With the
collaborators of the spec, `a.proto#format=json,branch=x` fails with a
user-input error, `repo.git` and `repo#format=git` fail with the error that
asks for a branch, and `repo.git#branch=main` yields the git format with
branch `main`. -/
theorem parseInputRef_branch_iff_git :
    (∀ (x : Externals) (i : inputRefParser) (value : String) (onlySources onlyImages : Bool)
      (r : InputRef), i.ParseInputRef x value onlySources onlyImages = .ok r →
        (r.Format = .FormatGit ↔ r.GitBranch ≠ "")) ∧
    (∀ i : inputRefParser,
      ∃ msg, i.ParseInputRef specExternals "a.proto#format=json,branch=x" false false =
        .error (.InvalidArgument msg)) ∧
    (∀ i : inputRefParser,
      i.ParseInputRef specExternals "repo.git#branch=main" false false =
        .ok { Path := "repo.git", Format := .FormatGit, GitBranch := "main",
              StripComponents := 0 }) ∧
    (∀ (x : Externals) (i : inputRefParser) (value : String) (onlySources onlyImages : Bool),
      '#' ∉ value.data → i.parseFormatFromPath x (TrimSpace value) = .ok .FormatGit →
        (∃ e, i.ParseInputRef x value onlySources onlyImages = .error e) ∧
        (¬ (onlySources = true ∧ onlyImages = true) →
          i.ParseInputRef x value onlySources onlyImages =
            .error (newMustSpecifyGitBranchError i.valueFlagName (TrimSpace value)))) ∧
    (∀ (x : Externals) (i : inputRefParser) (value : String) (onlySources onlyImages : Bool)
      (P O : List Char), value.data = P ++ '#' :: O →
      (∀ pair ∈ O.splitOn ',', ∀ k rest, pair.splitOn '=' = k :: rest →
        TrimSpace ⟨k⟩ ≠ "branch") →
      (∀ r, i.ParseInputRef x value onlySources onlyImages = .ok r →
        r.GitBranch = "" ∧ r.Format ≠ .FormatGit) ∧
      ((∀ pair ∈ O.splitOn ',', ∀ k rest, pair.splitOn '=' = k :: rest →
          TrimSpace ⟨k⟩ ≠ "format") →
        i.parseFormatFromPath x (TrimSpace ⟨P⟩) = .ok .FormatGit →
        ∃ e, i.ParseInputRef x value onlySources onlyImages = .error e)) ∧
    (∀ (x : Externals) (i : inputRefParser) (devNull path f : String)
      (onlySources onlyImages : Bool),
      x.DevNull = .ok devNull → '#' ∉ f.data → ',' ∉ f.data → '=' ∉ f.data →
      x.parseFormatOverride i.valueFlagName (TrimSpace f) = .ok .FormatGit →
      ∃ e, i.ParseInputRef x (path ++ "#format=" ++ f) onlySources onlyImages = .error e) ∧
    (∀ (x : Externals) (i : inputRefParser) (value : String) (onlySources onlyImages : Bool)
      (P O : List Char), value.data = P ++ '#' :: O →
      (∃ pair ∈ O.splitOn ',', ∃ k rest, pair.splitOn '=' = k :: rest ∧
        TrimSpace ⟨k⟩ = "branch") →
      (∀ r, i.ParseInputRef x value onlySources onlyImages = .ok r →
        r.Format = .FormatGit ∧ r.GitBranch ≠ "") ∧
      ((∀ pair ∈ O.splitOn ',', ∀ k rest, pair.splitOn '=' = k :: rest →
          TrimSpace ⟨k⟩ ≠ "format") →
        ∀ format, i.parseFormatFromPath x (TrimSpace ⟨P⟩) = .ok format →
          format ≠ .FormatGit →
          ∃ e, i.ParseInputRef x value onlySources onlyImages = .error e)) ∧
    (∀ i : inputRefParser,
      i.ParseInputRef specExternals "repo.git" false false =
        .error (newMustSpecifyGitBranchError i.valueFlagName "repo.git") ∧
      i.ParseInputRef specExternals "repo#format=git" false false =
        .error (newMustSpecifyGitBranchError i.valueFlagName "repo#format=git")) := by
  have hinv : ∀ (x : Externals) (i : inputRefParser) (value : String)
      (onlySources onlyImages : Bool) (r : InputRef),
      i.ParseInputRef x value onlySources onlyImages = .ok r →
        (r.Format = .FormatGit ↔ r.GitBranch ≠ "") := by
    intro x i value os oi r h
    obtain ⟨v, p, o, r0, hc⟩ := ParseInputRef_ok x i value os oi r h
    exact (checkInputRef_ok i v p o os oi r0 r hc).2.1
  refine ⟨hinv, fun i => ⟨_, rfl⟩, fun i => rfl, ?_, ?_, ?_, ?_, fun i => ⟨rfl, rfl⟩⟩
  · intro x i value os oi hhash hgit
    have hv : TrimSpace value ≠ "" := by
      intro he
      rw [he] at hgit
      exact parseFormatFromPath_empty x i hgit
    have hres : ¬ (os = true ∧ oi = true) →
        i.ParseInputRef x value os oi =
          .error (newMustSpecifyGitBranchError i.valueFlagName (TrimSpace value)) := by
      intro hno
      rw [ParseInputRef_no_hash x i value os oi hno hhash hv, hgit]
      simp only [inputRefParser.checkInputRef, and_self, if_true]
    refine ⟨?_, hres⟩
    by_cases hboth : os = true ∧ oi = true
    · exact ParseInputRef_error_of_both x i value os oi hboth
    · exact ⟨_, hres hboth⟩
  · intro x i value os oi P O hv hnb
    have hsucc : ∀ r, i.ParseInputRef x value os oi = .ok r →
        r.GitBranch = "" ∧ r.Format ≠ .FormatGit := by
      intro r h
      have hb := ParseInputRef_no_branch x i value os oi r h P O hv hnb
      exact ⟨hb, fun hg => (hinv x i value os oi r h).mp hg hb⟩
    refine ⟨hsucc, ?_⟩
    intro hnf hgit
    cases hres : i.ParseInputRef x value os oi with
    | error e => exact ⟨e, rfl⟩
    | ok r =>
      exfalso
      have hp := ParseInputRef_path_format x i value os oi r hres P O hv hnf
      rw [hgit] at hp
      exact (hsucc r hres).2 (Except.ok.inj hp).symm
  · intro x i devNull path f os oi hd h1 h2 h3 hf
    cases hres : i.ParseInputRef x (path ++ "#format=" ++ f) os oi with
    | error e => exact ⟨e, rfl⟩
    | ok r =>
      exfalso
      have hun := ParseInputRef_unrestricted x i _ os oi r hres
      have hfmt := (parseInputRef_format_value x i devNull path f .FormatGit hd h1 h2 h3 hf
        (by decide)).1 r hun
      have hval : (path ++ "#format=" ++ f).data =
          path.data ++ '#' :: (("format" : String).data ++ '=' :: f.data) := by
        rw [String.data_append, String.data_append, List.append_assoc]
        rfl
      have hb := ParseInputRef_no_branch x i _ os oi r hres _ _ hval
        (format_pair_no_branch f h2 h3)
      exact (hinv x i _ os oi r hres).mp hfmt hb
  · intro x i value os oi P O hv hb
    have hsucc : ∀ r, i.ParseInputRef x value os oi = .ok r →
        r.Format = .FormatGit ∧ r.GitBranch ≠ "" := by
      intro r h
      have hbr := ParseInputRef_has_branch x i value os oi r h P O hv hb
      exact ⟨(hinv x i value os oi r h).mpr hbr, hbr⟩
    refine ⟨hsucc, ?_⟩
    intro hnf format hpath hng
    cases hres : i.ParseInputRef x value os oi with
    | error e => exact ⟨e, rfl⟩
    | ok r =>
      exfalso
      have hp := ParseInputRef_path_format x i value os oi r hres P O hv hnf
      rw [hpath] at hp
      exact hng ((Except.ok.inj hp).trans (hsucc r hres).1)

/-- C8 on `repo#format=git,branch=dev` read as a source, where the format is
git and the branch `dev` is not empty, and on `repo.git`, which has the git
format and no branch option and fails. -/
theorem parseInputRef_branch_iff_git_witness :
    inputRefParser.ParseInputRef specExternals ⟨"--input"⟩ "repo#format=git,branch=dev"
        true false =
      .ok { Path := "repo", Format := .FormatGit, GitBranch := "dev", StripComponents := 0 } ∧
    (Format.FormatGit = Format.FormatGit ↔ ("dev" : String) ≠ "") ∧
    inputRefParser.ParseInputRef specExternals ⟨"--input"⟩ "repo.git" true false =
      .error (newMustSpecifyGitBranchError "--input" "repo.git") :=
  ⟨rfl, parseInputRef_branch_iff_git.1 specExternals ⟨"--input"⟩ "repo#format=git,branch=dev"
    true false
    { Path := "repo", Format := .FormatGit, GitBranch := "dev", StripComponents := 0 } rfl,
   (parseInputRef_branch_iff_git.2.2.2.1 specExternals ⟨"--input"⟩ "repo.git" true false
    (by decide) rfl).2 (by decide)⟩

end Buf
